import Mathlib

/-!
# ads-txt-service: admission control, request pipeline, parser and cache

A shallow embedding of the Go sources of the service, followed by the
properties established about it.

* `Float64`      : the binary64 arithmetic the token bucket computes with
* `time`         : `time.Duration`, `Time.Sub`, `Duration.Seconds`
* `ratelimit`    : `internal/ratelimit/ratelimiter.go`
* `middleware`   : `internal/middleware/middleware.go`
* `strings`, `bufio`, `parser` : `internal/parser/parser.go` and what it calls
* `handler`      : `internal/handler/handler.go`
* `cache`, `redis` : `internal/cache/ads.cache.go`, `redis.go` and `factory.go`
* `config`       : `internal/config/config.go`
* `strconv`, `json` and the calendar of `time` : what `json.Marshal` and
  `json.Unmarshal` do on a `models.AdsResponse`

Wall-clock readings are explicit arguments: every `time.Now()` of the source
is a parameter of the embedded function, so one call of the source at a given
instant is one application of the embedding. Methods that run under a mutex
are atomic steps on the state they guard; requests are served one at a time.

Go values are embedded as follows: `int` and `time.Duration` as integers,
`float64` as the rational it denotes with every operation rounded to the
nearest binary64 value, `string` as the text it encodes, `map[string]T` as
the list of its entries or the partial function it denotes, a `[]byte` that
holds JSON as the text it encodes, a `time.Time` in UTC as the nanoseconds
since the Unix epoch, a slice of pointers as the list of the values pointed to.
-/

/-! ## Definitions -/

namespace Float64

/-- Round to the nearest integer, ties to the even one (the IEEE 754 default
rounding direction, the only one Go uses). -/
def roundHalfEven (q : ℚ) : ℤ :=
  let f := ⌊q⌋
  let r := q - f
  if r < 1 / 2 then f
  else if 1 / 2 < r then f + 1
  else if f % 2 = 0 then f else f + 1

/-- Exponent of the unit in the last place of the binary64 number nearest to
`q`: 53 significant bits, with the subnormal floor `2^-1074`. -/
def exponent (q : ℚ) : ℤ := max (Int.log 2 |q| - 52) (-1074)

/-- The value of the float64 nearest to the real number `q` (round to nearest,
ties to even). Finite float64 values are represented by the rational they
denote; every quantity the bucket computes from an `int` capacity and
`Duration` arguments is far below `2^1024`, so the overflow to infinity never
arises and is not represented. Each arithmetic operation below rounds on its
own, as the code the Go compiler emits for amd64 does (no fused
multiply-add). -/
def round (q : ℚ) : ℚ := (roundHalfEven (q / 2 ^ exponent q) : ℚ) * 2 ^ exponent q

/-- Go `a + b` on float64 operands. -/
def add (a b : ℚ) : ℚ := round (a + b)

/-- Go `a - b` on float64 operands. -/
def sub (a b : ℚ) : ℚ := round (a - b)

/-- Go `a * b` on float64 operands. -/
def mul (a b : ℚ) : ℚ := round (a * b)

/-- Go `a / b` on float64 operands (`b` nonzero). -/
def div (a b : ℚ) : ℚ := round (a / b)

/-- Go `float64(n)` for an integer `n`. -/
def ofInt (n : ℤ) : ℚ := round (n : ℚ)

/-- The rationals that are float64 values: `m * 2^e` with a 53-bit `m`. -/
def Representable (x : ℚ) : Prop :=
  ∃ m e : ℤ, -1074 ≤ e ∧ |m| < 2 ^ 53 ∧ x = (m : ℚ) * 2 ^ e

end Float64

namespace time

/-- The constants `time.Second` and `time.Minute`, in nanoseconds. -/
def Second : ℤ := 1000000000

def Minute : ℤ := 60 * Second

/-- Bounds of `time.Duration` (an int64 count of nanoseconds). -/
def minDuration : ℤ := -(2 ^ 63)

def maxDuration : ℤ := 2 ^ 63 - 1

/-- Go `t.Sub(u)` on two readings of the monotonic clock (nanoseconds): the
difference, saturated to the range of `Duration` as `subMono` does. -/
def Sub (t u : ℤ) : ℤ :=
  if maxDuration < t - u then maxDuration
  else if t - u < minDuration then minDuration
  else t - u

/-- Go `d.Seconds()`:
`sec := d / Second; nsec := d % Second; return float64(sec) + float64(nsec)/1e9`
(Go integer division truncates toward zero). -/
def Seconds (d : ℤ) : ℚ :=
  let sec := Int.tdiv d Second
  let nsec := Int.tmod d Second
  Float64.add (Float64.ofInt sec) (Float64.div (Float64.ofInt nsec) 1000000000)

end time

namespace ratelimit

/-- The struct `TokenBucket` without its mutex: the three float64 fields and
the instant of the last refill (a monotonic clock reading). -/
structure TokenBucket where
  capacity : ℚ
  tokens : ℚ
  refillRate : ℚ
  lastRefill : ℤ
deriving DecidableEq

/-- Go `NewTokenBucket(capacity, refillPeriod)`; `now` is the value of the
`time.Now()` it reads. -/
def NewTokenBucket (capacity : ℤ) (refillPeriod : ℤ) (now : ℤ) : TokenBucket :=
  let sec := time.Seconds refillPeriod
  let sec := if sec ≤ 0 then 1 else sec
  { capacity := Float64.ofInt capacity
    tokens := Float64.ofInt capacity
    refillRate := Float64.div (Float64.ofInt capacity) sec
    lastRefill := now }

namespace TokenBucket

/-- Go `tb.refillLocked()`; `now` is the value of the `time.Now()` it reads. -/
def refillLocked (tb : TokenBucket) (now : ℤ) : TokenBucket :=
  let elapsed := time.Seconds (time.Sub now tb.lastRefill)
  if elapsed ≤ 0 then tb
  else
    let tokens := Float64.add tb.tokens (Float64.mul elapsed tb.refillRate)
    let tokens := if tokens > tb.capacity then tb.capacity else tokens
    { tb with tokens := tokens, lastRefill := now }

/-- Go `tb.Allow()`: the result and the bucket afterwards. -/
def Allow (tb : TokenBucket) (now : ℤ) : Bool × TokenBucket :=
  let tb := tb.refillLocked now
  if tb.tokens ≥ 1 then (true, { tb with tokens := Float64.sub tb.tokens 1 })
  else (false, tb)

/-- Go `tb.AllowWithRemaining()`: the two results and the bucket afterwards. -/
def AllowWithRemaining (tb : TokenBucket) (now : ℤ) : (Bool × ℚ) × TokenBucket :=
  let tb := tb.refillLocked now
  if tb.tokens ≥ 1 then
    let tb := { tb with tokens := Float64.sub tb.tokens 1 }
    ((true, tb.tokens), tb)
  else ((false, tb.tokens), tb)

/-- Go `tb.Remaining()`: the result and the bucket afterwards. -/
def Remaining (tb : TokenBucket) (now : ℤ) : ℚ × TokenBucket :=
  let tb := tb.refillLocked now
  (tb.tokens, tb)

end TokenBucket

/-- The three exported methods of a bucket. -/
inductive Call where
  | allow
  | allowWithRemaining
  | remaining
deriving DecidableEq, Repr

/-- One method call made at clock reading `now`: the bucket afterwards. -/
def step (tb : TokenBucket) (c : Call × ℤ) : TokenBucket :=
  match c.1 with
  | Call.allow => (tb.Allow c.2).2
  | Call.allowWithRemaining => (tb.AllowWithRemaining c.2).2
  | Call.remaining => (tb.Remaining c.2).2

/-- A finite sequence of method calls, each at its own clock reading. -/
def run (tb : TokenBucket) (cs : List (Call × ℤ)) : TokenBucket := cs.foldl step tb

/-- The results of `n` consecutive calls of `Allow`, all at reading `now`. -/
def allowN : ℕ → ℤ → TokenBucket → List Bool
  | 0, _, _ => []
  | n + 1, now, tb => (tb.Allow now).1 :: allowN n now (tb.Allow now).2

/-- The results of `n` consecutive calls of `AllowWithRemaining`, all at
reading `now`. -/
def allowWithRemainingN : ℕ → ℤ → TokenBucket → List Bool
  | 0, _, _ => []
  | n + 1, now, tb =>
    (tb.AllowWithRemaining now).1.1 :: allowWithRemainingN n now (tb.AllowWithRemaining now).2

/-- The bucket after `n` consecutive calls of `Allow` at reading `now`. -/
def afterAllowN : ℕ → ℤ → TokenBucket → TokenBucket
  | 0, _, tb => tb
  | n + 1, now, tb => afterAllowN n now (tb.Allow now).2

/-- The facts about a bucket that every method keeps true. -/
structure WellFormed (tb : TokenBucket) : Prop where
  tokens_nonneg : 0 ≤ tb.tokens
  tokens_le : tb.tokens ≤ tb.capacity
  tokens_rep : Float64.Representable tb.tokens
  capacity_rep : Float64.Representable tb.capacity
  rate_nonneg : 0 ≤ tb.refillRate

/-- No time has passed for `tb` at reading `now`: `refillLocked` returns early. -/
def Settled (tb : TokenBucket) (now : ℤ) : Prop :=
  time.Seconds (time.Sub now tb.lastRefill) ≤ 0

end ratelimit

namespace unicode

/-- Go `unicode.IsSpace`: the code points with the Unicode White_Space property. -/
def IsSpace (c : Char) : Bool :=
  let n := c.toNat
  (0x09 ≤ n && n ≤ 0x0D) || n == 0x20 || n == 0x85 || n == 0xA0 || n == 0x1680 ||
    (0x2000 ≤ n && n ≤ 0x200A) || n == 0x2028 || n == 0x2029 || n == 0x202F ||
    n == 0x205F || n == 0x3000

end unicode

namespace strings

/-- Go `len(s)`: the number of bytes of the UTF-8 encoding. -/
def len (s : String) : ℕ := s.utf8ByteSize

/-- Go `strings.TrimSpace` on the characters of a string. -/
def trimSpaceChars (cs : List Char) : List Char :=
  ((cs.dropWhile unicode.IsSpace).reverse.dropWhile unicode.IsSpace).reverse

/-- Go `strings.TrimSpace(s)`. -/
def TrimSpace (s : String) : String := String.mk (trimSpaceChars s.data)

/-- Go `strings.HasPrefix(s, p)`. -/
def HasPrefix (s p : String) : Bool := p.data.isPrefixOf s.data

/-- The pieces of `cs` between occurrences of `sep`; `cur` holds the piece
being read, reversed. There is always at least one piece. -/
def splitChars (sep : Char) : List Char → List Char → List (List Char)
  | [], cur => [cur.reverse]
  | c :: cs, cur =>
    if c = sep then cur.reverse :: splitChars sep cs [] else splitChars sep cs (c :: cur)

/-- Go `strings.Split(s, sep)` for a separator of one character. -/
def Split (s : String) (sep : Char) : List String :=
  (splitChars sep s.data []).map String.mk

end strings

namespace bufio

/-- The constant `bufio.MaxScanTokenSize`. -/
def MaxScanTokenSize : ℕ := 64 * 1024

/-- The helper `dropCR` of `bufio.ScanLines`: one trailing carriage return is
removed. -/
def dropCR (data : List Char) : List Char :=
  if data.getLast? = some '\r' then data.dropLast else data

/-- The lines `bufio.ScanLines` cuts the input into, before `dropCR`: each
ends at a newline, which is not part of it; text after the last newline is a
final line when it is not empty. `cur` holds the line being read, reversed. -/
def rawLines : List Char → List Char → List (List Char)
  | [], cur => if cur.isEmpty then [] else [cur.reverse]
  | c :: cs, cur =>
    if c = '\n' then cur.reverse :: rawLines cs [] else rawLines cs (c :: cur)

/-- The tokens that successive calls of `Scanner.Scan` deliver for a scanner
made by `bufio.NewScanner` over the text `input` with the default split
function `ScanLines` and the default buffer: the lines in order, up to the
first line of `MaxScanTokenSize` bytes or more, at which `Scan` reports
`ErrTooLong` and returns false for good. -/
def Scan (input : String) : List String :=
  (((rawLines input.data []).takeWhile
    (fun l => decide (strings.len (String.mk l) < MaxScanTokenSize))).map dropCR).map String.mk

end bufio

namespace parser

/-- Go `out[ad]++` on a `map[string]int`, the map being the list of its entries. -/
def incr : List (String × ℤ) → String → List (String × ℤ)
  | [], ad => [(ad, 1)]
  | (k, v) :: out, ad => if k = ad then (k, v + 1) :: out else (k, v) :: incr out ad

/-- The body of the scanning loop of `ParseAdsTxt` for one token. -/
def parseLine (out : List (String × ℤ)) (text : String) : List (String × ℤ) :=
  let line := strings.TrimSpace text
  if line = "" || strings.HasPrefix line "#" then out
  else
    match strings.Split line ',' with
    | [] => out
    | p :: _ =>
      let ad := strings.TrimSpace p
      if ad = "" then out else incr out ad

/-- Go `(*Parser).ParseAdsTxt(r)` for a reader over the text `r`. -/
def ParseAdsTxt (r : String) : List (String × ℤ) :=
  (bufio.Scan r).foldl parseLine []

/-- Go `m[k]` on a `map[string]int`: the stored count, zero when the key is absent. -/
def get : List (String × ℤ) → String → ℤ
  | [], _ => 0
  | (k, v) :: m, ad => if k = ad then v else get m ad

/-- A line that the wording "ignoring blank lines and lines beginning with #"
keeps, read on the trimmed line. -/
def kept (line : String) : Bool :=
  !(strings.TrimSpace line = "" || strings.HasPrefix (strings.TrimSpace line) "#")

/-- The advertiser key of a line: its first comma-delimited field, trimmed. -/
def key (line : String) : String :=
  strings.TrimSpace (String.mk ((strings.TrimSpace line).data.takeWhile (fun c => c != ',')))

/-- The count the claimed mapping gives to `ad`: the number of kept lines whose
key is `ad`, the lines being the pieces of the text between newlines. -/
def claimedCount (r : String) (ad : String) : ℕ :=
  ((strings.Split r '\n').filter (fun l => kept l && key l == ad)).length

/-- The facts about a parsed map: no key twice, no empty key, every count at
least one. -/
structure Counted (out : List (String × ℤ)) : Prop where
  nodup : (out.map Prod.fst).Nodup
  pos : ∀ e ∈ out, 1 ≤ e.2
  nonempty : ∀ e ∈ out, e.1 ≠ ""

end parser

namespace models

/-- The struct `Advertiser`. -/
structure Advertiser where
  Domain : String
  Count : ℤ
deriving DecidableEq, Repr

/-- The struct `AdsResponse`; `Timestamp` is a clock reading. -/
structure AdsResponse where
  Domain : String
  TotalAdvertisers : ℤ
  Advertisers : List Advertiser
  Cached : Bool
  Timestamp : ℤ
deriving DecidableEq, Repr

end models

namespace http

/-- What a handler writes: the message given to `http.Error`, or the value
given to `writeJSON`. -/
inductive Body where
  | text (msg : String)
  | ads (resp : models.AdsResponse)
  | health
deriving DecidableEq, Repr

/-- The status code and body of a response. -/
structure Response where
  status : ℕ
  body : Body
deriving DecidableEq, Repr

/-- The status codes the handlers use. -/
def StatusOK : ℕ := 200

def StatusBadRequest : ℕ := 400

def StatusTooManyRequests : ℕ := 429

def StatusInternalServerError : ℕ := 500

def StatusBadGateway : ℕ := 502

/-- The response that `http.Error(w, msg, code)` writes. -/
def Error (msg : String) (code : ℕ) : Response := ⟨code, Body.text msg⟩

end http

namespace middleware

/-- The struct `clientLimiter`. -/
structure clientLimiter where
  limiter : ratelimit.TokenBucket
  lastSeen : ℤ

/-- The struct `RateLimiter` without its mutex and logger; the Go map
`clientLimiters` is the partial function it denotes. -/
structure RateLimiter where
  clientLimiters : String → Option clientLimiter
  capacity : ℤ
  refillPeriod : ℤ
  cleanupPeriod : ℤ

/-- Go `NewRateLimiter(capacity, refillPeriod, lg)`, without the start of the
cleanup goroutine. -/
def NewRateLimiter (capacity refillPeriod : ℤ) : RateLimiter :=
  { clientLimiters := fun _ => none
    capacity := capacity
    refillPeriod := refillPeriod
    cleanupPeriod := 1 * time.Minute }

/-- One tick of `cleanupLoop`: the locked loop over the map. `nowAt ip` is the
clock reading of the `time.Since` evaluated when the entry of `ip` is visited. -/
def sweep (rl : RateLimiter) (nowAt : String → ℤ) : RateLimiter :=
  { rl with
    clientLimiters := fun ip =>
      match rl.clientLimiters ip with
      | none => none
      | some cl => if time.Sub (nowAt ip) cl.lastSeen > rl.cleanupPeriod then none else some cl }

/-- Go `cleanupLoop` over the ticks that have fired so far. -/
def cleanupLoop (rl : RateLimiter) (ticks : List (String → ℤ)) : RateLimiter :=
  ticks.foldl sweep rl

/-- The locked section of the middleware: the entry of `clientIP` is created
when absent (`tNew` is the clock reading inside `NewTokenBucket`, `tSeen` the
one stored in `lastSeen`), else its `lastSeen` is set to `tSeen`. -/
def touch (rl : RateLimiter) (clientIP : String) (tNew tSeen : ℤ) : clientLimiter :=
  match rl.clientLimiters clientIP with
  | none =>
    { limiter := ratelimit.NewTokenBucket rl.capacity rl.refillPeriod tNew, lastSeen := tSeen }
  | some cl => { cl with lastSeen := tSeen }

/-- The map with the entry of `clientIP` replaced. -/
def store (rl : RateLimiter) (clientIP : String) (cl : clientLimiter) : RateLimiter :=
  { rl with clientLimiters := fun ip => if ip = clientIP then some cl else rl.clientLimiters ip }

/-- The outcome of the handler that `RateLimitMiddleware` returns, for one
request of client `clientIP`: the response and the state `s` of the rest of
the server, untouched, if the request is refused, else the result of the
wrapped handler `next`; and the rate limiter afterwards. `tAllow` is the clock
reading inside `AllowWithRemaining`. -/
def RateLimitMiddleware {σ : Type} (rl : RateLimiter) (next : σ → http.Response × σ)
    (clientIP : String) (tNew tSeen tAllow : ℤ) (s : σ) : (http.Response × σ) × RateLimiter :=
  let cl := touch rl clientIP tNew tSeen
  let r := cl.limiter.AllowWithRemaining tAllow
  let rl := store rl clientIP { cl with limiter := r.2 }
  if !r.1.1 then ((http.Error "Too Many Requests" http.StatusTooManyRequests, s), rl)
  else (next s, rl)

end middleware



namespace strconv

/-- The character of the decimal digit `n % 10`. -/
def digit (n : ℕ) : Char := Nat.digitChar (n % 10)

/-- The last `w` decimal digits of `n`, most significant first. -/
def lowDigits : ℕ → ℕ → List Char
  | 0, _ => []
  | w + 1, n => lowDigits w (n / 10) ++ [digit n]

/-- The loop that counts the decimal digits of `n`; `fuel` bounds the number
of divisions. -/
def numDigitsAux : ℕ → ℕ → ℕ
  | 0, _ => 1
  | fuel + 1, n => if n < 10 then 1 else numDigitsAux fuel (n / 10) + 1

/-- The number of decimal digits of `n`, one for zero. -/
def numDigits (n : ℕ) : ℕ := numDigitsAux n n

/-- Go `strconv.AppendInt(nil, i, 10)`: a minus sign for a negative number,
then the decimal digits without leading zeros. -/
def AppendInt (i : ℤ) : List Char :=
  (if i < 0 then ['-'] else []) ++ lowDigits (numDigits i.natAbs) i.natAbs

/-- A character of `0` to `9`. -/
def isDigit (c : Char) : Bool := decide ('0' ≤ c) && decide (c ≤ '9')

/-- The value of a decimal digit character. -/
def digitVal (c : Char) : ℕ := c.toNat - 48

/-- The number a string of decimal digits denotes. -/
def parseDigits (s : List Char) : ℕ := s.foldl (fun x c => x * 10 + digitVal c) 0

/-- Go `strconv.ParseInt(s, 10, 64)`: an optional sign and decimal digits, of
a value in the range of int64; `none` for the syntax and the range error. -/
def ParseInt (s : List Char) : Option ℤ :=
  let neg := s.head? = some '-'
  let ds := if s.head? = some '-' ∨ s.head? = some '+' then s.tail else s
  if ds = [] ∨ ds.all isDigit = false then none
  else if neg then
    if parseDigits ds ≤ 2 ^ 63 then some (-(parseDigits ds : ℤ)) else none
  else
    if parseDigits ds < 2 ^ 63 then some (parseDigits ds : ℤ) else none

end strconv

namespace time

/-- Go `isLeap(year)`. -/
def isLeap (year : ℤ) : Bool :=
  decide (year % 4 = 0) && (decide (year % 100 ≠ 0) || decide (year % 400 = 0))

/-- Go `daysIn(m, year)`: the number of days of month `m` (1 to 12). -/
def daysIn (m year : ℤ) : ℤ :=
  if m = 2 then (if isLeap year then 29 else 28)
  else if m = 4 ∨ m = 6 ∨ m = 9 ∨ m = 11 then 30
  else 31

/-- The year and the zero-based day of the year, for the day that lies `a`
days after January 1 of year 1 (proleptic Gregorian calendar): whole cycles
of 400 years, then of 100 years, of 4 years and of one year, as
`Time.date` counts them. -/
def yearDay (a : ℤ) : ℤ × ℤ :=
  let n400 := a / 146097
  let r := a % 146097
  let n100 := min (r / 36524) 3
  let r1 := r - 36524 * n100
  let n4 := r1 / 1461
  let r2 := r1 % 1461
  let n1 := min (r2 / 365) 3
  (1 + 400 * n400 + 100 * n100 + 4 * n4 + n1, r2 - 365 * n1)

/-- The month and the day of the month for the zero-based day `d` of `year`,
walking the months from `m` on; `k` months lie after `m`. -/
def monthDayFrom (year : ℤ) : ℕ → ℤ → ℤ → ℤ × ℤ
  | 0, m, d => (m, d + 1)
  | k + 1, m, d =>
    if d < daysIn m year then (m, d + 1) else monthDayFrom year k (m + 1) (d - daysIn m year)

/-- The month (1 to 12) and the day of the month of the zero-based day `yday`
of `year`. -/
def monthDay (year yday : ℤ) : ℤ × ℤ := monthDayFrom year 11 1 yday

/-- A month and a day of the month that exist in `year`. -/
def IsDate (year : ℤ) (md : ℤ × ℤ) : Prop :=
  1 ≤ md.1 ∧ md.1 ≤ 12 ∧ 1 ≤ md.2 ∧ md.2 ≤ daysIn md.1 year

/-- The fields of a time presented in UTC. -/
structure Civil where
  year : ℤ
  month : ℤ
  day : ℤ
  hour : ℤ
  minute : ℤ
  second : ℤ
  nanosecond : ℤ
deriving DecidableEq, Repr

/-- Go `t.Date()`, `t.Clock()` and `t.Nanosecond()` for the time `t`
nanoseconds after the Unix epoch, in UTC. January 1 of 1970 is day 719162
after January 1 of year 1. -/
def civil (t : ℤ) : Civil :=
  let sec := t / 1000000000
  let days := sec / 86400
  let rem := sec % 86400
  let yd := yearDay (days + 719162)
  let md := monthDay yd.1 yd.2
  { year := yd.1, month := md.1, day := md.2, hour := rem / 3600, minute := rem % 3600 / 60,
    second := rem % 60, nanosecond := t % 1000000000 }

/-- Go `appendInt(b, x, width)` of package `time`: a minus sign for a negative
number, then its decimal digits, zero-padded to `width` places. -/
def appendInt (x : ℤ) (width : ℕ) : List Char :=
  (if x < 0 then ['-'] else []) ++
    strconv.lowDigits (max width (strconv.numDigits x.natAbs)) x.natAbs

/-- The text without its trailing zeros. -/
def trimZeros (s : List Char) : List Char := (s.reverse.dropWhile (fun c => c == '0')).reverse

/-- Go `appendNano(b, nanosec, stdFracSecond9)`: nothing for zero, else a
period and the nine digits without their trailing zeros. -/
def appendNano (nanosec : ℤ) : List Char :=
  if nanosec = 0 then [] else '.' :: trimZeros (appendInt nanosec 9)

/-- Go `t.appendFormatRFC3339(b, true)` for a time in UTC: the layout
`2006-01-02T15:04:05.999999999Z07:00`. -/
def appendFormatRFC3339 (t : ℤ) : List Char :=
  let c := civil t
  appendInt c.year 4 ++ '-' :: appendInt c.month 2 ++ '-' :: appendInt c.day 2 ++
    'T' :: appendInt c.hour 2 ++ ':' :: appendInt c.minute 2 ++ ':' :: appendInt c.second 2 ++
    appendNano c.nanosecond ++ ['Z']

/-- Go `t.MarshalJSON()` for a time in UTC: the quoted RFC 3339 text, or an
error when the year has not exactly four digits (the check
`b[n0+len("9999")] != '-'` of `appendStrictRFC3339` fails exactly for a year
below 0 or above 9999). -/
def MarshalJSON (t : ℤ) : Except String (List Char) :=
  if (civil t).year < 0 ∨ 9999 < (civil t).year then
    Except.error "Time.MarshalJSON: year outside of range [0,9999]"
  else Except.ok ('"' :: appendFormatRFC3339 t ++ ['"'])

/-- The closure `parseUint` of `parseRFC3339`: the value of a string of
digits when it lies between `min` and `max`. -/
def parseUint (s : List Char) (min max : ℤ) : Option ℤ :=
  if s.all strconv.isDigit = false then none
  else if (strconv.parseDigits s : ℤ) < min ∨ max < (strconv.parseDigits s : ℤ) then none
  else some (strconv.parseDigits s : ℤ)

/-- The number of days from January 1 of year 1 to the first day of month `m`
of `year`. -/
def daysBefore (year m : ℤ) : ℤ :=
  365 * (year - 1) + (year - 1) / 4 - (year - 1) / 100 + (year - 1) / 400 +
    ((List.range (m - 1).toNat).map (fun i => daysIn (i + 1) year)).sum

/-- Go `Date(year, month, day, hour, min, sec, nsec, UTC)` for fields in
their ranges, as nanoseconds after the Unix epoch. -/
def Date (year month day hour min sec nsec : ℤ) : ℤ :=
  (((daysBefore year month + day - 1 - 719162) * 86400 + hour * 3600 + min * 60 + sec) *
    1000000000) + nsec

/-- Go `parseNanoseconds` on the digits after the period: at most nine of
them count, scaled to nanoseconds. -/
def parseNanoseconds (ds : List Char) : ℤ :=
  (strconv.parseDigits (ds.take 9) : ℤ) * 10 ^ (9 - (ds.take 9).length)

/-- The time zone part of `parseRFC3339`: `Z`, or a sign and `hh:mm` with the
hour up to 23 and the minute up to 59; the offset in seconds. -/
def parseZone (s : List Char) : Option ℤ :=
  if s = ['Z'] then some 0
  else if s.length ≠ 6 then none
  else
    match parseUint ((s.drop 1).take 2) 0 23, parseUint ((s.drop 4).take 2) 0 59 with
    | some hr, some mm =>
      if (s.head? = some '-' ∨ s.head? = some '+') ∧ s.get? 3 = some ':' then
        some (if s.head? = some '-' then -((hr * 60 + mm) * 60) else (hr * 60 + mm) * 60)
      else none
    | _, _ => none

/-- The end of `parseRFC3339`, after the seconds: an optional fractional
second, a period followed by digits, and the time zone. The nanoseconds and
the offset in seconds. -/
def parseFracZone (s1 : List Char) : Option (ℤ × ℤ) :=
  if s1.head? = some '.' ∧ (s1.tail.head?.map strconv.isDigit = some true) then
    match parseZone (s1.tail.dropWhile strconv.isDigit) with
    | some offset => some (parseNanoseconds (s1.tail.takeWhile strconv.isDigit), offset)
    | none => none
  else
    match parseZone s1 with
    | some offset => some (0, offset)
    | none => none

/-- Go `parseRFC3339(s, Local)`: the time in nanoseconds after the Unix epoch,
or `none` when the text is not of the form
`yyyy-mm-ddThh:mm:ss[.fraction](Z|±hh:mm)` with every field in its range. -/
def parseRFC3339 (s : List Char) : Option ℤ :=
  if s.length < 19 then none
  else
    match parseUint (s.take 4) 0 9999, parseUint ((s.drop 5).take 2) 1 12 with
    | some year, some month =>
      match parseUint ((s.drop 8).take 2) 1 (daysIn month year),
        parseUint ((s.drop 11).take 2) 0 23, parseUint ((s.drop 14).take 2) 0 59,
        parseUint ((s.drop 17).take 2) 0 59 with
      | some day, some hour, some min, some sec =>
        if s.get? 4 = some '-' ∧ s.get? 7 = some '-' ∧ s.get? 10 = some 'T' ∧
            s.get? 13 = some ':' ∧ s.get? 16 = some ':' then
          match parseFracZone (s.drop 19) with
          | some (nsec, offset) =>
            some (Date year month day hour min sec nsec - offset * 1000000000)
          | none => none
        else none
      | _, _, _, _ => none
    | _, _ => none

/-- Go `(*Time).UnmarshalJSON(data)` for data other than `null`: the text must
begin and end with a double quote, and what stands between them, taken as it
is, must parse. When `parseRFC3339` rejects it, `parseStrictRFC3339` falls
back on the general layout parser `Parse(RFC3339, s)`, which is the argument
`layout` here. -/
def UnmarshalJSON (layout : List Char → Option ℤ) (data : List Char) : Except String ℤ :=
  if data.length < 2 ∨ data.head? ≠ some '"' ∨ data.getLast? ≠ some '"' then
    Except.error "Time.UnmarshalJSON: input is not a JSON string"
  else
    match parseRFC3339 ((data.drop 1).take (data.length - 2)) with
    | some t => Except.ok t
    | none =>
      match layout ((data.drop 1).take (data.length - 2)) with
      | some t => Except.ok t
      | none => Except.error "parsing time: cannot parse"

end time

namespace json

/-- The character of the hexadecimal digit `n % 16`, in lower case. -/
def hexDigit (n : ℕ) : Char := Nat.digitChar (n % 16)

/-- What the encoder writes for one character of a string, with HTML
escaping on as `json.Marshal` has it: a backslash before the quote and the
backslash, the short escapes for backspace, form feed, newline, carriage
return and tab, `\u00XX` for the other control characters and for `<`, `>`
and `&`, the same for the line separators U+2028 and U+2029, and every other
character as it is. -/
def escapeChar (c : Char) : List Char :=
  if c = '"' ∨ c = '\\' then ['\\', c]
  else if c = '\x08' then ['\\', 'b']
  else if c = '\x0c' then ['\\', 'f']
  else if c = '\n' then ['\\', 'n']
  else if c = '\r' then ['\\', 'r']
  else if c = '\t' then ['\\', 't']
  else if c.toNat < 0x20 ∨ c = '<' ∨ c = '>' ∨ c = '&' ∨ c.toNat = 0x2028 ∨ c.toNat = 0x2029 then
    ['\\', 'u', hexDigit (c.toNat / 4096), hexDigit (c.toNat / 256), hexDigit (c.toNat / 16),
      hexDigit c.toNat]
  else [c]

/-- The characters of a string, each escaped. -/
def escape : List Char → List Char
  | [] => []
  | c :: cs => escapeChar c ++ escape cs

/-- The encoding of a string: the escaped text between double quotes. -/
def appendString (s : String) : List Char := '"' :: escape s.data ++ ['"']

/-- The encoding of one `*Advertiser`: the members `domain` and `count`. -/
def encodeAdvertiser (a : models.Advertiser) : List Char :=
  "\x7b\"domain\":".data ++ appendString a.Domain ++ ",\"count\":".data ++
    strconv.AppendInt a.Count ++ ['\x7d']

/-- The encodings of the elements of a slice, separated by commas. -/
def encodeElems : List models.Advertiser → List Char
  | [] => []
  | [a] => encodeAdvertiser a
  | a :: b :: rest => encodeAdvertiser a ++ ',' :: encodeElems (b :: rest)

/-- Go `json.Marshal(resp)` for `resp` of type `*models.AdsResponse`: the
members in the order of the struct fields under the names of their tags,
without white space. It fails only when `Time.MarshalJSON` does. The list of
this embedding is a slice that is not nil, as `GetAds` builds it, so an empty
one is written `[]`. -/
def Marshal (resp : models.AdsResponse) : Except String String :=
  match time.MarshalJSON resp.Timestamp with
  | Except.error err =>
    Except.error ("json: error calling MarshalJSON for type time.Time: " ++ err)
  | Except.ok ts =>
    Except.ok (String.mk ("\x7b\"domain\":".data ++ appendString resp.Domain ++
      ",\"total_advertisers\":".data ++ strconv.AppendInt resp.TotalAdvertisers ++
      ",\"advertisers\":[".data ++ encodeElems resp.Advertisers ++
      "],\"cached\":".data ++ (if resp.Cached then "true".data else "false".data) ++
      ",\"timestamp\":".data ++ ts ++ ['\x7d']))

/-- A JSON value as the decoder reads it: numbers and strings keep the text
they were written with (a string without its quotes), which is what the
typed decoding works on. -/
inductive Value where
  | null
  | bool (b : Bool)
  | number (raw : List Char)
  | string (raw : List Char)
  | array (elems : List Value)
  | object (members : List (List Char × Value))

/-- The white space of JSON. -/
def isSpace (c : Char) : Bool := c == ' ' || c == '\t' || c == '\r' || c == '\n'

/-- The text after its leading white space. -/
def skipSpace (s : List Char) : List Char := s.dropWhile isSpace

/-- A hexadecimal digit. -/
def isHex (c : Char) : Bool :=
  strconv.isDigit c || (decide ('a' ≤ c) && decide (c ≤ 'f')) ||
    (decide ('A' ≤ c) && decide (c ≤ 'F'))

/-- Where the scanner stands inside a string literal: in the text, after a
backslash, or after `\u` and 0 to 3 hexadecimal digits. -/
inductive strState where
  | text
  | esc
  | u0
  | u1
  | u2
  | u3
deriving DecidableEq, Repr

/-- One step of the scanner inside a string literal: `none` for a character
that is not allowed, `some none` for the closing quote, else the next state. -/
def strStep : strState → Char → Option (Option strState)
  | strState.text, c =>
    if c = '"' then some none
    else if c = '\\' then some (some strState.esc)
    else if c.toNat < 0x20 then none
    else some (some strState.text)
  | strState.esc, c =>
    if c = 'u' then some (some strState.u0)
    else if c = 'b' ∨ c = 'f' ∨ c = 'n' ∨ c = 'r' ∨ c = 't' ∨ c = '\\' ∨ c = '/' ∨ c = '"' then
      some (some strState.text)
    else none
  | strState.u0, c => if isHex c then some (some strState.u1) else none
  | strState.u1, c => if isHex c then some (some strState.u2) else none
  | strState.u2, c => if isHex c then some (some strState.u3) else none
  | strState.u3, c => if isHex c then some (some strState.text) else none

/-- The scanner on a string literal after its opening quote: the text up to
the closing quote, as written, and what follows that quote. `acc` holds the
characters read, in reverse. -/
def scanString : strState → List Char → List Char → Option (List Char × List Char)
  | _, [], _ => none
  | st, c :: r, acc =>
    match strStep st c with
    | none => none
    | some none => some (acc.reverse, r)
    | some (some st1) => scanString st1 r (c :: acc)

/-- The exponent part of a number, if there is one: `e` or `E`, an optional
sign, and at least one digit. `acc` is the text of the number so far. -/
def scanExponent (acc s : List Char) : Option (List Char × List Char) :=
  if s.head? = some 'e' ∨ s.head? = some 'E' then
    let sign := if s.tail.head? = some '+' ∨ s.tail.head? = some '-' then s.tail.take 1 else []
    let r := s.tail.drop sign.length
    if r.takeWhile strconv.isDigit = [] then none
    else some (acc ++ s.take 1 ++ sign ++ r.takeWhile strconv.isDigit, r.dropWhile strconv.isDigit)
  else some (acc, s)

/-- The fraction part of a number, if there is one: a period and at least one
digit; then the exponent part. -/
def scanFraction (acc s : List Char) : Option (List Char × List Char) :=
  if s.head? = some '.' then
    if s.tail.takeWhile strconv.isDigit = [] then none
    else scanExponent (acc ++ '.' :: s.tail.takeWhile strconv.isDigit)
      (s.tail.dropWhile strconv.isDigit)
  else scanExponent acc s

/-- The scanner on a number: an optional minus sign, `0` or a digit from 1 to
9 followed by digits, then the fraction and exponent parts. The text of the
number and what follows it. -/
def scanNumber (s : List Char) : Option (List Char × List Char) :=
  let sign := if s.head? = some '-' then ['-'] else []
  let r := s.drop sign.length
  match r with
  | [] => none
  | c :: r1 =>
    if c = '0' then scanFraction (sign ++ ['0']) r1
    else if strconv.isDigit c then
      scanFraction (sign ++ c :: r1.takeWhile strconv.isDigit) (r1.dropWhile strconv.isDigit)
    else none

/-- What is left of `s` after the literal `lit`, when `s` begins with it. -/
def literal (lit s : List Char) : Option (List Char) :=
  if lit.isPrefixOf s then some (s.drop lit.length) else none

/-- The scanner cannot nest arrays and objects deeper than this. -/
def maxNestingDepth : ℕ := 10000

mutual

/-- One JSON value at the start of `s`, after optional white space, and the
text that follows it. `d` is the number of arrays and objects being read;
`fuel` bounds the number of nested calls. -/
def parseValue : ℕ → ℕ → List Char → Option (Value × List Char)
  | 0, _, _ => none
  | fuel + 1, d, s =>
    match skipSpace s with
    | [] => none
    | c :: r =>
      if c = '\x7b' then
        if maxNestingDepth ≤ d then none
        else if (skipSpace r).head? = some '\x7d' then some (Value.object [], (skipSpace r).tail)
        else
          match parseMembers fuel (d + 1) r with
          | none => none
          | some (ms, r1) => some (Value.object ms, r1)
      else if c = '[' then
        if maxNestingDepth ≤ d then none
        else if (skipSpace r).head? = some ']' then some (Value.array [], (skipSpace r).tail)
        else
          match parseElems fuel (d + 1) r with
          | none => none
          | some (vs, r1) => some (Value.array vs, r1)
      else if c = '"' then
        match scanString strState.text r [] with
        | none => none
        | some (raw, r1) => some (Value.string raw, r1)
      else if c = 't' then (literal "rue".data r).map (fun r1 => (Value.bool true, r1))
      else if c = 'f' then (literal "alse".data r).map (fun r1 => (Value.bool false, r1))
      else if c = 'n' then (literal "ull".data r).map (fun r1 => (Value.null, r1))
      else
        match scanNumber (c :: r) with
        | none => none
        | some (raw, r1) => some (Value.number raw, r1)

/-- The elements of an array that is not empty, up to its closing bracket. -/
def parseElems : ℕ → ℕ → List Char → Option (List Value × List Char)
  | 0, _, _ => none
  | fuel + 1, d, s =>
    match parseValue fuel d s with
    | none => none
    | some (v, r) =>
      match skipSpace r with
      | [] => none
      | c :: r1 =>
        if c = ']' then some ([v], r1)
        else if c = ',' then
          match parseElems fuel d r1 with
          | none => none
          | some (vs, r2) => some (v :: vs, r2)
        else none

/-- The members of an object that is not empty, up to its closing brace: each
a string, a colon and a value. -/
def parseMembers : ℕ → ℕ → List Char → Option (List (List Char × Value) × List Char)
  | 0, _, _ => none
  | fuel + 1, d, s =>
    match skipSpace s with
    | [] => none
    | q :: r =>
      if q = '"' then
        match scanString strState.text r [] with
        | none => none
        | some (key, r1) =>
          match skipSpace r1 with
          | [] => none
          | c :: r2 =>
            if c = ':' then
              match parseValue fuel d r2 with
              | none => none
              | some (v, r3) =>
                match skipSpace r3 with
                | [] => none
                | e :: r4 =>
                  if e = '\x7d' then some ([(key, v)], r4)
                  else if e = ',' then
                    match parseMembers fuel d r4 with
                    | none => none
                    | some (ms, r5) => some ((key, v) :: ms, r5)
                  else none
            else none
      else none

end

/-- The check `checkValid` and the scan of the decoder in one: the value a
document holds, when the document is one JSON value with optional white space
around it. Every nested call reads at least one character every other time,
so the fuel never runs out on a document that is valid. -/
def parseDocument (s : List Char) : Option Value :=
  match parseValue (2 * s.length + 2) 0 s with
  | none => none
  | some (v, r) => if skipSpace r = [] then some v else none

end json

namespace json

/-- The value of a hexadecimal digit. -/
def hexVal (c : Char) : ℕ :=
  if strconv.isDigit c then c.toNat - 48
  else if decide ('a' ≤ c) && decide (c ≤ 'f') then c.toNat - 87
  else c.toNat - 55

/-- The character a short escape stands for: `c` is what follows the
backslash. -/
def unescape (c : Char) : Char :=
  if c = 'b' then '\x08'
  else if c = 'f' then '\x0c'
  else if c = 'n' then '\n'
  else if c = 'r' then '\r'
  else if c = 't' then '\t'
  else c

/-- Where `unquote` stands: in the text, after a backslash, inside the four
digits of a `\u` escape (`k` read, of value `acc`), or at the same three
places with a high surrogate `hi` read that waits for its low surrogate. -/
inductive unqState where
  | text
  | esc
  | hex (k acc : ℕ)
  | pending (hi : ℕ)
  | pendingEsc (hi : ℕ)
  | pendingHex (hi k acc : ℕ)
deriving DecidableEq, Repr

/-- The replacement character U+FFFD. -/
def replacementChar : Char := Char.ofNat 0xFFFD

/-- A `\u` escape of value `rr` has been read in the text: a high surrogate
waits for its partner, a low surrogate alone is replaced by U+FFFD, any other
code is the character written. `out` is the output so far, in reverse. -/
def afterU (rr : ℕ) (out : List Char) : unqState × List Char :=
  if 0xD800 ≤ rr ∧ rr < 0xDC00 then (unqState.pending rr, out)
  else if 0xDC00 ≤ rr ∧ rr < 0xE000 then (unqState.text, replacementChar :: out)
  else (unqState.text, Char.ofNat rr :: out)

/-- One step of `unquote`. A high surrogate that is not followed by the `\u`
escape of a low surrogate is replaced by U+FFFD and what follows it is read as
usual; a pair is the one character it encodes. -/
def unqStep : unqState × List Char → Char → unqState × List Char
  | (unqState.text, out), c => if c = '\\' then (unqState.esc, out) else (unqState.text, c :: out)
  | (unqState.esc, out), c =>
    if c = 'u' then (unqState.hex 0 0, out) else (unqState.text, unescape c :: out)
  | (unqState.hex k acc, out), c =>
    if k = 3 then afterU (acc * 16 + hexVal c) out
    else (unqState.hex (k + 1) (acc * 16 + hexVal c), out)
  | (unqState.pending hi, out), c =>
    if c = '\\' then (unqState.pendingEsc hi, out)
    else (unqState.text, c :: replacementChar :: out)
  | (unqState.pendingEsc hi, out), c =>
    if c = 'u' then (unqState.pendingHex hi 0 0, out)
    else (unqState.text, unescape c :: replacementChar :: out)
  | (unqState.pendingHex hi k acc, out), c =>
    if k = 3 then
      if 0xDC00 ≤ acc * 16 + hexVal c ∧ acc * 16 + hexVal c < 0xE000 then
        (unqState.text,
          Char.ofNat (0x10000 + (hi - 0xD800) * 0x400 + (acc * 16 + hexVal c - 0xDC00)) :: out)
      else afterU (acc * 16 + hexVal c) (replacementChar :: out)
    else (unqState.pendingHex hi (k + 1) (acc * 16 + hexVal c), out)

/-- Go `unquote` on the text of a string literal the scanner has accepted,
without its quotes: the string it denotes. -/
def unquote (raw : List Char) : List Char :=
  match raw.foldl unqStep (unqState.text, []) with
  | (unqState.pending _, out) => (replacementChar :: out).reverse
  | (_, out) => out.reverse

/-- Go `foldRune` as far as a match with a name of ASCII letters goes: a small
ASCII letter folds to its capital, and so do the long s (U+017F) and the
Kelvin sign (U+212A), the only other characters whose fold is an ASCII letter. -/
def foldRune (c : Char) : Char :=
  if decide ('a' ≤ c) && decide (c ≤ 'z') then Char.ofNat (c.toNat - 32)
  else if c.toNat = 0x17F then 'S'
  else if c.toNat = 0x212A then 'K'
  else c

/-- Go `foldName`. -/
def foldName (s : List Char) : List Char := s.map foldRune

/-- The struct field a member name selects: the field whose name is the key,
else the first one whose name equals it up to case folding. -/
def field (names : List String) (key : List Char) : Option String :=
  match names.find? (fun f => decide (f.data = key)) with
  | some f => some f
  | none => names.find? (fun f => decide (foldName f.data = foldName key))

/-- The decoder storing a value into a field of kind string: `null` leaves the
field as it is, a string sets it, anything else is an `UnmarshalTypeError`. -/
def storeString (v : Value) (cur : String) : Except String String :=
  match v with
  | Value.null => Except.ok cur
  | Value.string raw => Except.ok (String.mk (unquote raw))
  | _ => Except.error "json: cannot unmarshal into Go value of type string"

/-- The decoder storing a value into a field of kind int: the number must be
accepted by `strconv.ParseInt`, so it has neither fraction nor exponent and
lies in the range of int64. -/
def storeInt (v : Value) (cur : ℤ) : Except String ℤ :=
  match v with
  | Value.null => Except.ok cur
  | Value.number raw =>
    match strconv.ParseInt raw with
    | some n => Except.ok n
    | none => Except.error "json: cannot unmarshal number into Go value of type int"
  | _ => Except.error "json: cannot unmarshal into Go value of type int"

/-- The decoder storing a value into a field of kind bool. -/
def storeBool (v : Value) (cur : Bool) : Except String Bool :=
  match v with
  | Value.null => Except.ok cur
  | Value.bool b => Except.ok b
  | _ => Except.error "json: cannot unmarshal into Go value of type bool"

/-- The decoder storing a value into a field of type `time.Time`, which
implements `Unmarshaler`: `UnmarshalJSON` gets the text of the value, and
accepts `null` (no change) or a string literal. -/
def storeTime (layout : List Char → Option ℤ) (v : Value) (cur : ℤ) : Except String ℤ :=
  match v with
  | Value.null => Except.ok cur
  | Value.string raw => time.UnmarshalJSON layout ('"' :: raw ++ ['"'])
  | _ => Except.error "Time.UnmarshalJSON: input is not a JSON string"

/-- The decoder storing one member of an object into the struct `Advertiser`;
a name that selects no field is skipped. -/
def storeAdvertiserField (a : models.Advertiser) (m : List Char × Value) :
    Except String models.Advertiser :=
  match field ["domain", "count"] (unquote m.1) with
  | some f =>
    if f = "domain" then (storeString m.2 a.Domain).map (fun d => { a with Domain := d })
    else (storeInt m.2 a.Count).map (fun n => { a with Count := n })
  | none => Except.ok a

/-- The decoder storing a value into a new element of type `*Advertiser`: an
object fills a zero struct member by member. This embedding has no nil
pointer among the elements of the list, so the element `null`, which the
decoder stores as one, is reported as an error here. -/
def storeAdvertiser (v : Value) : Except String models.Advertiser :=
  match v with
  | Value.object ms => ms.foldlM storeAdvertiserField { Domain := "", Count := 0 }
  | _ => Except.error "json: cannot unmarshal into Go value of type models.Advertiser"

/-- The decoder storing the elements of an array one after the other. -/
def storeElems : List Value → Except String (List models.Advertiser)
  | [] => Except.ok []
  | v :: vs =>
    match storeAdvertiser v with
    | Except.error err => Except.error err
    | Except.ok a =>
      match storeElems vs with
      | Except.error err => Except.error err
      | Except.ok l => Except.ok (a :: l)

/-- The decoder storing a value into the field `Advertisers`: `null` gives the
nil slice, an array a slice of its elements. A document that names the member
`advertisers` more than once is decoded here as if only the last one were
there (the decoder reuses the elements already stored). -/
def storeAdvertisers (v : Value) : Except String (List models.Advertiser) :=
  match v with
  | Value.null => Except.ok []
  | Value.array vs => storeElems vs
  | _ => Except.error "json: cannot unmarshal into Go value of type []*models.Advertiser"

/-- The decoder storing one member of an object into the struct
`AdsResponse`; a name that selects no field is skipped. -/
def storeField (layout : List Char → Option ℤ) (resp : models.AdsResponse)
    (m : List Char × Value) : Except String models.AdsResponse :=
  match field ["domain", "total_advertisers", "advertisers", "cached", "timestamp"]
      (unquote m.1) with
  | some f =>
    if f = "domain" then (storeString m.2 resp.Domain).map (fun d => { resp with Domain := d })
    else if f = "total_advertisers" then
      (storeInt m.2 resp.TotalAdvertisers).map (fun n => { resp with TotalAdvertisers := n })
    else if f = "advertisers" then
      (storeAdvertisers m.2).map (fun l => { resp with Advertisers := l })
    else if f = "cached" then (storeBool m.2 resp.Cached).map (fun b => { resp with Cached := b })
    else (storeTime layout m.2 resp.Timestamp).map (fun t => { resp with Timestamp := t })
  | none => Except.ok resp

/-- The zero value of `models.AdsResponse`; the zero `time.Time` is January 1
of year 1, 00:00:00 UTC. -/
def zeroAdsResponse : models.AdsResponse :=
  { Domain := "", TotalAdvertisers := 0, Advertisers := [], Cached := false,
    Timestamp := -62135596800000000000 }

/-- Go `json.Unmarshal(data, &resp)` for a zero `resp` of type
`models.AdsResponse`: a syntax error when the data are not one JSON value;
`null` leaves `resp` as it is; an object is stored member by member, an error
of any member being the error returned; any other value is an
`UnmarshalTypeError`. The data are text: byte sequences that are not UTF-8
are outside this embedding. `layout` is the general layout parser of package
`time`, see `time.UnmarshalJSON`. -/
def Unmarshal (layout : List Char → Option ℤ) (data : String) :
    Except String models.AdsResponse :=
  match parseDocument data.data with
  | none => Except.error "invalid character or unexpected end of JSON input"
  | some Value.null => Except.ok zeroAdsResponse
  | some (Value.object ms) => ms.foldlM (storeField layout) zeroAdsResponse
  | some _ => Except.error "json: cannot unmarshal into Go value of type models.AdsResponse"

end json

namespace handler

open http (Body Response)

/-- A call made on one of the collaborators of the server. -/
inductive Effect where
  | cacheGet (key : String)
  | fetch (domain : String)
  | parse (content : String)
  | cacheSet (key : String) (resp : models.AdsResponse) (ttl : ℤ)
deriving DecidableEq, Repr

/-- The collaborators of `Server`, as the interfaces `AdsCache`, `AdsFetcher`
and `AdsParser` declare them, over a cache store of type `σ`, and the
configuration value the handler reads. `rangeOrder` is the order in which a
`range` over the parsed map visits its entries, which Go leaves unspecified. -/
structure Server (σ : Type) where
  cacheTTL : ℤ
  cacheGetAds : σ → String → Option models.AdsResponse
  cacheSetAds : σ → String → models.AdsResponse → ℤ → σ
  fetchAdsTxt : String → Except String String
  parseAdsTxt : String → List (String × ℤ)
  rangeOrder : List (String × ℤ) → List (String × ℤ)

/-- The state a request handler works on besides the rate limiter: the cache
store and the record of the calls made on the collaborators. -/
structure World (σ : Type) where
  cache : σ
  calls : List Effect

/-- A character of `[a-zA-Z]`. -/
def isLetter (c : Char) : Bool := (decide ('a' ≤ c) && decide (c ≤ 'z')) || (decide ('A' ≤ c) && decide (c ≤ 'Z'))

/-- A character of `[a-zA-Z0-9]`. -/
def isAlnum (c : Char) : Bool := isLetter c || (decide ('0' ≤ c) && decide (c ≤ '9'))

/-- A character of `[a-zA-Z0-9.-]`. -/
def isHostChar (c : Char) : Bool := isAlnum c || c == '.' || c == '-'

def letters : List Char := "abcdefghijklmnopqrstuvwxyzABCDEFGHIJKLMNOPQRSTUVWXYZ".data

def digits : List Char := "0123456789".data

/-- A character class: the alternation of its members. -/
def oneOf (cs : List Char) : RegularExpression Char :=
  cs.foldr (fun c r => RegularExpression.char c + r) 0

/-- The pattern of `isValidDomain`, matched against the whole text as its
anchors demand. -/
def domainPattern : RegularExpression Char :=
  oneOf (letters ++ digits) * RegularExpression.star (oneOf (letters ++ digits ++ ['.', '-'])) *
    RegularExpression.char '.' *
    (oneOf letters * oneOf letters * RegularExpression.star (oneOf letters))

/-- Go `isValidDomain(domain)`. -/
def isValidDomain (domain : String) : Bool :=
  if strings.len domain > 255 || strings.len domain < 3 then false
  else domainPattern.rmatch domain.data

/-- Go `writeJSON(w, v)` for an envelope `v`: `json.NewEncoder(w).Encode(v)`
encodes as `json.Marshal` does and writes nothing when the encoding fails; the
response is then the 500 of `http.Error`, else 200 with the encoding of `v`. -/
def writeJSON (v : models.AdsResponse) : Response :=
  match json.Marshal v with
  | Except.error _ => http.Error "internal error" http.StatusInternalServerError
  | Except.ok _ => ⟨http.StatusOK, Body.ads v⟩

/-- Go `(*Server).GetAds` for a request whose query parameter `domain` has the
value `param` (empty when missing); `now` is the reading of `time.Now()`. -/
def GetAds {σ : Type} (s : Server σ) (param : String) (now : ℤ) (w : World σ) :
    Response × World σ :=
  let domain := strings.TrimSpace param
  if domain = "" then (http.Error "missing domain" http.StatusBadRequest, w)
  else if !isValidDomain domain then (http.Error "invalid domain" http.StatusBadRequest, w)
  else
    let w := { w with calls := w.calls ++ [Effect.cacheGet domain] }
    match s.cacheGetAds w.cache domain with
    | some cached => (writeJSON cached, w)
    | none =>
      let w := { w with calls := w.calls ++ [Effect.fetch domain] }
      match s.fetchAdsTxt domain with
      | Except.error err => (http.Error err http.StatusBadGateway, w)
      | Except.ok content =>
        let w := { w with calls := w.calls ++ [Effect.parse content] }
        let advertisersMap := s.parseAdsTxt content
        let advertisers := (s.rangeOrder advertisersMap).map
          (fun e => ({ Domain := e.1, Count := e.2 } : models.Advertiser))
        let resp : models.AdsResponse :=
          { Domain := domain
            TotalAdvertisers := advertisersMap.length
            Advertisers := advertisers
            Cached := false
            Timestamp := now }
        let w := { cache := s.cacheSetAds w.cache domain resp s.cacheTTL
                   calls := w.calls ++ [Effect.cacheSet domain resp s.cacheTTL] }
        (writeJSON resp, w)

/-- Go `(*Server).Health`: `writeJSON` on a map of strings, whose encoding
cannot fail. -/
def Health {σ : Type} (w : World σ) : Response × World σ := (⟨http.StatusOK, Body.health⟩, w)

/-- An inbound request: method, path, value of the query parameter `domain`
and the client identity `getClientIP` derives from it. -/
structure Request where
  method : String
  path : String
  domain : String
  clientIP : String

/-- The clock readings taken while one request is served. -/
structure Clock where
  tNew : ℤ
  tSeen : ℤ
  tAllow : ℤ
  tNow : ℤ

/-- The whole state of the server. -/
structure State (σ : Type) where
  rl : middleware.RateLimiter
  world : World σ

/-- The handler `(*Server).Router` returns, applied to one request: `/ads`
goes through the rate limiter to `GetAds`, `/health` to `Health`, both for
GET only. -/
def Router {σ : Type} (s : Server σ) (req : Request) (clk : Clock) (st : State σ) :
    Response × State σ :=
  if req.path = "/ads" then
    if req.method = "GET" then
      let r := middleware.RateLimitMiddleware st.rl (GetAds s req.domain clk.tNow) req.clientIP
        clk.tNew clk.tSeen clk.tAllow st.world
      (r.1.1, { rl := r.2, world := r.1.2 })
    else (⟨405, Body.text ""⟩, st)
  else if req.path = "/health" then
    if req.method = "GET" then
      let r := Health st.world
      (r.1, { st with world := r.2 })
    else (⟨405, Body.text ""⟩, st)
  else (⟨404, Body.text "404 page not found"⟩, st)

end handler

namespace handler

open http (Body Response)

/-- The server of the repository test `TestServer_GetAds` in its first case:
the cache misses, the fetcher returns one record, the parser is the real one. -/
def testServer : Server Unit :=
  { cacheTTL := 3600000000000
    cacheGetAds := fun _ _ => none
    cacheSetAds := fun _ _ _ _ => ()
    fetchAdsTxt := fun _ => Except.ok "advertiser.com, pub-123, DIRECT\n"
    parseAdsTxt := parser.ParseAdsTxt
    rangeOrder := id }

/-- A server state in which nothing has happened yet: no client is known, no
call has been made; capacity 5, refill period 5 s. -/
def freshState : State Unit :=
  { rl := middleware.NewRateLimiter 5 5000000000
    world := { cache := (), calls := [] } }

/-- The state after client `ip` has made five requests at clock reading 0. -/
def exhaustedState (ip : String) : State Unit :=
  { rl := middleware.store (middleware.NewRateLimiter 5 5000000000) ip
      { limiter := ratelimit.afterAllowN 5 0 (ratelimit.NewTokenBucket 5 5000000000 0)
        lastSeen := 0 }
    world := { cache := (), calls := [] } }

end handler

namespace json

/-- The standard library functions `json.Marshal` and `json.Unmarshal` at the
type `*models.AdsResponse`, over byte slices of type `β`: the bytes written
or an error, and the value decoded into a zero `AdsResponse` or an error. -/
structure Codec (β : Type) where
  Marshal : models.AdsResponse → Except String β
  Unmarshal : β → Except String models.AdsResponse

end json

namespace cache

/-- Modelled from the spec: the interface `Cache` of package `cache`, whose
declaration is not among the sources. It is the byte store of the interface
description: `Get(key)` returns the bytes (nil on a miss) and an error,
`Set(key, bytes, ttl)` and `Delete(key)` return an error. The store has a
state of type `σ`, byte slices have type `β`; a nil slice and a nil error are
`none`. -/
structure Cache (β σ : Type) where
  Get : σ → String → Option β × Option String
  Set : σ → String → β → ℤ → Option String × σ
  Delete : σ → String → Option String × σ

/-- The struct `AdsCache`. -/
structure AdsCache (β σ : Type) where
  cache : Cache β σ

/-- Go `NewAdsCache(c)`. -/
def NewAdsCache {β σ : Type} (c : Cache β σ) : AdsCache β σ := { cache := c }

namespace AdsCache

/-- Go `(*AdsCache).GetAds(ctx, key)` on the store state `st`: the pointer
result (nil is `none`) and the flag `found`. -/
def GetAds {β σ : Type} (j : json.Codec β) (a : AdsCache β σ) (st : σ) (key : String) :
    Option models.AdsResponse × Bool :=
  match a.cache.Get st key with
  | (b, err) =>
    if err.isSome || b.isNone then (none, false)
    else
      match b with
      | none => (none, false)
      | some b =>
        match j.Unmarshal b with
        | Except.error _ => (none, false)
        | Except.ok resp => (some resp, true)

/-- Go `(*AdsCache).SetAds(ctx, key, resp, ttl)` on the store state `st`: the
error returned and the store afterwards. -/
def SetAds {β σ : Type} (j : json.Codec β) (a : AdsCache β σ) (st : σ) (key : String)
    (resp : models.AdsResponse) (ttl : ℤ) : Option String × σ :=
  match j.Marshal resp with
  | Except.error err => (some err, st)
  | Except.ok b => a.cache.Set st key b ttl

end AdsCache

end cache

namespace config

/-- The struct `Config`. -/
structure Config where
  Port : ℤ
  CacheBackend : String
  CacheTTL : ℤ
  LimiterMaxReq : ℤ
  LimmiterTTL : ℤ
  LogLevel : String
  HttpClientTO : ℤ
  RedisAddr : String
  RedisPassword : String
deriving DecidableEq, Repr

/-- The variable `DefaultConfig`. -/
def DefaultConfig : Config :=
  { Port := 8080
    CacheBackend := "redis"
    CacheTTL := 300 * time.Second
    LimmiterTTL := 5
    LimiterMaxReq := 5
    LogLevel := "info"
    HttpClientTO := 10 * time.Second
    RedisAddr := "localhost:6379"
    RedisPassword := "" }

/-- The errors `Validate` collects, one constructor for each check, with the
value the message is formatted from. -/
inductive Invalid where
  | port (p : ℤ)
  | cacheBackend (b : String)
  | cacheTTL (d : ℤ)
  | limiterMaxReq (n : ℤ)
  | limiterTTL (n : ℤ)
  | logLevel (l : String)
  | httpClientTO (d : ℤ)
  | redisAddrEmpty
deriving DecidableEq, Repr

/-- The slice `errs` that `(*Config).Validate` has built when it reaches its
last statement. -/
def Validate.errs (c : Config) : List Invalid :=
  (if c.Port ≤ 0 ∨ c.Port > 65535 then [Invalid.port c.Port] else []) ++
  (if c.CacheBackend ≠ "redis" ∧ c.CacheBackend ≠ "memory" then
    [Invalid.cacheBackend c.CacheBackend] else []) ++
  (if c.CacheTTL ≤ 0 then [Invalid.cacheTTL c.CacheTTL] else []) ++
  (if c.LimiterMaxReq ≤ 0 then [Invalid.limiterMaxReq c.LimiterMaxReq] else []) ++
  (if c.LimmiterTTL ≤ 0 then [Invalid.limiterTTL c.LimmiterTTL] else []) ++
  (if c.LogLevel ≠ "debug" ∧ c.LogLevel ≠ "info" ∧ c.LogLevel ≠ "warn" ∧ c.LogLevel ≠ "error"
    then [Invalid.logLevel c.LogLevel] else []) ++
  (if c.HttpClientTO ≤ 0 then [Invalid.httpClientTO c.HttpClientTO] else []) ++
  (if c.CacheBackend = "redis" ∧ c.RedisAddr = "" then [Invalid.redisAddrEmpty] else [])

/-- Go `(*Config).Validate()`: nil (`none`) when no check failed, else the
error made of the collected ones. -/
def Validate (c : Config) : Option (List Invalid) :=
  if (Validate.errs c).length > 0 then some (Validate.errs c) else none

end config

namespace cache

/-- Go `InitCache(cfg)`. The constructor `NewRedisCache(addr, password)`, which
connects to the server, is the argument `newRedisCache`; `κ` is the type of
the store it returns. -/
def InitCache {κ : Type} (newRedisCache : String → String → Except String κ)
    (cfg : config.Config) : Except String κ :=
  if cfg.CacheBackend = "redis" then newRedisCache cfg.RedisAddr cfg.RedisPassword
  else Except.error ("unsupported cache backend: " ++ cfg.CacheBackend)

end cache

namespace json

/-- The value the parser reads from the encoding of an advertiser. -/
def advertiserValue (a : models.Advertiser) : Value :=
  Value.object [("domain".data, Value.string (escape a.Domain.data)),
    ("count".data, Value.number (strconv.AppendInt a.Count))]

/-- The value the parser reads from the encoding of an envelope whose
timestamp has the text `ts`. -/
def envelopeValue (resp : models.AdsResponse) (ts : List Char) : Value :=
  Value.object [("domain".data, Value.string (escape resp.Domain.data)),
    ("total_advertisers".data, Value.number (strconv.AppendInt resp.TotalAdvertisers)),
    ("advertisers".data, Value.array (resp.Advertisers.map advertiserValue)),
    ("cached".data, Value.bool resp.Cached),
    ("timestamp".data, Value.string ts)]

/-- The functions `json.Marshal` and `json.Unmarshal` of the standard library
as embedded above, on byte slices that hold text. -/
def std (layout : List Char → Option ℤ) : Codec String :=
  { Marshal := Marshal, Unmarshal := Unmarshal layout }

end json

namespace redis

/-- What a command of the client `*redis.Client` returns: a value, the error
`redis.Nil` (the key does not exist), or another error. -/
inductive Reply (α : Type) where
  | ok (v : α)
  | Nil
  | err (msg : String)
deriving DecidableEq, Repr

/-- The commands of `*redis.Client` that `RedisCache` uses, on a server whose
state has type `σ`: `Get(ctx, key).Result()`, `Set(ctx, key, data, ttl).Err()`
and `Del(ctx, key).Err()`. -/
structure Client (σ : Type) where
  Get : σ → String → Reply String
  Set : σ → String → String → ℤ → Option String × σ
  Del : σ → String → Option String × σ

/-- A server that keeps every key it is given, in a map, and never fails: the
double a test runs the cache against. -/
def memory : Client (String → Option String) :=
  { Get := fun st key =>
      match st key with
      | some v => Reply.ok v
      | none => Reply.Nil
    Set := fun st key data _ => (none, Function.update st key (some data))
    Del := fun st key => (none, Function.update st key none) }

end redis

namespace cache

/-- The struct `RedisCache`. -/
structure RedisCache (σ : Type) where
  cli : redis.Client σ

namespace RedisCache

/-- Go `(*RedisCache).Get(ctx, key)`. -/
def Get {σ : Type} (r : RedisCache σ) (st : σ) (key : String) : Option String × Option String :=
  match r.cli.Get st key with
  | redis.Reply.Nil => (none, none)
  | redis.Reply.err e => (none, some ("redis GET failed: " ++ e))
  | redis.Reply.ok s => (some s, none)

/-- Go `(*RedisCache).Set(ctx, key, data, ttl)`. -/
def Set {σ : Type} (r : RedisCache σ) (st : σ) (key : String) (data : String) (ttl : ℤ) :
    Option String × σ :=
  match r.cli.Set st key data ttl with
  | (some e, st1) => (some ("redis SET failed: " ++ e), st1)
  | (none, st1) => (none, st1)

/-- Go `(*RedisCache).Del(ctx, key)`. -/
def Del {σ : Type} (r : RedisCache σ) (st : σ) (key : String) : Option String × σ :=
  match r.cli.Del st key with
  | (some e, st1) => (some ("redis DEL failed: " ++ e), st1)
  | (none, st1) => (none, st1)

/-- A `*RedisCache` as a value of the interface `Cache`. -/
def toCache {σ : Type} (r : RedisCache σ) : Cache String σ :=
  { Get := r.Get, Set := r.Set, Delete := r.Del }

end RedisCache

/-- The response cache of the service over the server `redis.memory`. -/
def memoryAdsCache : AdsCache String (String → Option String) :=
  NewAdsCache (RedisCache.toCache { cli := redis.memory })

/-- A byte store in which a `Get` right after a `Set` that returned no error
returns the bytes written, and no error. -/
def Cache.Retains {β σ : Type} (c : Cache β σ) : Prop :=
  ∀ (st : σ) (key : String) (b : β) (ttl : ℤ) (st1 : σ),
    c.Set st key b ttl = (none, st1) → c.Get st1 key = (some b, none)

end cache

namespace models

/-- The integer fields of an envelope hold values of the Go type `int`
(64 bits). -/
def AdsResponse.InRange (e : AdsResponse) : Prop :=
  (-(2 ^ 63) ≤ e.TotalAdvertisers ∧ e.TotalAdvertisers < 2 ^ 63) ∧
    ∀ a ∈ e.Advertisers, -(2 ^ 63) ≤ a.Count ∧ a.Count < 2 ^ 63

end models

/-! ## Theorems -/

/-! ## Float64: rounding lemmas -/


namespace Float64

theorem roundHalfEven_le {q : ℚ} {k : ℤ} (h : q ≤ k) : roundHalfEven q ≤ k := by
  have h1 := Int.floor_le q
  have h2 := Int.lt_floor_add_one q
  have hf : ⌊q⌋ ≤ k := by
    have : ((⌊q⌋ : ℤ) : ℚ) ≤ k := le_trans h1 h
    exact_mod_cast this
  unfold roundHalfEven
  simp only
  split_ifs with a b c
  · exact hf
  · -- q is not an integer, so floor < k
    rcases lt_or_eq_of_le hf with hlt | heq
    · omega
    · exfalso
      rw [heq] at b
      linarith
  · exact hf
  · rcases lt_or_eq_of_le hf with hlt | heq
    · omega
    · exfalso
      rw [heq] at a
      have : q - (k:ℚ) ≤ 0 := by linarith
      linarith

theorem le_roundHalfEven {q : ℚ} {k : ℤ} (h : (k : ℚ) ≤ q) : k ≤ roundHalfEven q := by
  have hf : k ≤ ⌊q⌋ := Int.le_floor.mpr h
  unfold roundHalfEven
  simp only
  split_ifs <;> omega

theorem roundHalfEven_intCast (k : ℤ) : roundHalfEven (k : ℚ) = k :=
  le_antisymm (roundHalfEven_le le_rfl) (le_roundHalfEven le_rfl)

theorem two_zpow_pos (e : ℤ) : (0 : ℚ) < 2 ^ e := zpow_pos (by norm_num) e

theorem round_zero : round 0 = 0 := by
  unfold round
  have : roundHalfEven (0 / 2 ^ exponent 0) = 0 := by
    rw [zero_div]
    exact_mod_cast roundHalfEven_intCast 0
  rw [this]; simp

theorem round_nonneg {x : ℚ} (h : 0 ≤ x) : 0 ≤ round x := by
  unfold round
  have h1 : ((0 : ℤ) : ℚ) ≤ x / 2 ^ exponent x := by
    have := two_zpow_pos (exponent x)
    simp only [Int.cast_zero]
    positivity
  have h2 : (0 : ℤ) ≤ roundHalfEven (x / 2 ^ exponent x) := le_roundHalfEven h1
  have h3 : (0 : ℚ) ≤ (roundHalfEven (x / 2 ^ exponent x) : ℚ) := by exact_mod_cast h2
  have := two_zpow_pos (exponent x)
  positivity

theorem exponent_ge (x : ℚ) : -1074 ≤ exponent x := le_max_right _ _

/-- In the normal range the scaled magnitude is at least `2^52`. -/
theorem le_of_exponent_gt {x : ℚ} (hx : 0 < x) (h : -1074 < exponent x) :
    (2 : ℚ) ^ (exponent x + 52) ≤ x := by
  have he : exponent x = Int.log 2 |x| - 52 := by
    unfold exponent at h ⊢
    rcases max_cases (Int.log 2 |x| - 52) (-1074) with ⟨h1, _⟩ | ⟨h1, _⟩
    · exact h1
    · rw [h1] at h; exact absurd h (lt_irrefl _)
  rw [he, abs_of_pos hx]
  have := Int.zpow_log_le_self (R := ℚ) (b := 2) (by norm_num) hx
  simpa using this

theorem lt_of_exponent {x : ℚ} (hx : 0 < x) : x < (2 : ℚ) ^ (exponent x + 53) := by
  have h1 := Int.lt_zpow_succ_log_self (R := ℚ) (b := 2) (by norm_num) x
  have h2 : Int.log 2 x + 1 ≤ exponent x + 53 := by
    unfold exponent
    rw [abs_of_pos hx]
    have := le_max_left (Int.log 2 x - 52) (-1074)
    omega
  have h3 : (2 : ℚ) ^ (Int.log 2 x + 1) ≤ 2 ^ (exponent x + 53) :=
    zpow_le_zpow_right₀ (by norm_num) h2
  have h1' : x < (2 : ℚ) ^ (Int.log 2 x + 1) := by simpa using h1
  exact lt_of_lt_of_le h1' h3

end Float64

namespace Float64

/-- A dyadic with a larger exponent is an integer multiple of the smaller power. -/
theorem scaled_int (m e e' : ℤ) (h : e ≤ e') :
    (m : ℚ) * 2 ^ e' / 2 ^ e = ((m * 2 ^ (e' - e).toNat : ℤ) : ℚ) := by
  have hpos := two_zpow_pos e
  have h2 : (2 : ℚ) ^ e' = 2 ^ (e' - e).toNat * 2 ^ e := by
    have : e' = ((e' - e).toNat : ℤ) + e := by
      have := Int.toNat_of_nonneg (sub_nonneg.mpr h)
      omega
    conv_lhs => rw [this]
    rw [zpow_add₀ (by norm_num : (2 : ℚ) ≠ 0), zpow_natCast]
  rw [h2]
  push_cast
  field_simp
  ring

theorem exponent_le_of_representable {x : ℚ} {m e' : ℤ} (he' : -1074 ≤ e')
    (hm : |m| < 2 ^ 53) (hx : x = (m : ℚ) * 2 ^ e') (hx0 : x ≠ 0) : exponent x ≤ e' := by
  have habs : 0 < |x| := abs_pos.mpr hx0
  have hlt : |x| < (2 : ℚ) ^ (53 + e') := by
    rw [hx, abs_mul, abs_of_pos (two_zpow_pos e'), zpow_add₀ (by norm_num : (2 : ℚ) ≠ 0)]
    have : |(m : ℚ)| < 2 ^ 53 := by
      have : ((|m| : ℤ) : ℚ) < ((2 ^ 53 : ℤ) : ℚ) := by exact_mod_cast hm
      simpa using this
    have h53 : ((2 : ℚ) ^ (53 : ℤ)) = 2 ^ 53 := by norm_num
    rw [h53]
    exact mul_lt_mul_of_pos_right this (two_zpow_pos e')
  have hlog : Int.log 2 |x| < 53 + e' := by
    have := (Int.lt_zpow_iff_log_lt (R := ℚ) (b := 2) (by norm_num) (x := 53 + e') habs).mp
      (by simpa using hlt)
    exact this
  unfold exponent
  exact max_le (by omega) he'

theorem round_of_representable {x : ℚ} (h : Representable x) : round x = x := by
  obtain ⟨m, e', he', hm, hx⟩ := h
  by_cases hx0 : x = 0
  · rw [hx0, round_zero]
  · have hle := exponent_le_of_representable he' hm hx hx0
    unfold round
    have hs := scaled_int m (exponent x) e' hle
    have : x / 2 ^ exponent x = ((m * 2 ^ (e' - exponent x).toNat : ℤ) : ℚ) := by
      rw [← hs]
      conv_lhs => rw [hx]
      rw [← hx]
    rw [this, roundHalfEven_intCast, ← this]
    have := two_zpow_pos (exponent x)
    field_simp

theorem representable_intCast {n : ℤ} (h : |n| < 2 ^ 53) : Representable (n : ℚ) :=
  ⟨n, 0, by norm_num, h, by simp⟩

theorem round_le_of_representable {x y : ℚ} (hx : 0 ≤ x) (hxy : x ≤ y)
    (hy : Representable y) : round x ≤ y := by
  rcases eq_or_lt_of_le hx with h0 | hpos
  · rw [← h0, round_zero]; rw [← h0] at hxy; exact hxy
  obtain ⟨m, e', he', hm, hyeq⟩ := hy
  have hep := two_zpow_pos (exponent x)
  by_cases hle : exponent x ≤ e'
  · have hs := scaled_int m (exponent x) e' hle
    have h1 : x / 2 ^ exponent x ≤ ((m * 2 ^ (e' - exponent x).toNat : ℤ) : ℚ) := by
      rw [← hs, ← hyeq]
      exact div_le_div_of_nonneg_right hxy hep.le
    have h2 := roundHalfEven_le h1
    have h3 : (roundHalfEven (x / 2 ^ exponent x) : ℚ) ≤
        ((m * 2 ^ (e' - exponent x).toNat : ℤ) : ℚ) := by exact_mod_cast h2
    unfold round
    calc (roundHalfEven (x / 2 ^ exponent x) : ℚ) * 2 ^ exponent x
        ≤ ((m * 2 ^ (e' - exponent x).toNat : ℤ) : ℚ) * 2 ^ exponent x :=
          mul_le_mul_of_nonneg_right h3 hep.le
      _ = y := by rw [← hs, ← hyeq]; field_simp
  · exfalso
    push_neg at hle
    have hgt : -1074 < exponent x := lt_of_le_of_lt he' hle
    have h1 := le_of_exponent_gt hpos hgt
    have h2 : y < (2 : ℚ) ^ (53 + e') := by
      rw [hyeq, zpow_add₀ (by norm_num : (2 : ℚ) ≠ 0)]
      have : (m : ℚ) < 2 ^ 53 := by
        have : m < 2 ^ 53 := lt_of_le_of_lt (le_abs_self m) hm
        exact_mod_cast this
      have h53 : ((2 : ℚ) ^ (53 : ℤ)) = 2 ^ 53 := by norm_num
      rw [h53]
      exact mul_lt_mul_of_pos_right this (two_zpow_pos e')
    have h3 : (2 : ℚ) ^ (53 + e') ≤ 2 ^ (exponent x + 52) :=
      zpow_le_zpow_right₀ (by norm_num) (by omega)
    linarith

theorem le_round_of_representable {x y : ℚ} (hy0 : 0 ≤ y) (hyx : y ≤ x)
    (hy : Representable y) : y ≤ round x := by
  have hx : 0 ≤ x := le_trans hy0 hyx
  rcases eq_or_lt_of_le hx with h0 | hpos
  · rw [← h0, round_zero]; rw [← h0] at hyx; exact hyx
  obtain ⟨m, e', he', hm, hyeq⟩ := hy
  have hep := two_zpow_pos (exponent x)
  by_cases hle : exponent x ≤ e'
  · have hs := scaled_int m (exponent x) e' hle
    have h1 : ((m * 2 ^ (e' - exponent x).toNat : ℤ) : ℚ) ≤ x / 2 ^ exponent x := by
      rw [← hs, ← hyeq]
      exact div_le_div_of_nonneg_right hyx hep.le
    have h2 := le_roundHalfEven h1
    have h3 : ((m * 2 ^ (e' - exponent x).toNat : ℤ) : ℚ) ≤
        (roundHalfEven (x / 2 ^ exponent x) : ℚ) := by exact_mod_cast h2
    unfold round
    calc y = ((m * 2 ^ (e' - exponent x).toNat : ℤ) : ℚ) * 2 ^ exponent x := by
          rw [← hs, ← hyeq]; field_simp
      _ ≤ (roundHalfEven (x / 2 ^ exponent x) : ℚ) * 2 ^ exponent x :=
          mul_le_mul_of_nonneg_right h3 hep.le
  · push_neg at hle
    have hgt : -1074 < exponent x := lt_of_le_of_lt he' hle
    have h1 := le_of_exponent_gt hpos hgt
    have h2 : y < (2 : ℚ) ^ (53 + e') := by
      rw [hyeq, zpow_add₀ (by norm_num : (2 : ℚ) ≠ 0)]
      have : (m : ℚ) < 2 ^ 53 := by
        have : m < 2 ^ 53 := lt_of_le_of_lt (le_abs_self m) hm
        exact_mod_cast this
      have h53 : ((2 : ℚ) ^ (53 : ℤ)) = 2 ^ 53 := by norm_num
      rw [h53]
      exact mul_lt_mul_of_pos_right this (two_zpow_pos e')
    have h3 : (2 : ℚ) ^ (53 + e') ≤ 2 ^ (exponent x + 52) :=
      zpow_le_zpow_right₀ (by norm_num) (by omega)
    have h4 : (((2 : ℤ) ^ 52 : ℤ) : ℚ) ≤ x / 2 ^ exponent x := by
      rw [le_div_iff₀ hep]
      have : (2 : ℚ) ^ (exponent x + 52) = 2 ^ 52 * 2 ^ exponent x := by
        rw [add_comm, zpow_add₀ (by norm_num : (2 : ℚ) ≠ 0)]
        norm_num
      push_cast
      linarith
    have h5 := le_roundHalfEven h4
    have h6 : ((2 : ℚ) ^ 52) ≤ (roundHalfEven (x / 2 ^ exponent x) : ℚ) := by
      exact_mod_cast h5
    unfold round
    have h7 : (2 : ℚ) ^ (exponent x + 52) ≤
        (roundHalfEven (x / 2 ^ exponent x) : ℚ) * 2 ^ exponent x := by
      have : (2 : ℚ) ^ (exponent x + 52) = 2 ^ 52 * 2 ^ exponent x := by
        rw [add_comm, zpow_add₀ (by norm_num : (2 : ℚ) ≠ 0)]
        norm_num
      rw [this]
      exact mul_le_mul_of_nonneg_right h6 hep.le
    linarith

theorem round_representable {x : ℚ} (hx : 0 ≤ x) : Representable (round x) := by
  rcases eq_or_lt_of_le hx with h0 | hpos
  · rw [← h0, round_zero]; exact ⟨0, 0, by norm_num, by norm_num, by simp⟩
  have hep := two_zpow_pos (exponent x)
  have hlt := lt_of_exponent hpos
  have h1 : x / 2 ^ exponent x ≤ (((2 : ℤ) ^ 53 : ℤ) : ℚ) := by
    rw [div_le_iff₀ hep]
    have : (2 : ℚ) ^ (exponent x + 53) = 2 ^ 53 * 2 ^ exponent x := by
      rw [add_comm, zpow_add₀ (by norm_num : (2 : ℚ) ≠ 0)]
      norm_num
    push_cast
    linarith
  have h2 := roundHalfEven_le h1
  have h0 : (0 : ℤ) ≤ roundHalfEven (x / 2 ^ exponent x) :=
    le_roundHalfEven (by simp only [Int.cast_zero]; positivity)
  rcases lt_or_eq_of_le h2 with hlt2 | heq
  · exact ⟨roundHalfEven (x / 2 ^ exponent x), exponent x, exponent_ge x,
      by rw [abs_of_nonneg h0]; exact hlt2, rfl⟩
  · refine ⟨2 ^ 52, exponent x + 1, by have := exponent_ge x; omega, by norm_num, ?_⟩
    unfold round
    rw [heq, zpow_add₀ (by norm_num : (2 : ℚ) ≠ 0)]
    push_cast
    ring

end Float64

namespace Float64

theorem exponent_eq {x : ℚ} {k : ℤ} (h1 : (2 : ℚ) ^ k ≤ |x|) (h2 : |x| < 2 ^ (k + 1))
    (hk : -1022 ≤ k) : exponent x = k - 52 := by
  have hpos : 0 < |x| := lt_of_lt_of_le (two_zpow_pos k) h1
  have ha : k ≤ Int.log 2 |x| :=
    (Int.zpow_le_iff_le_log (R := ℚ) (b := 2) (by norm_num) hpos).mp (by simpa using h1)
  have hb : Int.log 2 |x| < k + 1 :=
    (Int.lt_zpow_iff_log_lt (R := ℚ) (b := 2) (by norm_num) hpos).mp (by simpa using h2)
  have : Int.log 2 |x| = k := by omega
  unfold exponent
  rw [this]
  exact max_eq_left (by omega)

theorem roundHalfEven_eq_of_lt {q : ℚ} {m : ℤ} (h1 : (m : ℚ) - 1 / 2 < q)
    (h2 : q < (m : ℚ) + 1 / 2) : roundHalfEven q = m := by
  have hf1 : ⌊q⌋ ≤ m := by
    have : ((⌊q⌋ : ℤ) : ℚ) < (m : ℚ) + 1 := by linarith [Int.floor_le q]
    have : ⌊q⌋ < m + 1 := by exact_mod_cast this
    omega
  have hf2 : m - 1 ≤ ⌊q⌋ := Int.le_floor.mpr (by push_cast; linarith)
  have h3 := Int.floor_le q
  have h4 := Int.lt_floor_add_one q
  unfold roundHalfEven
  simp only
  rcases (by omega : ⌊q⌋ = m ∨ ⌊q⌋ = m - 1) with h | h
  · rw [h] at h3 h4 ⊢
    rw [if_pos (by linarith)]
  · rw [h] at h3 h4 ⊢
    push_cast at h3 h4 ⊢
    rw [if_neg (by linarith), if_pos (by linarith)]
    ring

theorem roundHalfEven_tie {f : ℤ} : roundHalfEven ((f : ℚ) + 1 / 2) =
    if f % 2 = 0 then f else f + 1 := by
  have hf : ⌊(f : ℚ) + 1 / 2⌋ = f := by
    rw [Int.floor_eq_iff]; constructor <;> linarith
  unfold roundHalfEven
  simp only [hf]
  rw [if_neg (by linarith), if_neg (by linarith)]

/-- Integers up to `2^53` are float64 values. -/
theorem representable_of_le_two_pow {n : ℤ} (h0 : 0 ≤ n) (h : n ≤ 2 ^ 53) :
    Representable (n : ℚ) := by
  rcases lt_or_eq_of_le h with hlt | heq
  · exact representable_intCast (by rw [abs_of_nonneg h0]; exact hlt)
  · exact ⟨2 ^ 52, 1, by norm_num, by norm_num, by rw [heq]; norm_num⟩

theorem ofInt_eq {n : ℤ} (h0 : 0 ≤ n) (h : n ≤ 2 ^ 53) : ofInt n = n :=
  round_of_representable (representable_of_le_two_pow h0 h)

/-- Subtracting one token from a balance of at most `2^53` is exact. -/
theorem representable_sub_one {t : ℚ} (ht : Representable t) (h1 : 1 ≤ t)
    (h2 : t ≤ 2 ^ 53) : Representable (t - 1) := by
  obtain ⟨m, e, he, hm, hx⟩ := ht
  by_cases h : 0 ≤ e
  · -- an integer
    have hs := scaled_int m 0 e h
    simp only [zpow_zero, div_one, sub_zero] at hs
    rw [hx, hs]
    have hk1 : (1 : ℚ) ≤ ((m * 2 ^ e.toNat : ℤ) : ℚ) := by rw [← hs, ← hx]; exact h1
    have hk2 : ((m * 2 ^ e.toNat : ℤ) : ℚ) ≤ 2 ^ 53 := by rw [← hs, ← hx]; exact h2
    have hk1' : (1 : ℤ) ≤ m * 2 ^ e.toNat := by exact_mod_cast hk1
    have hk2' : m * 2 ^ e.toNat ≤ (2 : ℤ) ^ 53 := by exact_mod_cast hk2
    have : ((m * 2 ^ e.toNat : ℤ) : ℚ) - 1 = ((m * 2 ^ e.toNat - 1 : ℤ) : ℚ) := by push_cast; ring
    rw [this]
    exact representable_of_le_two_pow (by omega) (by omega)
  · push_neg at h
    have hs := scaled_int 1 e 0 h.le
    simp only [Int.cast_one, zpow_zero, one_mul, zero_sub] at hs
    -- 1 = 2^(-e) * 2^e
    have hpos := two_zpow_pos e
    have hone : (1 : ℚ) = ((2 ^ (-e).toNat : ℤ) : ℚ) * 2 ^ e := by
      have : (1 : ℚ) / 2 ^ e * 2 ^ e = 1 := by field_simp
      rw [← this, hs]
    have hm1 : ((2 ^ (-e).toNat : ℤ) : ℚ) ≤ (m : ℚ) := by
      have : ((2 ^ (-e).toNat : ℤ) : ℚ) * 2 ^ e ≤ (m : ℚ) * 2 ^ e := by
        rw [← hone, ← hx]; exact h1
      exact le_of_mul_le_mul_right this hpos
    have hm1' : (2 : ℤ) ^ (-e).toNat ≤ m := by exact_mod_cast hm1
    have hp : (0 : ℤ) < 2 ^ (-e).toNat := by positivity
    have hmlt : m < 2 ^ 53 := lt_of_le_of_lt (le_abs_self m) hm
    refine ⟨m - 2 ^ (-e).toNat, e, he, ?_, ?_⟩
    · rw [abs_of_nonneg (by omega)]; omega
    · rw [hx]
      conv_lhs => rw [hone]
      push_cast; ring

theorem sub_one_eq {t : ℚ} (ht : Representable t) (h1 : 1 ≤ t) (h2 : t ≤ 2 ^ 53) :
    sub t 1 = t - 1 :=
  round_of_representable (representable_sub_one ht h1 h2)

end Float64

/-! ## Token bucket: calls made while the clock stands still -/

namespace time

theorem Sub_self (t : ℤ) : Sub t t = 0 := by
  unfold Sub maxDuration minDuration
  simp

theorem Seconds_zero : Seconds 0 = 0 := by
  unfold Seconds Float64.add Float64.div Float64.ofInt Second
  simp [Float64.round_zero]

end time

namespace ratelimit

theorem settled_lastRefill (tb : TokenBucket) : Settled tb tb.lastRefill := by
  unfold Settled
  rw [time.Sub_self, time.Seconds_zero]

theorem refillLocked_of_settled {tb : TokenBucket} {now : ℤ} (h : Settled tb now) :
    tb.refillLocked now = tb := by
  unfold Settled at h
  unfold TokenBucket.refillLocked
  simp only
  rw [if_pos h]

theorem settled_refillLocked (tb : TokenBucket) (now : ℤ) :
    Settled (tb.refillLocked now) now := by
  by_cases h : Settled tb now
  · rw [refillLocked_of_settled h]; exact h
  · have h2 := h
    unfold Settled at h2
    unfold TokenBucket.refillLocked
    simp only
    rw [if_neg h2]
    exact settled_lastRefill _

theorem settled_of_lastRefill_eq {tb tb2 : TokenBucket} {now : ℤ} (h : Settled tb now)
    (he : tb2.lastRefill = tb.lastRefill) : Settled tb2 now := by
  unfold Settled at *
  rw [he]; exact h

theorem Allow_refillLocked (tb : TokenBucket) (now : ℤ) :
    (tb.refillLocked now).Allow now = tb.Allow now := by
  unfold TokenBucket.Allow
  simp only
  rw [refillLocked_of_settled (settled_refillLocked tb now)]

theorem Allow_of_one_le {tb : TokenBucket} {now : ℤ} (hs : Settled tb now)
    (h : 1 ≤ tb.tokens) :
    tb.Allow now = (true, { tb with tokens := Float64.sub tb.tokens 1 }) := by
  unfold TokenBucket.Allow
  simp only
  rw [refillLocked_of_settled hs, if_pos h]

theorem Allow_of_lt_one {tb : TokenBucket} {now : ℤ} (hs : Settled tb now)
    (h : tb.tokens < 1) : tb.Allow now = (false, tb) := by
  unfold TokenBucket.Allow
  simp only
  rw [refillLocked_of_settled hs, if_neg (not_le.mpr h)]

theorem settled_Allow (tb : TokenBucket) (now : ℤ) : Settled (tb.Allow now).2 now := by
  have hs := settled_refillLocked tb now
  unfold TokenBucket.Allow
  simp only
  split_ifs
  · exact settled_of_lastRefill_eq hs rfl
  · exact hs

theorem AllowWithRemaining_fst (tb : TokenBucket) (now : ℤ) :
    (tb.AllowWithRemaining now).1.1 = (tb.Allow now).1 := by
  unfold TokenBucket.AllowWithRemaining TokenBucket.Allow
  simp only
  split_ifs <;> rfl

theorem AllowWithRemaining_snd (tb : TokenBucket) (now : ℤ) :
    (tb.AllowWithRemaining now).2 = (tb.Allow now).2 := by
  unfold TokenBucket.AllowWithRemaining TokenBucket.Allow
  simp only
  split_ifs <;> rfl

theorem AllowWithRemaining_remaining (tb : TokenBucket) (now : ℤ) :
    (tb.AllowWithRemaining now).1.2 = (tb.AllowWithRemaining now).2.tokens := by
  unfold TokenBucket.AllowWithRemaining
  simp only
  split_ifs <;> rfl

theorem allowWithRemainingN_eq (n : ℕ) (now : ℤ) (tb : TokenBucket) :
    allowWithRemainingN n now tb = allowN n now tb := by
  induction n generalizing tb with
  | zero => rfl
  | succ n ih =>
    simp only [allowWithRemainingN, allowN]
    rw [AllowWithRemaining_fst, AllowWithRemaining_snd, ih]

theorem allowN_add (a b : ℕ) (now : ℤ) (tb : TokenBucket) :
    allowN (a + b) now tb = allowN a now tb ++ allowN b now (afterAllowN a now tb) := by
  induction a generalizing tb with
  | zero => simp [allowN, afterAllowN]
  | succ a ih =>
    rw [Nat.succ_add]
    simp only [allowN, afterAllowN, List.cons_append]
    rw [ih]

theorem allowN_refillLocked (n : ℕ) (now : ℤ) (tb : TokenBucket) :
    allowN n now (tb.refillLocked now) = allowN n now tb := by
  cases n with
  | zero => rfl
  | succ n => simp only [allowN, Allow_refillLocked]

/-- With less than one token and a standing clock every call is refused. -/
theorem allowN_of_lt_one (n : ℕ) {now : ℤ} {tb : TokenBucket} (hs : Settled tb now)
    (h : tb.tokens < 1) : allowN n now tb = List.replicate n false := by
  induction n with
  | zero => rfl
  | succ n ih =>
    simp only [allowN, Allow_of_lt_one hs h, List.replicate_succ]
    rw [ih]

/-- With `k` whole tokens available and a standing clock, `k` calls in a row
are admitted and each takes exactly one token. -/
theorem allowN_of_le (k : ℕ) {now : ℤ} {tb : TokenBucket} (hs : Settled tb now)
    (hrep : Float64.Representable tb.tokens) (hk : (k : ℚ) ≤ tb.tokens)
    (hmax : tb.tokens ≤ 2 ^ 53) :
    allowN k now tb = List.replicate k true ∧
      afterAllowN k now tb = { tb with tokens := tb.tokens - k } := by
  induction k generalizing tb with
  | zero => simp [allowN, afterAllowN]
  | succ k ih =>
    have h1 : (1 : ℚ) ≤ tb.tokens := by
      have : (0 : ℚ) ≤ (k : ℚ) := Nat.cast_nonneg k
      push_cast at hk; linarith
    have hsub := Float64.sub_one_eq hrep h1 hmax
    have hA := Allow_of_one_le hs h1
    have hs2 : Settled ({ tb with tokens := Float64.sub tb.tokens 1 } : TokenBucket) now :=
      settled_of_lastRefill_eq hs rfl
    have hrep2 : Float64.Representable
        ({ tb with tokens := Float64.sub tb.tokens 1 } : TokenBucket).tokens := by
      simp only [hsub]
      exact Float64.representable_sub_one hrep h1 hmax
    have hk2 : (k : ℚ) ≤ ({ tb with tokens := Float64.sub tb.tokens 1 } : TokenBucket).tokens := by
      simp only [hsub]; push_cast at hk; linarith
    have hmax2 : ({ tb with tokens := Float64.sub tb.tokens 1 } : TokenBucket).tokens ≤ 2 ^ 53 := by
      simp only [hsub]; linarith
    obtain ⟨ih1, ih2⟩ := ih hs2 hrep2 hk2 hmax2
    simp only [allowN, afterAllowN, hA, List.replicate_succ]
    rw [ih1, ih2]
    refine ⟨rfl, ?_⟩
    simp only [hsub]
    congr 1
    push_cast; ring

/-- The count of admitted calls is the whole part of the balance. -/
theorem allowN_settled (n : ℕ) {now : ℤ} {tb : TokenBucket} (hs : Settled tb now)
    (hrep : Float64.Representable tb.tokens) (h0 : 0 ≤ tb.tokens) (hmax : tb.tokens ≤ 2 ^ 53) :
    allowN n now tb =
      List.replicate (min n ⌊tb.tokens⌋₊) true ++ List.replicate (n - ⌊tb.tokens⌋₊) false := by
  have hfl : ((⌊tb.tokens⌋₊ : ℕ) : ℚ) ≤ tb.tokens := Nat.floor_le h0
  rcases le_total n ⌊tb.tokens⌋₊ with hle | hle
  · have hk : (n : ℚ) ≤ tb.tokens := le_trans (by exact_mod_cast hle) hfl
    rw [(allowN_of_le n hs hrep hk hmax).1, min_eq_left hle, Nat.sub_eq_zero_of_le hle]
    simp
  · obtain ⟨j, rfl⟩ := Nat.exists_eq_add_of_le hle
    obtain ⟨h1, h2⟩ := allowN_of_le ⌊tb.tokens⌋₊ hs hrep hfl hmax
    rw [allowN_add, h1, h2, min_eq_right hle, Nat.add_sub_cancel_left]
    congr 1
    apply allowN_of_lt_one
    · exact settled_of_lastRefill_eq hs rfl
    · simp only
      have := Nat.lt_floor_add_one tb.tokens
      linarith

end ratelimit

/-! ## Token bucket: a fresh bucket (C1) -/

namespace ratelimit

theorem NewTokenBucket_tokens {C : ℤ} (h0 : 0 ≤ C) (h : C ≤ 2 ^ 53) (P t0 : ℤ) :
    (NewTokenBucket C P t0).tokens = C := by
  simp only [NewTokenBucket]
  exact Float64.ofInt_eq h0 h

theorem NewTokenBucket_capacity {C : ℤ} (h0 : 0 ≤ C) (h : C ≤ 2 ^ 53) (P t0 : ℤ) :
    (NewTokenBucket C P t0).capacity = C := by
  simp only [NewTokenBucket]
  exact Float64.ofInt_eq h0 h

theorem NewTokenBucket_lastRefill (C P t0 : ℤ) : (NewTokenBucket C P t0).lastRefill = t0 := rfl

theorem settled_NewTokenBucket (C P t0 : ℤ) : Settled (NewTokenBucket C P t0) t0 :=
  settled_lastRefill (NewTokenBucket C P t0)

/-- A settled bucket holding exactly `C` tokens admits `C` calls and refuses
the next one. -/
theorem allowN_succ_of_tokens_eq (C : ℕ) (hC : C ≤ 2 ^ 53) {now : ℤ} {tb : TokenBucket}
    (hs : Settled tb now) (ht : tb.tokens = C) :
    allowN (C + 1) now tb = List.replicate C true ++ [false] := by
  have hrep : Float64.Representable tb.tokens := by
    rw [ht]
    have := Float64.representable_of_le_two_pow (n := (C : ℤ)) (by positivity)
      (by exact_mod_cast hC)
    simpa using this
  have hmax : tb.tokens ≤ 2 ^ 53 := by rw [ht]; exact_mod_cast hC
  have h0 : 0 ≤ tb.tokens := by rw [ht]; positivity
  rw [allowN_settled (C + 1) hs hrep h0 hmax, ht, Nat.floor_natCast]
  simp

/-- C1 (amended): for every capacity `C` up to `2^53` and every refill period, a
fresh bucket answers true to exactly the first `C` calls of `Allow` (equally
`AllowWithRemaining`) and false to the next one while the clock stands still. -/
theorem fresh_bucket_admits_exactly_capacity (C : ℕ) (P t0 : ℤ) (h1 : 1 ≤ C)
    (hC : C ≤ 2 ^ 53) :
    allowN (C + 1) t0 (NewTokenBucket C P t0) = List.replicate C true ++ [false] ∧
    allowWithRemainingN (C + 1) t0 (NewTokenBucket C P t0) =
      List.replicate C true ++ [false] := by
  have _ := h1
  have ht : (NewTokenBucket C P t0).tokens = C := by
    have := NewTokenBucket_tokens (C := (C : ℤ)) (by positivity) (by exact_mod_cast hC) P t0
    simpa using this
  have h := allowN_succ_of_tokens_eq C hC (settled_NewTokenBucket C P t0) ht
  exact ⟨h, by rw [allowWithRemainingN_eq]; exact h⟩

theorem fresh_bucket_admits_exactly_capacity_witness :
    allowN (3 + 1) 0 (NewTokenBucket (3 : ℕ) time.Second 0) = List.replicate 3 true ++ [false] ∧
    allowWithRemainingN (3 + 1) 0 (NewTokenBucket (3 : ℕ) time.Second 0) =
      List.replicate 3 true ++ [false] :=
  fresh_bucket_admits_exactly_capacity 3 time.Second 0 (by decide) (by norm_num)

theorem round_two_pow_54_sub_one : Float64.round (2 ^ 54 - 1) = 2 ^ 54 := by
  have he : Float64.exponent (2 ^ 54 - 1 : ℚ) = 1 := by
    rw [Float64.exponent_eq (k := 53)] <;> norm_num [abs_of_pos]
  unfold Float64.round
  rw [he]
  have : ((2 : ℚ) ^ 54 - 1) / 2 ^ (1 : ℤ) = ((2 ^ 53 - 1 : ℤ) : ℚ) + 1 / 2 := by norm_num
  rw [this, Float64.roundHalfEven_tie]
  norm_num

theorem ofInt_two_pow_54 : Float64.ofInt (2 ^ 54) = 2 ^ 54 := by
  unfold Float64.ofInt
  apply Float64.round_of_representable
  exact ⟨2 ^ 52, 2, by norm_num, by norm_num, by norm_num⟩

/-- At capacity `2^54` a call at the instant of construction changes nothing:
`2^54 - 1` rounds back to `2^54`. -/
theorem Allow_two_pow_54 (P t0 : ℤ) :
    (NewTokenBucket (2 ^ 54) P t0).Allow t0 = (true, NewTokenBucket (2 ^ 54) P t0) := by
  have ht : (NewTokenBucket (2 ^ 54) P t0).tokens = 2 ^ 54 := by
    simp only [NewTokenBucket]; exact ofInt_two_pow_54
  rw [Allow_of_one_le (settled_NewTokenBucket _ P t0) (by rw [ht]; norm_num)]
  have hsub : Float64.sub (NewTokenBucket (2 ^ 54) P t0).tokens 1 =
      (NewTokenBucket (2 ^ 54) P t0).tokens := by
    rw [ht]; exact round_two_pow_54_sub_one
  rw [hsub]

theorem allowN_two_pow_54 (n : ℕ) (P t0 : ℤ) :
    allowN n t0 (NewTokenBucket (2 ^ 54) P t0) = List.replicate n true := by
  induction n with
  | zero => rfl
  | succ n ih =>
    simp only [allowN, Allow_two_pow_54, List.replicate_succ]
    rw [ih]

/-- C1 (counterexample): with capacity `2^54` the call number `2^54 + 1` made at
the instant of construction is admitted as well, so the first `C` calls are
not the only ones answered true. -/
theorem fresh_bucket_capacity_two_pow_54 :
    ¬ (allowN (2 ^ 54 + 1) 0 (NewTokenBucket (2 ^ 54) time.Second 0) =
        List.replicate (2 ^ 54) true ++ [false]) := by
  rw [allowN_two_pow_54]
  generalize (2 ^ 54 : ℕ) = n
  intro h
  rw [List.replicate_succ'] at h
  have := List.append_cancel_left h
  simp at this

end ratelimit

/-! ## Token bucket: the balance stays within bounds (C2) -/

namespace ratelimit

theorem wellFormed_NewTokenBucket {C : ℤ} (h0 : 0 ≤ C) (P t0 : ℤ) :
    WellFormed (NewTokenBucket C P t0) := by
  have hc : (0 : ℚ) ≤ (C : ℚ) := by exact_mod_cast h0
  have hcap : 0 ≤ Float64.ofInt C := Float64.round_nonneg hc
  have hrep : Float64.Representable (Float64.ofInt C) := Float64.round_representable hc
  refine ⟨hcap, le_rfl, hrep, hrep, ?_⟩
  simp only [NewTokenBucket]
  apply Float64.round_nonneg
  apply div_nonneg hcap
  split_ifs with h
  · norm_num
  · exact le_of_lt (not_le.mp h)

theorem wellFormed_refillLocked {tb : TokenBucket} (h : WellFormed tb) (now : ℤ) :
    WellFormed (tb.refillLocked now) := by
  unfold TokenBucket.refillLocked
  simp only
  split_ifs with h1 h2
  · exact h
  · exact ⟨le_trans h.tokens_nonneg h.tokens_le, le_rfl, h.capacity_rep, h.capacity_rep,
      h.rate_nonneg⟩
  · have hel : 0 ≤ time.Seconds (time.Sub now tb.lastRefill) := le_of_lt (not_le.mp h1)
    have hmul : 0 ≤ Float64.mul (time.Seconds (time.Sub now tb.lastRefill)) tb.refillRate :=
      Float64.round_nonneg (mul_nonneg hel h.rate_nonneg)
    have hsum : 0 ≤ tb.tokens +
        Float64.mul (time.Seconds (time.Sub now tb.lastRefill)) tb.refillRate :=
      add_nonneg h.tokens_nonneg hmul
    exact ⟨Float64.round_nonneg hsum, not_lt.mp h2, Float64.round_representable hsum,
      h.capacity_rep, h.rate_nonneg⟩

theorem wellFormed_Allow {tb : TokenBucket} (h : WellFormed tb) (now : ℤ) :
    WellFormed (tb.Allow now).2 := by
  have hr := wellFormed_refillLocked h now
  unfold TokenBucket.Allow
  simp only
  split_ifs with h1
  · have hsub : 0 ≤ (tb.refillLocked now).tokens - 1 := by linarith
    refine ⟨Float64.round_nonneg hsub, ?_, Float64.round_representable hsub, hr.capacity_rep,
      hr.rate_nonneg⟩
    exact Float64.round_le_of_representable hsub (by linarith [hr.tokens_le]) hr.capacity_rep
  · exact hr

theorem capacity_refillLocked (tb : TokenBucket) (now : ℤ) :
    (tb.refillLocked now).capacity = tb.capacity := by
  unfold TokenBucket.refillLocked
  simp only
  split_ifs <;> rfl

theorem capacity_Allow (tb : TokenBucket) (now : ℤ) :
    (tb.Allow now).2.capacity = tb.capacity := by
  unfold TokenBucket.Allow
  simp only
  split_ifs <;> exact capacity_refillLocked tb now

theorem step_eq (tb : TokenBucket) (c : Call × ℤ) :
    step tb c = (tb.Allow c.2).2 ∨ step tb c = tb.refillLocked c.2 := by
  unfold step
  rcases c with ⟨c, now⟩
  cases c
  · left; rfl
  · left; exact AllowWithRemaining_snd tb now
  · right; rfl

theorem wellFormed_step {tb : TokenBucket} (h : WellFormed tb) (c : Call × ℤ) :
    WellFormed (step tb c) ∧ (step tb c).capacity = tb.capacity := by
  rcases step_eq tb c with he | he <;> rw [he]
  · exact ⟨wellFormed_Allow h c.2, capacity_Allow tb c.2⟩
  · exact ⟨wellFormed_refillLocked h c.2, capacity_refillLocked tb c.2⟩

theorem wellFormed_run {tb : TokenBucket} (h : WellFormed tb) (cs : List (Call × ℤ)) :
    WellFormed (run tb cs) ∧ (run tb cs).capacity = tb.capacity := by
  induction cs generalizing tb with
  | nil => exact ⟨h, rfl⟩
  | cons c cs ih =>
    have hs := wellFormed_step h c
    have := ih hs.1
    exact ⟨this.1, by rw [← hs.2]; exact this.2⟩

/-- C2: for every bucket built with capacity `C ≥ 1`, after any finite sequence
of `Allow`, `AllowWithRemaining` and `Remaining` calls made at any clock
readings, the balance satisfies `0 ≤ tokens ≤ capacity`, where `capacity` is
the bucket's field, which stays `float64(C)`. -/
theorem tokens_between_zero_and_capacity (C P t0 : ℤ) (hC : 1 ≤ C) (cs : List (Call × ℤ)) :
    0 ≤ (run (NewTokenBucket C P t0) cs).tokens ∧
    (run (NewTokenBucket C P t0) cs).tokens ≤ (run (NewTokenBucket C P t0) cs).capacity ∧
    (run (NewTokenBucket C P t0) cs).capacity = Float64.ofInt C := by
  have h := wellFormed_run (wellFormed_NewTokenBucket (by omega : 0 ≤ C) P t0) cs
  exact ⟨h.1.tokens_nonneg, h.1.tokens_le, h.2⟩

theorem tokens_between_zero_and_capacity_witness :
    0 ≤ (run (NewTokenBucket 3 time.Second 0)
      [(Call.allow, 0), (Call.remaining, 500000000), (Call.allowWithRemaining, 2000000000)]).tokens ∧
    (run (NewTokenBucket 3 time.Second 0)
      [(Call.allow, 0), (Call.remaining, 500000000), (Call.allowWithRemaining, 2000000000)]).tokens ≤
    (run (NewTokenBucket 3 time.Second 0)
      [(Call.allow, 0), (Call.remaining, 500000000), (Call.allowWithRemaining, 2000000000)]).capacity ∧
    (run (NewTokenBucket 3 time.Second 0)
      [(Call.allow, 0), (Call.remaining, 500000000), (Call.allowWithRemaining, 2000000000)]).capacity =
      Float64.ofInt 3 :=
  tokens_between_zero_and_capacity 3 time.Second 0 (by decide) _

end ratelimit

/-! ## Float64: relative error of one rounding -/

namespace Float64

theorem roundHalfEven_le_add_half (q : ℚ) : (roundHalfEven q : ℚ) ≤ q + 1 / 2 := by
  have h3 := Int.floor_le q
  have h4 := Int.lt_floor_add_one q
  unfold roundHalfEven
  simp only
  split_ifs with a b c <;> push_cast <;> linarith

theorem sub_half_le_roundHalfEven (q : ℚ) : q - 1 / 2 ≤ (roundHalfEven q : ℚ) := by
  have h3 := Int.floor_le q
  have h4 := Int.lt_floor_add_one q
  unfold roundHalfEven
  simp only
  split_ifs with a b c <;> push_cast <;> linarith

/-- In the normal range one rounding changes a positive value by at most the
relative amount `2^-53`. -/
theorem round_rel_error {x : ℚ} (hx : (2 : ℚ) ^ (-1022 : ℤ) ≤ x) :
    x * (1 - 1 / 2 ^ 53) ≤ round x ∧ round x ≤ x * (1 + 1 / 2 ^ 53) := by
  have hpos : 0 < x := lt_of_lt_of_le (two_zpow_pos _) hx
  have hlog : -1022 ≤ Int.log 2 |x| := by
    rw [abs_of_pos hpos]
    exact (Int.zpow_le_iff_le_log (R := ℚ) (b := 2) (by norm_num) hpos).mp (by simpa using hx)
  have he : exponent x = Int.log 2 |x| - 52 := by
    unfold exponent
    exact max_eq_left (by omega)
  have hep := two_zpow_pos (exponent x)
  have h52 : (2 : ℚ) ^ (exponent x + 52) ≤ x := by
    rw [he, abs_of_pos hpos]
    have := Int.zpow_log_le_self (R := ℚ) (b := 2) (by norm_num) hpos
    simpa using this
  have hsplit : (2 : ℚ) ^ (exponent x + 52) = 2 ^ 52 * 2 ^ exponent x := by
    rw [add_comm, zpow_add₀ (by norm_num : (2 : ℚ) ≠ 0)]
    norm_num
  rw [hsplit] at h52
  have hq : x = x / 2 ^ exponent x * 2 ^ exponent x := by field_simp
  have hu := roundHalfEven_le_add_half (x / 2 ^ exponent x)
  have hl := sub_half_le_roundHalfEven (x / 2 ^ exponent x)
  have hu2 := mul_le_mul_of_nonneg_right hu hep.le
  have hl2 := mul_le_mul_of_nonneg_right hl hep.le
  rw [add_mul, ← hq] at hu2
  rw [sub_mul, ← hq] at hl2
  unfold round
  constructor
  · nlinarith
  · nlinarith

end Float64

/-! ## Elapsed seconds as the code computes them -/

namespace time

theorem Sub_le (t u : ℤ) : Sub t u ≤ maxDuration := by
  unfold Sub
  split_ifs with h1 h2
  · exact le_rfl
  · unfold minDuration maxDuration; norm_num
  · exact not_lt.mp h1

theorem tiny_le : (2 : ℚ) ^ (-1022 : ℤ) ≤ 1 / 2 ^ 40 := by
  have h : (2 : ℚ) ^ (-1022 : ℤ) ≤ 2 ^ (-40 : ℤ) :=
    zpow_le_zpow_right₀ (by norm_num) (by norm_num)
  have e : (2 : ℚ) ^ (-40 : ℤ) = 1 / 2 ^ 40 := by
    rw [zpow_neg, one_div]
    norm_cast
  rw [← e]; exact h

/-- Go `Seconds` of a positive duration is the exact quotient up to two roundings. -/
theorem Seconds_bounds {d : ℤ} (h0 : 0 < d) (h1 : d ≤ maxDuration) :
    (d : ℚ) / 1000000000 * ((1 - 1 / 2 ^ 53) * (1 - 1 / 2 ^ 53)) ≤ Seconds d ∧
    Seconds d ≤ (d : ℚ) / 1000000000 * ((1 + 1 / 2 ^ 53) * (1 + 1 / 2 ^ 53)) := by
  unfold maxDuration at h1
  have hs : Int.tdiv d Second = d / 1000000000 := by
    unfold Second; exact Int.tdiv_eq_ediv (le_of_lt h0) (by norm_num)
  have hn : Int.tmod d Second = d % 1000000000 := by
    unfold Second; exact Int.tmod_eq_emod (le_of_lt h0) (by norm_num)
  have hs0 : 0 ≤ d / 1000000000 := by omega
  have hs1 : d / 1000000000 ≤ 2 ^ 53 := by omega
  have hn0 : 0 ≤ d % 1000000000 := by omega
  have hn1 : d % 1000000000 < 1000000000 := by omega
  have hd : (d : ℚ) = ((d / 1000000000 : ℤ) : ℚ) * 1000000000 + ((d % 1000000000 : ℤ) : ℚ) := by
    have : d = (d / 1000000000) * 1000000000 + d % 1000000000 := by omega
    exact_mod_cast this
  unfold Seconds
  simp only [hs, hn]
  rw [Float64.ofInt_eq hs0 hs1, Float64.ofInt_eq hn0 (by omega)]
  generalize d / 1000000000 = s at *
  generalize d % 1000000000 = n at *
  have hsq : (0 : ℚ) ≤ (s : ℚ) := by exact_mod_cast hs0
  have hnq : (0 : ℚ) ≤ (n : ℚ) := by exact_mod_cast hn0
  -- the fractional part
  have ha : (n : ℚ) / 1000000000 * (1 - 1 / 2 ^ 53) ≤ Float64.div n 1000000000 ∧
      Float64.div n 1000000000 ≤ (n : ℚ) / 1000000000 * (1 + 1 / 2 ^ 53) := by
    unfold Float64.div
    rcases eq_or_lt_of_le hn0 with hz | hp
    · rw [← hz]; simp [Float64.round_zero]
    · apply Float64.round_rel_error
      have h1n : (1 : ℚ) ≤ (n : ℚ) := by exact_mod_cast hp
      have : (1 : ℚ) / 2 ^ 40 ≤ (n : ℚ) / 1000000000 := by
        rw [div_le_div_iff₀ (by positivity) (by positivity)]
        nlinarith
      exact le_trans tiny_le this
  have hD : (0 : ℚ) < (s : ℚ) + (n : ℚ) / 1000000000 := by
    have : (0 : ℚ) < (d : ℚ) := by exact_mod_cast h0
    rw [hd] at this
    have h9 : (0 : ℚ) < 1000000000 := by norm_num
    have : (0 : ℚ) < ((s : ℚ) * 1000000000 + n) / 1000000000 := div_pos this h9
    have e : ((s : ℚ) * 1000000000 + n) / 1000000000 = (s : ℚ) + (n : ℚ) / 1000000000 := by
      field_simp
    rw [e] at this; exact this
  have hDge : (1 : ℚ) / 1000000000 ≤ (s : ℚ) + (n : ℚ) / 1000000000 := by
    have hdi : (1 : ℤ) ≤ s * 1000000000 + n := by
      have : (0 : ℚ) < (d : ℚ) := by exact_mod_cast h0
      rw [hd] at this
      have : (0 : ℤ) < s * 1000000000 + n := by exact_mod_cast this
      omega
    have hq : (1 : ℚ) ≤ (s : ℚ) * 1000000000 + n := by exact_mod_cast hdi
    rw [div_le_iff₀ (by norm_num)]
    have : ((s : ℚ) + (n : ℚ) / 1000000000) * 1000000000 = (s : ℚ) * 1000000000 + n := by
      field_simp
    rw [this]; exact hq
  have hD2 : (d : ℚ) / 1000000000 = (s : ℚ) + (n : ℚ) / 1000000000 := by
    rw [hd]; field_simp
  rw [hD2]
  set D := (s : ℚ) + (n : ℚ) / 1000000000 with hDdef
  set a := Float64.div n 1000000000 with hadef
  have hsum1 : D * (1 - 1 / 2 ^ 53) ≤ (s : ℚ) + a := by
    have : (s : ℚ) * (1 - 1 / 2 ^ 53) ≤ s := by
      have : (0:ℚ) ≤ (s : ℚ) * (1 / 2 ^ 53) := by positivity
      linarith
    rw [hDdef, add_mul]
    linarith [ha.1]
  have hsum2 : (s : ℚ) + a ≤ D * (1 + 1 / 2 ^ 53) := by
    have : (s : ℚ) ≤ s * (1 + 1 / 2 ^ 53) := by
      have : (0:ℚ) ≤ (s : ℚ) * (1 / 2 ^ 53) := by positivity
      linarith
    rw [hDdef, add_mul]
    linarith [ha.2]
  have hnorm : (2 : ℚ) ^ (-1022 : ℤ) ≤ (s : ℚ) + a := by
    refine le_trans tiny_le (le_trans ?_ hsum1)
    have : (1 : ℚ) / 1000000000 * (1 - 1 / 2 ^ 53) ≤ D * (1 - 1 / 2 ^ 53) :=
      mul_le_mul_of_nonneg_right hDge (by norm_num)
    refine le_trans ?_ this
    norm_num
  have hr := Float64.round_rel_error hnorm
  unfold Float64.add
  have hu1 : (0 : ℚ) ≤ 1 - 1 / 2 ^ 53 := by norm_num
  have hu2 : (0 : ℚ) ≤ 1 + 1 / 2 ^ 53 := by norm_num
  constructor
  · calc D * ((1 - 1 / 2 ^ 53) * (1 - 1 / 2 ^ 53))
        = D * (1 - 1 / 2 ^ 53) * (1 - 1 / 2 ^ 53) := by ring
      _ ≤ ((s : ℚ) + a) * (1 - 1 / 2 ^ 53) := mul_le_mul_of_nonneg_right hsum1 hu1
      _ ≤ _ := hr.1
  · calc Float64.round ((s : ℚ) + a) ≤ ((s : ℚ) + a) * (1 + 1 / 2 ^ 53) := hr.2
      _ ≤ D * (1 + 1 / 2 ^ 53) * (1 + 1 / 2 ^ 53) := mul_le_mul_of_nonneg_right hsum2 hu2
      _ = D * ((1 + 1 / 2 ^ 53) * (1 + 1 / 2 ^ 53)) := by ring

theorem Seconds_pos {d : ℤ} (h0 : 0 < d) (h1 : d ≤ maxDuration) : 0 < Seconds d := by
  have h := (Seconds_bounds h0 h1).1
  have hd : (0 : ℚ) < (d : ℚ) := by exact_mod_cast h0
  have : (0 : ℚ) < (d : ℚ) / 1000000000 * ((1 - 1 / 2 ^ 53) * (1 - 1 / 2 ^ 53)) := by
    apply mul_pos (by positivity)
    norm_num
  linarith

end time

/-! ## Token bucket: the refill credited for a wait -/

namespace ratelimit

/-- The real number of tokens that a wait of `w` nanoseconds earns at capacity
`C` and period `P`, against the float64 product `elapsed * refillRate` that
the code computes: they agree up to five roundings. -/
theorem credit_bounds {C : ℕ} {P w : ℤ} (hC1 : 1 ≤ C) (hC : C ≤ 2 ^ 53) (hP : 0 < P)
    (hPmax : P ≤ time.maxDuration) (hw : 0 < w) (hwmax : w ≤ time.maxDuration) (t0 : ℤ) :
    (C : ℚ) * w / P * ((1 - 1 / 2 ^ 53) ^ 3 / (1 + 1 / 2 ^ 53) ^ 2) ≤
      time.Seconds w * (NewTokenBucket C P t0).refillRate ∧
    time.Seconds w * (NewTokenBucket C P t0).refillRate ≤
      (C : ℚ) * w / P * ((1 + 1 / 2 ^ 53) ^ 3 / (1 - 1 / 2 ^ 53) ^ 2) := by
  have hPq : (0 : ℚ) < (P : ℚ) := by exact_mod_cast hP
  have hwq : (0 : ℚ) < (w : ℚ) := by exact_mod_cast hw
  have hCq : (1 : ℚ) ≤ (C : ℚ) := by exact_mod_cast hC1
  have hsP := time.Seconds_bounds hP hPmax
  have hsw := time.Seconds_bounds hw hwmax
  have hsPpos := time.Seconds_pos hP hPmax
  have hswpos := time.Seconds_pos hw hwmax
  have hcap : Float64.ofInt (C : ℤ) = (C : ℚ) := by
    have := Float64.ofInt_eq (n := (C : ℤ)) (by positivity) (by exact_mod_cast hC)
    simpa using this
  have hrate : (NewTokenBucket C P t0).refillRate = Float64.round ((C : ℚ) / time.Seconds P) := by
    simp only [NewTokenBucket, Float64.div, hcap]
    rw [if_neg (not_le.mpr hsPpos)]
  rw [hrate]
  set sP := time.Seconds P with hsPdef
  set el := time.Seconds w with heldef
  set A : ℚ := 1 - 1 / 2 ^ 53 with hA
  set B : ℚ := 1 + 1 / 2 ^ 53 with hB
  have hApos : (0 : ℚ) < A := by rw [hA]; norm_num
  have hBpos : (0 : ℚ) < B := by rw [hB]; norm_num
  have hDP : (0 : ℚ) < (P : ℚ) / 1000000000 := by positivity
  have hDw : (0 : ℚ) < (w : ℚ) / 1000000000 := by positivity
  -- the period in seconds is below 2^35
  have hsPle : sP ≤ 2 ^ 35 := by
    refine le_trans hsP.2 ?_
    have hPm : (P : ℚ) ≤ 2 ^ 63 := by
      have : P ≤ 2 ^ 63 := by unfold time.maxDuration at hPmax; omega
      exact_mod_cast this
    have : (P : ℚ) / 1000000000 * (B * B) ≤ 2 ^ 63 / 1000000000 * (B * B) := by
      apply mul_le_mul_of_nonneg_right _ (by positivity)
      exact div_le_div_of_nonneg_right hPm (by norm_num)
    refine le_trans this ?_
    rw [hB]; norm_num
  have hnorm : (2 : ℚ) ^ (-1022 : ℤ) ≤ (C : ℚ) / sP := by
    refine le_trans time.tiny_le ?_
    rw [div_le_div_iff₀ (by positivity) hsPpos]
    nlinarith
  have hr := Float64.round_rel_error hnorm
  have hq1 : (C : ℚ) / ((P : ℚ) / 1000000000 * (B * B)) ≤ (C : ℚ) / sP :=
    div_le_div_of_nonneg_left (by positivity) hsPpos hsP.2
  have hq2 : (C : ℚ) / sP ≤ (C : ℚ) / ((P : ℚ) / 1000000000 * (A * A)) :=
    div_le_div_of_nonneg_left (by positivity) (by positivity) hsP.1
  have hrl : (C : ℚ) / ((P : ℚ) / 1000000000 * (B * B)) * A ≤ Float64.round ((C : ℚ) / sP) :=
    le_trans (mul_le_mul_of_nonneg_right hq1 hApos.le) hr.1
  have hru : Float64.round ((C : ℚ) / sP) ≤ (C : ℚ) / ((P : ℚ) / 1000000000 * (A * A)) * B :=
    le_trans hr.2 (mul_le_mul_of_nonneg_right hq2 hBpos.le)
  have hrpos : 0 ≤ Float64.round ((C : ℚ) / sP) :=
    Float64.round_nonneg (by positivity)
  constructor
  · calc (C : ℚ) * w / P * (A ^ 3 / B ^ 2)
        = (w : ℚ) / 1000000000 * (A * A) *
            ((C : ℚ) / ((P : ℚ) / 1000000000 * (B * B)) * A) := by
          field_simp; ring
      _ ≤ el * Float64.round ((C : ℚ) / sP) :=
          mul_le_mul hsw.1 hrl (by positivity) hswpos.le
  · calc el * Float64.round ((C : ℚ) / sP)
        ≤ (w : ℚ) / 1000000000 * (B * B) *
            ((C : ℚ) / ((P : ℚ) / 1000000000 * (A * A)) * B) :=
          mul_le_mul hsw.2 hru hrpos (by positivity)
      _ = (C : ℚ) * w / P * (B ^ 3 / A ^ 2) := by
          field_simp; ring

end ratelimit

/-! ## Token bucket: refill after an idle wait (C3, C4) -/

namespace ratelimit

theorem refillLocked_tokens_of_pos {tb : TokenBucket} {now : ℤ}
    (h : 0 < time.Seconds (time.Sub now tb.lastRefill)) :
    (tb.refillLocked now).tokens =
      if Float64.add tb.tokens
          (Float64.mul (time.Seconds (time.Sub now tb.lastRefill)) tb.refillRate) > tb.capacity
      then tb.capacity
      else Float64.add tb.tokens
          (Float64.mul (time.Seconds (time.Sub now tb.lastRefill)) tb.refillRate) := by
  unfold TokenBucket.refillLocked
  simp only
  rw [if_neg (not_le.mpr h)]

/-- After a wait whose credit reaches the capacity the bucket is exactly full,
whatever it held before. -/
theorem refillLocked_full {C : ℕ} {P : ℤ} (hC1 : 1 ≤ C) (hC : C ≤ 2 ^ 53) (hP : 0 < P)
    (hPmax : P ≤ time.maxDuration) (t0 tl now : ℤ) (t : ℚ) (ht : 0 ≤ t)
    (hw : P * (2 ^ 50 + 1) ≤ time.Sub now tl * 2 ^ 50) :
    (({ NewTokenBucket C P t0 with tokens := t, lastRefill := tl } : TokenBucket).refillLocked
      now).tokens = C := by
  have hwpos : 0 < time.Sub now tl := by
    by_contra hc
    push_neg at hc
    nlinarith
  have hwmax := time.Sub_le now tl
  have hel := time.Seconds_pos hwpos hwmax
  have hcb := (credit_bounds hC1 hC hP hPmax hwpos hwmax t0).1
  have hcap : (NewTokenBucket C P t0).capacity = (C : ℚ) := by
    have := NewTokenBucket_capacity (C := (C : ℤ)) (by positivity) (by exact_mod_cast hC) P t0
    simpa using this
  have hCrep : Float64.Representable (C : ℚ) := by
    have := Float64.representable_of_le_two_pow (n := (C : ℤ)) (by positivity)
      (by exact_mod_cast hC)
    simpa using this
  have hPq : (0 : ℚ) < (P : ℚ) := by exact_mod_cast hP
  have hCq : (1 : ℚ) ≤ (C : ℚ) := by exact_mod_cast hC1
  -- the exact credit is at least (1 + 2^-50) C
  have hX : (C : ℚ) * (1 + 1 / 2 ^ 50) ≤ (C : ℚ) * (time.Sub now tl : ℤ) / P := by
    have hq : (P : ℚ) * (2 ^ 50 + 1) ≤ ((time.Sub now tl : ℤ) : ℚ) * 2 ^ 50 := by
      exact_mod_cast hw
    rw [mul_div_assoc]
    apply mul_le_mul_of_nonneg_left _ (by positivity)
    rw [le_div_iff₀ hPq]
    have : (1 + 1 / 2 ^ 50 : ℚ) * P = P * (2 ^ 50 + 1) / 2 ^ 50 := by field_simp; ring
    rw [this, div_le_iff₀ (by positivity)]
    exact hq
  have hkappa : (1 : ℚ) ≤ (1 + 1 / 2 ^ 50) * ((1 - 1 / 2 ^ 53) ^ 3 / (1 + 1 / 2 ^ 53) ^ 2) := by
    norm_num
  have hx : (C : ℚ) ≤ time.Seconds (time.Sub now tl) * (NewTokenBucket C P t0).refillRate := by
    refine le_trans ?_ hcb
    have h1 : (C : ℚ) * (1 + 1 / 2 ^ 50) * ((1 - 1 / 2 ^ 53) ^ 3 / (1 + 1 / 2 ^ 53) ^ 2) ≤
        (C : ℚ) * (time.Sub now tl : ℤ) / P * ((1 - 1 / 2 ^ 53) ^ 3 / (1 + 1 / 2 ^ 53) ^ 2) :=
      mul_le_mul_of_nonneg_right hX (by norm_num)
    refine le_trans ?_ h1
    rw [mul_assoc]
    have : (C : ℚ) * 1 ≤ (C : ℚ) *
        ((1 + 1 / 2 ^ 50) * ((1 - 1 / 2 ^ 53) ^ 3 / (1 + 1 / 2 ^ 53) ^ 2)) :=
      mul_le_mul_of_nonneg_left hkappa (by positivity)
    linarith
  have hm : (C : ℚ) ≤ Float64.mul (time.Seconds (time.Sub now tl))
      (NewTokenBucket C P t0).refillRate :=
    Float64.le_round_of_representable (by positivity) hx hCrep
  have hsum : (C : ℚ) ≤ Float64.add t (Float64.mul (time.Seconds (time.Sub now tl))
      (NewTokenBucket C P t0).refillRate) :=
    Float64.le_round_of_representable (by positivity) (by linarith) hCrep
  rw [refillLocked_tokens_of_pos (by exact hel)]
  simp only [hcap]
  split_ifs with h
  · rfl
  · exact le_antisymm (not_lt.mp h) hsum

/-- C4 (amended): for every capacity `1 ≤ C ≤ 2^53`, refill period `P > 0` and
balance, after an idle wait of at least `(1 + 2^-50) * P` (for periods up to
`2^50` ns: any wait longer than `P`) the bucket admits exactly `C` consecutive
immediate requests and refuses the next one. -/
theorem full_after_idle_period (C : ℕ) (P t0 tl now : ℤ) (t : ℚ) (hC1 : 1 ≤ C)
    (hC : C ≤ 2 ^ 53) (hP : 0 < P) (hPmax : P ≤ time.maxDuration) (ht : 0 ≤ t)
    (hw : P * (2 ^ 50 + 1) ≤ time.Sub now tl * 2 ^ 50) :
    allowN (C + 1) now { NewTokenBucket C P t0 with tokens := t, lastRefill := tl } =
      List.replicate C true ++ [false] := by
  rw [← allowN_refillLocked]
  exact allowN_succ_of_tokens_eq C hC (settled_refillLocked _ now)
    (refillLocked_full hC1 hC hP hPmax t0 tl now t ht hw)

end ratelimit

namespace time

theorem Seconds_whole {k : ℤ} (h0 : 0 ≤ k) (h1 : k ≤ 2 ^ 53) : Seconds (k * Second) = k := by
  have hs : Int.tdiv (k * Second) Second = k := by
    unfold Second
    rw [Int.tdiv_eq_ediv (by positivity) (by norm_num)]
    omega
  have hn : Int.tmod (k * Second) Second = 0 := by
    unfold Second
    rw [Int.tmod_eq_emod (by positivity) (by norm_num)]
    omega
  unfold Seconds
  simp only [hs, hn]
  rw [Float64.ofInt_eq h0 h1, Float64.ofInt_eq le_rfl (by norm_num)]
  unfold Float64.div Float64.add
  simp only [Int.cast_zero, zero_div, Float64.round_zero, add_zero]
  exact Float64.round_of_representable (Float64.representable_of_le_two_pow h0 h1)

end time

namespace ratelimit

/-- A fresh bucket of capacity `C` after `C` immediate calls of `Allow`: empty,
everything else as built. -/
theorem afterAllowN_fresh (C : ℕ) (hC : C ≤ 2 ^ 53) (P t0 : ℤ) :
    afterAllowN C t0 (NewTokenBucket C P t0) =
      { NewTokenBucket C P t0 with tokens := 0, lastRefill := t0 } := by
  have ht : (NewTokenBucket C P t0).tokens = C := by
    have := NewTokenBucket_tokens (C := (C : ℤ)) (by positivity) (by exact_mod_cast hC) P t0
    simpa using this
  have hrep : Float64.Representable (NewTokenBucket C P t0).tokens := by
    rw [ht]
    have := Float64.representable_of_le_two_pow (n := (C : ℤ)) (by positivity)
      (by exact_mod_cast hC)
    simpa using this
  have h := (allowN_of_le C (settled_NewTokenBucket C P t0) hrep (by rw [ht])
    (by rw [ht]; exact_mod_cast hC)).2
  rw [h, ht, sub_self]
  rfl

theorem round_one_div_49 :
    Float64.round (1 / 49) = 5882252574524729 / 288230376151711744 := by
  have he : Float64.exponent (1 / 49 : ℚ) = -58 := by
    rw [Float64.exponent_eq (k := -6)] <;> norm_num [abs_of_pos]
  unfold Float64.round
  rw [he, Float64.roundHalfEven_eq_of_lt (m := 5882252574524729)] <;> norm_num

theorem round_49_mul :
    Float64.round (49 * (5882252574524729 / 288230376151711744)) =
      9007199254740991 / 9007199254740992 := by
  have he : Float64.exponent (49 * (5882252574524729 / 288230376151711744) : ℚ) = -53 := by
    rw [Float64.exponent_eq (k := -1)] <;> norm_num [abs_of_pos]
  unfold Float64.round
  rw [he, Float64.roundHalfEven_eq_of_lt (m := 9007199254740991)] <;> norm_num

theorem representable_below_one :
    Float64.Representable (9007199254740991 / 9007199254740992) :=
  ⟨9007199254740991, -53, by norm_num, by norm_num, by norm_num⟩

/-- C4 (counterexample): capacity 1, refill period 49 s. The bucket is emptied
by one call, then left idle for exactly 49 s. The refill credits
`49 * float64(1/49) = 1 - 2^-53` tokens, so the next request is refused: the
bucket admits none instead of one. -/
theorem idle_full_period_falls_short :
    allowN 2 49000000000 (afterAllowN 1 0 (NewTokenBucket 1 (49 * time.Second) 0)) =
      [false, false] := by
  have hfresh := afterAllowN_fresh 1 (by norm_num) (49 * time.Second) 0
  simp only [Nat.cast_one] at hfresh
  rw [hfresh, ← allowN_refillLocked]
  have hsec : time.Seconds (49 * time.Second) = 49 := by
    have := time.Seconds_whole (k := 49) (by norm_num) (by norm_num)
    simpa using this
  have hsub : time.Sub 49000000000 0 = 49 * time.Second := by
    unfold time.Sub time.maxDuration time.minDuration time.Second; norm_num
  have hcap : (NewTokenBucket 1 (49 * time.Second) 0).capacity = 1 := by
    have := NewTokenBucket_capacity (C := 1) (by norm_num) (by norm_num) (49 * time.Second) 0
    simpa using this
  have hrate : (NewTokenBucket 1 (49 * time.Second) 0).refillRate =
      5882252574524729 / 288230376151711744 := by
    simp only [NewTokenBucket, hsec, Float64.div]
    rw [Float64.ofInt_eq (by norm_num) (by norm_num)]
    norm_num
    exact round_one_div_49
  have htok : (({ NewTokenBucket 1 (49 * time.Second) 0 with tokens := 0, lastRefill := 0 } :
      TokenBucket).refillLocked 49000000000).tokens = 9007199254740991 / 9007199254740992 := by
    rw [refillLocked_tokens_of_pos (by simp only [hsub, hsec]; norm_num)]
    simp only [hsub, hsec, hrate, hcap, Float64.mul, Float64.add, round_49_mul, zero_add]
    rw [Float64.round_of_representable representable_below_one]
    norm_num
  exact allowN_of_lt_one 2 (settled_refillLocked _ _) (by rw [htok]; norm_num)

/-- Capacity 2 and a period of 100 ms, as in the repository test
`NoOverfillCapacity`; an empty bucket is left idle for 150 ms. -/
theorem full_after_idle_period_witness :
    allowN (2 + 1) 150000000
      { NewTokenBucket (2 : ℕ) 100000000 0 with tokens := 0, lastRefill := 0 } =
      List.replicate 2 true ++ [false] :=
  full_after_idle_period 2 100000000 0 0 150000000 0 (by decide) (by norm_num) (by decide)
    (by unfold time.maxDuration; norm_num) le_rfl
    (by unfold time.Sub time.maxDuration time.minDuration; norm_num)

end ratelimit

namespace ratelimit

theorem representable_below_two :
    Float64.Representable (2 - 1 / 2 ^ 52) :=
  ⟨2 ^ 53 - 1, -52, by norm_num, by norm_num, by norm_num⟩

/-- After a wait that earns between one and two tokens an empty bucket holds
at least one token and less than two. -/
theorem refillLocked_one_token {C : ℕ} {P : ℤ} (hC1 : 1 ≤ C) (hC : C ≤ 2 ^ 53) (hP : 0 < P)
    (hPmax : P ≤ time.maxDuration) (t0 tl now : ℤ)
    (hlo : P * (2 ^ 50 + 1) ≤ C * time.Sub now tl * 2 ^ 50)
    (hhi : C = 1 ∨ C * time.Sub now tl * 2 ^ 49 ≤ P * (2 ^ 50 - 1)) :
    1 ≤ (({ NewTokenBucket C P t0 with tokens := 0, lastRefill := tl } :
      TokenBucket).refillLocked now).tokens ∧
    (({ NewTokenBucket C P t0 with tokens := 0, lastRefill := tl } :
      TokenBucket).refillLocked now).tokens < 2 := by
  have hCpos : (0 : ℤ) < (C : ℤ) := by exact_mod_cast hC1
  have hwpos : 0 < time.Sub now tl := by
    by_contra hc
    push_neg at hc
    have : (C : ℤ) * time.Sub now tl ≤ 0 := mul_nonpos_of_nonneg_of_nonpos hCpos.le hc
    nlinarith
  have hwmax := time.Sub_le now tl
  have hel := time.Seconds_pos hwpos hwmax
  have hcb := credit_bounds hC1 hC hP hPmax hwpos hwmax t0
  have hcap : (NewTokenBucket C P t0).capacity = (C : ℚ) := by
    have := NewTokenBucket_capacity (C := (C : ℤ)) (by positivity) (by exact_mod_cast hC) P t0
    simpa using this
  have hrate : 0 ≤ (NewTokenBucket C P t0).refillRate :=
    (wellFormed_NewTokenBucket (C := (C : ℤ)) (by positivity) P t0).rate_nonneg
  have hPq : (0 : ℚ) < (P : ℚ) := by exact_mod_cast hP
  have hCq : (1 : ℚ) ≤ (C : ℚ) := by exact_mod_cast hC1
  set x := time.Seconds (time.Sub now tl) * (NewTokenBucket C P t0).refillRate with hxdef
  have hx0 : 0 ≤ x := mul_nonneg hel.le hrate
  -- the exact credit is at least 1 + 2^-50
  have hX : (1 + 1 / 2 ^ 50 : ℚ) ≤ (C : ℚ) * (time.Sub now tl : ℤ) / P := by
    have hq : (P : ℚ) * (2 ^ 50 + 1) ≤ (C : ℚ) * ((time.Sub now tl : ℤ) : ℚ) * 2 ^ 50 := by
      exact_mod_cast hlo
    rw [le_div_iff₀ hPq]
    have : (1 + 1 / 2 ^ 50 : ℚ) * P = P * (2 ^ 50 + 1) / 2 ^ 50 := by field_simp; ring
    rw [this, div_le_iff₀ (by positivity)]
    exact hq
  have hkappa : (1 : ℚ) ≤ (1 + 1 / 2 ^ 50) * ((1 - 1 / 2 ^ 53) ^ 3 / (1 + 1 / 2 ^ 53) ^ 2) := by
    norm_num
  have hx1 : 1 ≤ x :=
    le_trans hkappa (le_trans (mul_le_mul_of_nonneg_right hX (by norm_num)) hcb.1)
  have hm1 : 1 ≤ Float64.round x :=
    Float64.le_round_of_representable (by norm_num) hx1
      ⟨1, 0, by norm_num, by norm_num, by norm_num⟩
  have hmrep : Float64.Representable (Float64.round x) := Float64.round_representable hx0
  have hadd : Float64.add 0 (Float64.mul (time.Seconds (time.Sub now tl))
      (NewTokenBucket C P t0).refillRate) = Float64.round x := by
    unfold Float64.add Float64.mul
    rw [zero_add, Float64.round_of_representable hmrep]
  rw [refillLocked_tokens_of_pos (by exact hel)]
  simp only [hcap, hadd]
  rcases hhi with h1 | h2
  · have hC1q : (C : ℚ) = 1 := by exact_mod_cast h1
    rw [hC1q]
    split_ifs with h
    · norm_num
    · exact ⟨hm1, by linarith [not_lt.mp h]⟩
  · have hX2 : (C : ℚ) * (time.Sub now tl : ℤ) / P ≤ 2 - 1 / 2 ^ 49 := by
      have hq : (C : ℚ) * ((time.Sub now tl : ℤ) : ℚ) * 2 ^ 49 ≤ (P : ℚ) * (2 ^ 50 - 1) := by
        exact_mod_cast h2
      rw [div_le_iff₀ hPq]
      have : (2 - 1 / 2 ^ 49 : ℚ) * P = P * (2 ^ 50 - 1) / 2 ^ 49 := by field_simp; ring
      rw [this, le_div_iff₀ (by positivity)]
      exact hq
    have hkappa2 : (2 - 1 / 2 ^ 49 : ℚ) * ((1 + 1 / 2 ^ 53) ^ 3 / (1 - 1 / 2 ^ 53) ^ 2) ≤
        2 - 1 / 2 ^ 52 := by norm_num
    have hx2 : x ≤ 2 - 1 / 2 ^ 52 :=
      le_trans hcb.2 (le_trans (mul_le_mul_of_nonneg_right hX2 (by norm_num)) hkappa2)
    have hm2 : Float64.round x ≤ 2 - 1 / 2 ^ 52 :=
      Float64.round_le_of_representable hx0 hx2 representable_below_two
    have hm2lt : Float64.round x < 2 := lt_of_le_of_lt hm2 (by norm_num)
    split_ifs with h
    · exact ⟨hCq, lt_trans h hm2lt⟩
    · exact ⟨hm1, hm2lt⟩

/-- C3 (amended): a bucket of capacity `1 ≤ C ≤ 2^53` and refill period `P > 0`
that has been emptied and is then left idle for a wait `w` with
`(1 + 2^-50) * P/C ≤ w` and, unless `C = 1`, `w ≤ (2 - 2^-49) * P/C`, admits
exactly one more request: the first `Allow` after the wait returns true and
the immediately following one returns false. -/
theorem one_token_after_short_wait (C : ℕ) (P t0 tl now : ℤ) (hC1 : 1 ≤ C) (hC : C ≤ 2 ^ 53)
    (hP : 0 < P) (hPmax : P ≤ time.maxDuration)
    (hlo : P * (2 ^ 50 + 1) ≤ C * time.Sub now tl * 2 ^ 50)
    (hhi : C = 1 ∨ C * time.Sub now tl * 2 ^ 49 ≤ P * (2 ^ 50 - 1)) :
    allowN 2 now { NewTokenBucket C P t0 with tokens := 0, lastRefill := tl } =
      [true, false] := by
  have hb := refillLocked_one_token hC1 hC hP hPmax t0 tl now hlo hhi
  have hwf0 : WellFormed ({ NewTokenBucket C P t0 with tokens := 0, lastRefill := tl } :
      TokenBucket) := by
    have h := wellFormed_NewTokenBucket (C := (C : ℤ)) (by positivity) P t0
    exact ⟨le_rfl, h.tokens_nonneg.trans h.tokens_le,
      ⟨0, 0, by norm_num, by norm_num, by simp⟩, h.capacity_rep, h.rate_nonneg⟩
  have hwf := wellFormed_refillLocked hwf0 now
  rw [← allowN_refillLocked,
    allowN_settled 2 (settled_refillLocked _ now) hwf.tokens_rep hwf.tokens_nonneg
      (by linarith [hb.2])]
  have hfl : ⌊(({ NewTokenBucket C P t0 with tokens := 0, lastRefill := tl } :
      TokenBucket).refillLocked now).tokens⌋₊ = 1 := by
    rw [Nat.floor_eq_iff hwf.tokens_nonneg]
    exact ⟨by exact_mod_cast hb.1, by norm_num; linarith [hb.2]⟩
  rw [hfl]
  rfl

/-- Capacity 2 and a period of 100 ms, as in the repository test
`RefillTokens`; the emptied bucket is left idle for 75 ms. -/
theorem one_token_after_short_wait_witness :
    allowN 2 75000000 { NewTokenBucket (2 : ℕ) 100000000 0 with tokens := 0, lastRefill := 0 } =
      [true, false] :=
  one_token_after_short_wait 2 100000000 0 0 75000000 (by decide) (by norm_num) (by decide)
    (by unfold time.maxDuration; norm_num)
    (by unfold time.Sub time.maxDuration time.minDuration; norm_num)
    (Or.inr (by unfold time.Sub time.maxDuration time.minDuration; norm_num))

/-- C3 (counterexample): capacity 2, refill period 1 s. The bucket is emptied
by two calls and left idle for 1 s, which is at least `P/C = 0.5 s`. Both of
the next two calls are admitted, not only the first. -/
theorem long_wait_admits_two :
    allowN 2 1000000000 (afterAllowN 2 0 (NewTokenBucket 2 time.Second 0)) = [true, true] := by
  have hfresh := afterAllowN_fresh 2 (by norm_num) time.Second 0
  simp only [Nat.cast_ofNat] at hfresh
  rw [hfresh, ← allowN_refillLocked]
  have hsec : time.Seconds time.Second = 1 := by
    have := time.Seconds_whole (k := 1) (by norm_num) (by norm_num)
    simpa using this
  have hsub : time.Sub 1000000000 0 = time.Second := by
    unfold time.Sub time.maxDuration time.minDuration time.Second; norm_num
  have hcap : (NewTokenBucket 2 time.Second 0).capacity = 2 := by
    have := NewTokenBucket_capacity (C := 2) (by norm_num) (by norm_num) time.Second 0
    simpa using this
  have hr2 : Float64.round 2 = 2 :=
    Float64.round_of_representable ⟨2, 0, by norm_num, by norm_num, by norm_num⟩
  have hrate : (NewTokenBucket 2 time.Second 0).refillRate = 2 := by
    simp only [NewTokenBucket, hsec, Float64.div]
    rw [Float64.ofInt_eq (by norm_num) (by norm_num)]
    norm_num
    exact hr2
  have htok : (({ NewTokenBucket 2 time.Second 0 with tokens := 0, lastRefill := 0 } :
      TokenBucket).refillLocked 1000000000).tokens = 2 := by
    rw [refillLocked_tokens_of_pos (by simp only [hsub, hsec]; norm_num)]
    simp only [hsub, hsec, hrate, hcap, Float64.mul, Float64.add, one_mul, zero_add, hr2]
    norm_num
  have h := allowN_of_le 2 (settled_refillLocked
    ({ NewTokenBucket 2 time.Second 0 with tokens := 0, lastRefill := 0 } : TokenBucket)
    1000000000)
    (by rw [htok]; exact ⟨2, 0, by norm_num, by norm_num, by norm_num⟩)
    (by rw [htok]; norm_num) (by rw [htok]; norm_num)
  rw [h.1]
  rfl

end ratelimit

/-! ## Registry: eviction of idle clients (C6) -/

namespace ratelimit

/-- A refill never takes a full bucket below its capacity. -/
theorem refillLocked_tokens_of_full {tb : TokenBucket} (h : WellFormed tb)
    (hfull : tb.tokens = tb.capacity) (now : ℤ) :
    (tb.refillLocked now).tokens = tb.capacity := by
  unfold TokenBucket.refillLocked
  simp only
  split_ifs with h1 h2
  · exact hfull
  · rfl
  · have hel : 0 ≤ time.Seconds (time.Sub now tb.lastRefill) := le_of_lt (not_le.mp h1)
    have hmul : 0 ≤ Float64.mul (time.Seconds (time.Sub now tb.lastRefill)) tb.refillRate :=
      Float64.round_nonneg (mul_nonneg hel h.rate_nonneg)
    have hcap0 : 0 ≤ tb.capacity := le_trans h.tokens_nonneg h.tokens_le
    have : tb.capacity ≤ Float64.add tb.tokens
        (Float64.mul (time.Seconds (time.Sub now tb.lastRefill)) tb.refillRate) :=
      Float64.le_round_of_representable hcap0 (by rw [hfull]; linarith) h.capacity_rep
    exact le_antisymm (not_lt.mp h2) this

/-- A bucket just built with capacity at least one admits the first request,
whenever it arrives. -/
theorem AllowWithRemaining_NewTokenBucket {C : ℤ} (hC : 1 ≤ C) (P t0 now : ℤ) :
    ((NewTokenBucket C P t0).AllowWithRemaining now).1.1 = true := by
  have hwf := wellFormed_NewTokenBucket (by omega : 0 ≤ C) P t0
  have hfull := refillLocked_tokens_of_full hwf rfl now
  have hcap : (1 : ℚ) ≤ (NewTokenBucket C P t0).capacity := by
    simp only [NewTokenBucket]
    exact Float64.le_round_of_representable (by norm_num) (by exact_mod_cast hC)
      ⟨1, 0, by norm_num, by norm_num, by norm_num⟩
  unfold TokenBucket.AllowWithRemaining
  simp only
  rw [if_pos (by rw [hfull]; exact hcap)]

end ratelimit

namespace middleware

theorem store_get (rl : RateLimiter) (ip : String) (cl : clientLimiter) :
    (store rl ip cl).clientLimiters ip = some cl := by
  simp [store]

theorem store_get_of_ne (rl : RateLimiter) {ip ip2 : String} (cl : clientLimiter)
    (h : ip2 ≠ ip) : (store rl ip cl).clientLimiters ip2 = rl.clientLimiters ip2 := by
  simp [store, h]

theorem RateLimitMiddleware_rl {σ : Type} (rl : RateLimiter)
    (next : σ → http.Response × σ) (ip : String) (tNew tSeen tAllow : ℤ) (s : σ) :
    (RateLimitMiddleware rl next ip tNew tSeen tAllow s).2 =
      store rl ip { touch rl ip tNew tSeen with
        limiter := ((touch rl ip tNew tSeen).limiter.AllowWithRemaining tAllow).2 } := by
  unfold RateLimitMiddleware
  simp only
  split_ifs <;> rfl

theorem RateLimitMiddleware_of_allowed {σ : Type} (rl : RateLimiter)
    (next : σ → http.Response × σ) (ip : String) (tNew tSeen tAllow : ℤ) (s : σ)
    (h : ((touch rl ip tNew tSeen).limiter.AllowWithRemaining tAllow).1.1 = true) :
    (RateLimitMiddleware rl next ip tNew tSeen tAllow s).1 = next s := by
  unfold RateLimitMiddleware
  simp only [h]
  rfl

theorem RateLimitMiddleware_of_refused {σ : Type} (rl : RateLimiter)
    (next : σ → http.Response × σ) (ip : String) (tNew tSeen tAllow : ℤ) (s : σ)
    (h : ((touch rl ip tNew tSeen).limiter.AllowWithRemaining tAllow).1.1 = false) :
    (RateLimitMiddleware rl next ip tNew tSeen tAllow s).1 =
      (http.Error "Too Many Requests" http.StatusTooManyRequests, s) := by
  unfold RateLimitMiddleware
  simp only [h]
  rfl

theorem touch_of_absent {rl : RateLimiter} {ip : String} (h : rl.clientLimiters ip = none)
    (tNew tSeen : ℤ) :
    touch rl ip tNew tSeen =
      { limiter := ratelimit.NewTokenBucket rl.capacity rl.refillPeriod tNew,
        lastSeen := tSeen } := by
  unfold touch
  rw [h]

/-- C6: an identity whose `lastSeen` is older than the cleanup threshold when a
sweep visits it is absent from the client map after the sweep; the next
request from it creates a new entry whose bucket is a freshly built one,
holding the full capacity whatever the evicted bucket held, the entry is
stored in the map, and for a capacity of at least one that request is
admitted. -/
theorem idle_client_evicted_then_fresh (rl : RateLimiter) (nowAt : String → ℤ) (ip : String)
    (cl : clientLimiter) (hcl : rl.clientLimiters ip = some cl)
    (hidle : time.Sub (nowAt ip) cl.lastSeen > rl.cleanupPeriod) :
    (sweep rl nowAt).clientLimiters ip = none ∧
    ∀ (tNew tSeen tAllow : ℤ),
      touch (sweep rl nowAt) ip tNew tSeen =
        { limiter := ratelimit.NewTokenBucket rl.capacity rl.refillPeriod tNew,
          lastSeen := tSeen } ∧
      (touch (sweep rl nowAt) ip tNew tSeen).limiter.tokens = Float64.ofInt rl.capacity ∧
      (touch (sweep rl nowAt) ip tNew tSeen).limiter.tokens =
        (touch (sweep rl nowAt) ip tNew tSeen).limiter.capacity ∧
      ∀ {σ : Type} (next : σ → http.Response × σ) (s : σ),
        (RateLimitMiddleware (sweep rl nowAt) next ip tNew tSeen tAllow
            s).2.clientLimiters ip =
          some { limiter := ((ratelimit.NewTokenBucket rl.capacity rl.refillPeriod
                    tNew).AllowWithRemaining tAllow).2,
                 lastSeen := tSeen } ∧
        (1 ≤ rl.capacity →
          (RateLimitMiddleware (sweep rl nowAt) next ip tNew tSeen tAllow s).1 =
            next s) := by
  have habs : (sweep rl nowAt).clientLimiters ip = none := by
    simp only [sweep, hcl]
    rw [if_pos hidle]
  refine ⟨habs, fun tNew tSeen tAllow => ?_⟩
  have ht := touch_of_absent habs tNew tSeen
  have hcap : (sweep rl nowAt).capacity = rl.capacity := rfl
  have hper : (sweep rl nowAt).refillPeriod = rl.refillPeriod := rfl
  rw [hcap, hper] at ht
  refine ⟨ht, by rw [ht]; rfl, by rw [ht]; rfl, fun next s => ⟨?_, fun h1 => ?_⟩⟩
  · rw [RateLimitMiddleware_rl, store_get, ht]
  · apply RateLimitMiddleware_of_allowed
    rw [ht]
    exact ratelimit.AllowWithRemaining_NewTokenBucket h1 _ _ _

/-- A client last seen at 0 with an empty bucket, swept 61 s later under the
one-minute threshold. -/
theorem idle_client_evicted_then_fresh_witness :
    (sweep (store (NewRateLimiter 5 5000000000) "10.0.0.1"
        { limiter := { ratelimit.NewTokenBucket 5 5000000000 0 with tokens := 0 }, lastSeen := 0 })
      (fun _ => 61000000000)).clientLimiters "10.0.0.1" = none :=
  (idle_client_evicted_then_fresh
    (store (NewRateLimiter 5 5000000000) "10.0.0.1"
      { limiter := { ratelimit.NewTokenBucket 5 5000000000 0 with tokens := 0 }, lastSeen := 0 })
    (fun _ => 61000000000) "10.0.0.1"
    { limiter := { ratelimit.NewTokenBucket 5 5000000000 0 with tokens := 0 }, lastSeen := 0 }
    (store_get _ _ _)
    (by
      show time.Sub 61000000000 0 > 1 * time.Minute
      unfold time.Sub time.maxDuration time.minDuration time.Minute time.Second
      norm_num)).1

end middleware

/-! ## Request pipeline: admission comes first (C7, C8) -/

namespace handler

open http (Body Response)

theorem GetAds_of_missing {σ : Type} (s : Server σ) {param : String}
    (h : strings.TrimSpace param = "") (now : ℤ) (w : World σ) :
    GetAds s param now w = (http.Error "missing domain" http.StatusBadRequest, w) := by
  unfold GetAds
  simp only [h, if_true]

theorem GetAds_of_invalid {σ : Type} (s : Server σ) {param : String}
    (h0 : strings.TrimSpace param ≠ "")
    (h : isValidDomain (strings.TrimSpace param) = false) (now : ℤ) (w : World σ) :
    GetAds s param now w = (http.Error "invalid domain" http.StatusBadRequest, w) := by
  unfold GetAds
  simp only [h0, if_false, h, Bool.not_false, if_true]

/-- A request whose `domain` fails validation leaves the world as it was and
is answered 400 by `GetAds`. -/
theorem GetAds_of_bad_domain {σ : Type} (s : Server σ) {param : String}
    (h : strings.TrimSpace param = "" ∨ isValidDomain (strings.TrimSpace param) = false)
    (now : ℤ) (w : World σ) :
    (GetAds s param now w).1.status = http.StatusBadRequest ∧ (GetAds s param now w).2 = w := by
  by_cases h0 : strings.TrimSpace param = ""
  · rw [GetAds_of_missing s h0]; exact ⟨rfl, rfl⟩
  · rcases h with h | h
    · exact absurd h h0
    · rw [GetAds_of_invalid s h0 h]; exact ⟨rfl, rfl⟩

theorem Router_ads {σ : Type} (s : Server σ) (req : Request) (clk : Clock) (st : State σ)
    (hp : req.path = "/ads") (hm : req.method = "GET") :
    Router s req clk st =
      ((middleware.RateLimitMiddleware st.rl (GetAds s req.domain clk.tNow) req.clientIP
          clk.tNew clk.tSeen clk.tAllow st.world).1.1,
       { rl := (middleware.RateLimitMiddleware st.rl (GetAds s req.domain clk.tNow)
            req.clientIP clk.tNew clk.tSeen clk.tAllow st.world).2,
         world := (middleware.RateLimitMiddleware st.rl (GetAds s req.domain clk.tNow)
            req.clientIP clk.tNew clk.tSeen clk.tAllow st.world).1.2 }) := by
  unfold Router
  simp only [hp, hm, if_true]

theorem Router_of_empty_bucket {σ : Type} (s : Server σ) (req : Request) (clk : Clock)
    (st : State σ) (hp : req.path = "/ads") (hm : req.method = "GET")
    (hlt : ((middleware.touch st.rl req.clientIP clk.tNew clk.tSeen).limiter.Remaining
      clk.tAllow).1 < 1) :
    (Router s req clk st).1 = http.Error "Too Many Requests" http.StatusTooManyRequests ∧
    (Router s req clk st).2.world = st.world ∧
    (Router s req clk st).2.world.calls = st.world.calls := by
  have hrefused : ((middleware.touch st.rl req.clientIP clk.tNew clk.tSeen).limiter.AllowWithRemaining
      clk.tAllow).1.1 = false := by
    unfold ratelimit.TokenBucket.Remaining at hlt
    simp only at hlt
    unfold ratelimit.TokenBucket.AllowWithRemaining
    simp only
    rw [if_neg (not_le.mpr hlt)]
  have h := middleware.RateLimitMiddleware_of_refused st.rl (GetAds s req.domain clk.tNow)
    req.clientIP clk.tNew clk.tSeen clk.tAllow st.world hrefused
  rw [Router_ads s req clk st hp hm]
  simp [h]

theorem Router_of_bad_domain {σ : Type} (s : Server σ) (req : Request)
    (clk : Clock) (st : State σ) (hp : req.path = "/ads") (hm : req.method = "GET")
    (hbad : strings.TrimSpace req.domain = "" ∨
      isValidDomain (strings.TrimSpace req.domain) = false) :
    (Router s req clk st).2.world = st.world ∧
    (Router s req clk st).2.rl.clientLimiters req.clientIP =
      some { middleware.touch st.rl req.clientIP clk.tNew clk.tSeen with
        limiter := ((middleware.touch st.rl req.clientIP clk.tNew clk.tSeen).limiter.AllowWithRemaining
          clk.tAllow).2 } ∧
    (((middleware.touch st.rl req.clientIP clk.tNew clk.tSeen).limiter.AllowWithRemaining
        clk.tAllow).1.1 = true → (Router s req clk st).1.status = http.StatusBadRequest) ∧
    (((middleware.touch st.rl req.clientIP clk.tNew clk.tSeen).limiter.AllowWithRemaining
        clk.tAllow).1.1 = false →
      (Router s req clk st).1 = http.Error "Too Many Requests" http.StatusTooManyRequests) := by
  have hg := GetAds_of_bad_domain s hbad clk.tNow st.world
  rw [Router_ads s req clk st hp hm]
  simp only
  refine ⟨?_, ?_, ?_, ?_⟩
  · cases hA : ((middleware.touch st.rl req.clientIP clk.tNew clk.tSeen).limiter.AllowWithRemaining
        clk.tAllow).1.1
    · rw [middleware.RateLimitMiddleware_of_refused _ _ _ _ _ _ _ hA]
    · rw [middleware.RateLimitMiddleware_of_allowed _ _ _ _ _ _ _ hA]
      exact hg.2
  · rw [middleware.RateLimitMiddleware_rl, middleware.store_get]
  · intro hA
    rw [middleware.RateLimitMiddleware_of_allowed _ _ _ _ _ _ _ hA]
    exact hg.1
  · intro hA
    rw [middleware.RateLimitMiddleware_of_refused _ _ _ _ _ _ _ hA]

/-- C8: a GET request to `/ads` that arrives when the bucket of its client
holds less than one token (the balance `Remaining` reports at that instant,
the bucket being the stored one or, for an unknown client, the new one) is
answered 429 and the wrapped handler does not run: no call on the cache,
fetcher or parser is recorded and the cache store is unchanged. -/
theorem empty_bucket_answers_429 {σ : Type} (s : Server σ) (req : Request) (clk : Clock)
    (st : State σ) (hp : req.path = "/ads") (hm : req.method = "GET")
    (hlt : ((middleware.touch st.rl req.clientIP clk.tNew clk.tSeen).limiter.Remaining
      clk.tAllow).1 < 1) :
    (Router s req clk st).1 = ⟨429, Body.text "Too Many Requests"⟩ ∧
    (Router s req clk st).2.world = st.world ∧
    (Router s req clk st).2.world.calls = st.world.calls :=
  Router_of_empty_bucket s req clk st hp hm hlt

/-- C7 (amended): for every GET request to `/ads` whose trimmed `domain` is
empty or fails the validation, no call on the cache, fetcher or parser is
made and the cache store is unchanged; the admission check runs first, so the
entry of the client is created or refreshed and charged as for any request,
and the answer is 400 when the rate limiter admits the request and 429 when
it does not. -/
theorem bad_domain_is_checked_after_admission {σ : Type} (s : Server σ) (req : Request)
    (clk : Clock) (st : State σ) (hp : req.path = "/ads") (hm : req.method = "GET")
    (hbad : strings.TrimSpace req.domain = "" ∨
      isValidDomain (strings.TrimSpace req.domain) = false) :
    (Router s req clk st).2.world = st.world ∧
    (Router s req clk st).2.rl.clientLimiters req.clientIP =
      some { middleware.touch st.rl req.clientIP clk.tNew clk.tSeen with
        limiter := ((middleware.touch st.rl req.clientIP clk.tNew clk.tSeen).limiter.AllowWithRemaining
          clk.tAllow).2 } ∧
    (((middleware.touch st.rl req.clientIP clk.tNew clk.tSeen).limiter.AllowWithRemaining
        clk.tAllow).1.1 = true → (Router s req clk st).1.status = 400) ∧
    (((middleware.touch st.rl req.clientIP clk.tNew clk.tSeen).limiter.AllowWithRemaining
        clk.tAllow).1.1 = false →
      (Router s req clk st).1 = ⟨429, Body.text "Too Many Requests"⟩) :=
  Router_of_bad_domain s req clk st hp hm hbad

end handler

namespace handler

open http (Body Response)

theorem exhausted_limiter (ip : String) (tNew tSeen : ℤ) :
    (middleware.touch (exhaustedState ip).rl ip tNew tSeen).limiter =
      { ratelimit.NewTokenBucket 5 5000000000 0 with tokens := 0, lastRefill := 0 } := by
  have hfresh := ratelimit.afterAllowN_fresh 5 (by norm_num) 5000000000 0
  simp only [Nat.cast_ofNat] at hfresh
  unfold middleware.touch exhaustedState
  simp only [middleware.store_get]
  exact hfresh

theorem exhausted_remaining (ip : String) (tNew tSeen : ℤ) :
    ((middleware.touch (exhaustedState ip).rl ip tNew tSeen).limiter.Remaining 0).1 = 0 := by
  rw [exhausted_limiter]
  unfold ratelimit.TokenBucket.Remaining
  simp only
  rw [ratelimit.refillLocked_of_settled (ratelimit.settled_lastRefill _)]

/-- The sixth request of a client within the refill window, capacity 5: the
first five were made at reading 0 and so is this one. -/
theorem empty_bucket_answers_429_witness :
    (Router testServer ⟨"GET", "/ads", "test.com", "10.0.0.1"⟩ ⟨0, 0, 0, 0⟩
        (exhaustedState "10.0.0.1")).1 = ⟨429, Body.text "Too Many Requests"⟩ ∧
    (Router testServer ⟨"GET", "/ads", "test.com", "10.0.0.1"⟩ ⟨0, 0, 0, 0⟩
        (exhaustedState "10.0.0.1")).2.world = (exhaustedState "10.0.0.1").world ∧
    (Router testServer ⟨"GET", "/ads", "test.com", "10.0.0.1"⟩ ⟨0, 0, 0, 0⟩
        (exhaustedState "10.0.0.1")).2.world.calls = (exhaustedState "10.0.0.1").world.calls :=
  empty_bucket_answers_429 testServer ⟨"GET", "/ads", "test.com", "10.0.0.1"⟩ ⟨0, 0, 0, 0⟩
    (exhaustedState "10.0.0.1") rfl rfl
    (by
      show ((middleware.touch (exhaustedState "10.0.0.1").rl "10.0.0.1" 0 0).limiter.Remaining
        0).1 < 1
      rw [exhausted_remaining]; norm_num)

theorem fresh_limiter_after_request (ip : String) :
    ((middleware.touch freshState.rl ip 0 0).limiter.AllowWithRemaining 0) =
      ((true, 4), { ratelimit.NewTokenBucket 5 5000000000 0 with tokens := 4 }) := by
  have ht : middleware.touch freshState.rl ip 0 0 =
      { limiter := ratelimit.NewTokenBucket 5 5000000000 0, lastSeen := 0 } :=
    middleware.touch_of_absent rfl 0 0
  rw [ht]
  have htok : (ratelimit.NewTokenBucket 5 5000000000 0).tokens = 5 := by
    have := ratelimit.NewTokenBucket_tokens (C := 5) (by norm_num) (by norm_num) 5000000000 0
    simpa using this
  have hsub : Float64.sub (ratelimit.NewTokenBucket 5 5000000000 0).tokens 1 = 4 := by
    rw [htok, Float64.sub_one_eq ⟨5, 0, by norm_num, by norm_num, by norm_num⟩
      (by norm_num) (by norm_num)]
    norm_num
  unfold ratelimit.TokenBucket.AllowWithRemaining
  simp only
  rw [ratelimit.refillLocked_of_settled (ratelimit.settled_NewTokenBucket _ _ _),
    if_pos (by rw [htok]; norm_num), hsub]

/-- C7 (counterexample): a first request with `domain=invalid-domain` on a
fresh server is answered 400, but admission work has occurred: the client map,
empty before, now holds an entry for the client, and one of its five tokens
has been taken. The same request from a client whose bucket is empty is
answered 429, not 400. -/
theorem invalid_domain_request_is_charged :
    (Router testServer ⟨"GET", "/ads", "invalid-domain", "10.0.0.1"⟩ ⟨0, 0, 0, 0⟩
        freshState).1.status = 400 ∧
    freshState.rl.clientLimiters "10.0.0.1" = none ∧
    ((Router testServer ⟨"GET", "/ads", "invalid-domain", "10.0.0.1"⟩ ⟨0, 0, 0, 0⟩
        freshState).2.rl.clientLimiters "10.0.0.1").map (fun cl => cl.limiter.tokens) =
      some 4 ∧
    (Router testServer ⟨"GET", "/ads", "invalid-domain", "10.0.0.1"⟩ ⟨0, 0, 0, 0⟩
        (exhaustedState "10.0.0.1")).1.status = 429 := by
  have hbad : strings.TrimSpace "invalid-domain" = "" ∨
      isValidDomain (strings.TrimSpace "invalid-domain") = false := Or.inr (by decide)
  have h1 := Router_of_bad_domain testServer
    ⟨"GET", "/ads", "invalid-domain", "10.0.0.1"⟩ ⟨0, 0, 0, 0⟩ freshState rfl rfl hbad
  have hA := fresh_limiter_after_request "10.0.0.1"
  refine ⟨?_, rfl, ?_, ?_⟩
  · exact h1.2.2.1 (by simp only [hA])
  · rw [h1.2.1]
    simp only [Option.map_some', hA]
  · have h2 := Router_of_empty_bucket testServer
      ⟨"GET", "/ads", "invalid-domain", "10.0.0.1"⟩ ⟨0, 0, 0, 0⟩ (exhaustedState "10.0.0.1")
      rfl rfl
      (by
        show ((middleware.touch (exhaustedState "10.0.0.1").rl "10.0.0.1" 0 0).limiter.Remaining
          0).1 < 1
        rw [exhausted_remaining]; norm_num)
    rw [h2.1]
    rfl

/-- The first request of a client with `domain=invalid-domain`. -/
theorem bad_domain_is_checked_after_admission_witness :
    (Router testServer ⟨"GET", "/ads", "invalid-domain", "10.0.0.1"⟩ ⟨0, 0, 0, 0⟩
        freshState).2.world = freshState.world :=
  (bad_domain_is_checked_after_admission testServer
    ⟨"GET", "/ads", "invalid-domain", "10.0.0.1"⟩ ⟨0, 0, 0, 0⟩ freshState rfl rfl
    (Or.inr (by decide))).1

end handler

/-! ## Domain validation (C9) -/

namespace handler

open http (Body Response)

open RegularExpression in
theorem oneOf_rmatch_iff (cs : List Char) (x : List Char) :
    (oneOf cs).rmatch x ↔ ∃ c ∈ cs, x = [c] := by
  induction cs with
  | nil =>
    simp only [oneOf, List.foldr_nil, zero_rmatch, List.not_mem_nil, false_and, exists_false]
    simp
  | cons a cs ih =>
    have : oneOf (a :: cs) = RegularExpression.char a + oneOf cs := rfl
    rw [this, add_rmatch_iff, char_rmatch_iff, ih]
    constructor
    · rintro (h | ⟨c, hc, h⟩)
      · exact ⟨a, List.mem_cons_self _ _, h⟩
      · exact ⟨c, List.mem_cons_of_mem _ hc, h⟩
    · rintro ⟨c, hc, h⟩
      rcases List.mem_cons.mp hc with rfl | hc
      · exact Or.inl h
      · exact Or.inr ⟨c, hc, h⟩

open RegularExpression in
theorem star_oneOf_rmatch_iff (cs : List Char) (x : List Char) :
    (star (oneOf cs)).rmatch x ↔ ∀ c ∈ x, c ∈ cs := by
  rw [star_rmatch_iff]
  constructor
  · rintro ⟨S, rfl, hS⟩ c hc
    obtain ⟨t, ht, hct⟩ := List.mem_flatten.mp hc
    obtain ⟨d, hd, rfl⟩ := (oneOf_rmatch_iff cs t).mp (hS t ht).2
    rw [List.mem_singleton.mp hct]
    exact hd
  · intro h
    refine ⟨x.map (fun c => [c]), ?_, ?_⟩
    · clear h
      induction x with
      | nil => rfl
      | cons a x ih =>
        simp only [List.map_cons, List.flatten_cons, List.singleton_append]; rw [← ih]
    · intro t ht
      obtain ⟨c, hc, rfl⟩ := List.mem_map.mp ht
      exact ⟨by simp, (oneOf_rmatch_iff cs [c]).mpr ⟨c, h c hc, rfl⟩⟩

theorem toNat_le_of_le {a c : Char} (h : a ≤ c) : a.toNat ≤ c.toNat := Char.le_def.mp h

theorem mem_letters_iff (c : Char) : c ∈ letters ↔ isLetter c = true := by
  constructor
  · intro h
    simp only [letters, String.data] at h
    revert c
    decide
  · intro h
    simp only [isLetter, Bool.or_eq_true, Bool.and_eq_true, decide_eq_true_eq] at h
    have hc : c = Char.ofNat c.toNat := (Char.ofNat_toNat c).symm
    rcases h with ⟨h1, h2⟩ | ⟨h1, h2⟩
    · have h1 := toNat_le_of_le h1
      have h2 := toNat_le_of_le h2
      have e1 : ('a' : Char).toNat = 97 := rfl
      have e2 : ('z' : Char).toNat = 122 := rfl
      rw [e1] at h1
      rw [e2] at h2
      generalize c.toNat = n at *
      subst hc
      interval_cases n <;> decide
    · have h1 := toNat_le_of_le h1
      have h2 := toNat_le_of_le h2
      have e1 : ('A' : Char).toNat = 65 := rfl
      have e2 : ('Z' : Char).toNat = 90 := rfl
      rw [e1] at h1
      rw [e2] at h2
      generalize c.toNat = n at *
      subst hc
      interval_cases n <;> decide

theorem mem_digits_iff (c : Char) :
    c ∈ digits ↔ (decide ('0' ≤ c) && decide (c ≤ '9')) = true := by
  constructor
  · intro h
    simp only [digits, String.data] at h
    revert c
    decide
  · intro h
    simp only [Bool.and_eq_true, decide_eq_true_eq] at h
    have hc : c = Char.ofNat c.toNat := (Char.ofNat_toNat c).symm
    have h1 := toNat_le_of_le h.1
    have h2 := toNat_le_of_le h.2
    have e1 : ('0' : Char).toNat = 48 := rfl
    have e2 : ('9' : Char).toNat = 57 := rfl
    rw [e1] at h1
    rw [e2] at h2
    generalize c.toNat = n at *
    subst hc
    interval_cases n <;> decide

theorem mem_alnum_iff (c : Char) : c ∈ letters ++ digits ↔ isAlnum c = true := by
  rw [List.mem_append, mem_letters_iff, mem_digits_iff]
  simp only [isAlnum, Bool.or_eq_true]

theorem mem_hostChars_iff (c : Char) :
    c ∈ letters ++ digits ++ ['.', '-'] ↔ isHostChar c = true := by
  rw [List.mem_append, mem_alnum_iff]
  simp only [isHostChar, Bool.or_eq_true, List.mem_cons, List.mem_singleton, beq_iff_eq,
    List.not_mem_nil, or_false, or_assoc]

/-- The texts the pattern of `isValidDomain` matches. -/
theorem domainPattern_rmatch_iff (x : List Char) :
    domainPattern.rmatch x ↔
      ∃ c mid a b tl, x = c :: (mid ++ '.' :: a :: b :: tl) ∧ isAlnum c = true ∧
        (∀ y ∈ mid, isHostChar y = true) ∧ isLetter a = true ∧ isLetter b = true ∧
        ∀ y ∈ tl, isLetter y = true := by
  unfold domainPattern
  simp only [RegularExpression.mul_rmatch_iff, oneOf_rmatch_iff, star_oneOf_rmatch_iff,
    RegularExpression.char_rmatch_iff]
  constructor
  · rintro ⟨t, u, rfl, ⟨t1, t2, rfl, ⟨t3, t4, rfl, ⟨c, hc, rfl⟩, hmid⟩, rfl⟩,
      ⟨u1, u2, rfl, ⟨u3, u4, rfl, ⟨a, ha, rfl⟩, ⟨b, hb, rfl⟩⟩, htl⟩⟩
    refine ⟨c, t4, a, b, u2, by simp, (mem_alnum_iff c).mp hc,
      fun y hy => (mem_hostChars_iff y).mp (hmid y hy), (mem_letters_iff a).mp ha,
      (mem_letters_iff b).mp hb, fun y hy => (mem_letters_iff y).mp (htl y hy)⟩
  · rintro ⟨c, mid, a, b, tl, rfl, hc, hmid, ha, hb, htl⟩
    refine ⟨[c] ++ mid ++ ['.'], [a] ++ [b] ++ tl, by simp,
      ⟨[c] ++ mid, ['.'], rfl, ⟨[c], mid, rfl, ⟨c, (mem_alnum_iff c).mpr hc, rfl⟩,
        fun y hy => (mem_hostChars_iff y).mpr (hmid y hy)⟩, rfl⟩,
      ⟨[a] ++ [b], tl, rfl, ⟨[a], [b], rfl, ⟨a, (mem_letters_iff a).mpr ha, rfl⟩,
        ⟨b, (mem_letters_iff b).mpr hb, rfl⟩⟩, fun y hy => (mem_letters_iff y).mpr (htl y hy)⟩⟩

/-- The shape the pattern demands, in the words of the interface description:
a leading alphanumeric, then only alphanumerics, hyphens and dots, and at the
end a dot followed by two or more letters. -/
theorem domainPattern_rmatch_iff_shape (x : List Char) :
    domainPattern.rmatch x ↔
      (∃ c rest, x = c :: rest ∧ isAlnum c = true ∧ ∀ y ∈ rest, isHostChar y = true) ∧
      (∃ pre tld, x = pre ++ '.' :: tld ∧ 2 ≤ tld.length ∧ ∀ y ∈ tld, isLetter y = true) := by
  rw [domainPattern_rmatch_iff]
  constructor
  · rintro ⟨c, mid, a, b, tl, rfl, hc, hmid, ha, hb, htl⟩
    refine ⟨⟨c, _, rfl, hc, ?_⟩, ⟨c :: mid, a :: b :: tl, by simp, by simp, ?_⟩⟩
    · intro y hy
      have hl : ∀ z, isLetter z = true → isHostChar z = true := by
        intro z hz; simp [isHostChar, isAlnum, hz]
      simp only [List.mem_append, List.mem_cons] at hy
      rcases hy with hy | rfl | rfl | rfl | hy
      · exact hmid y hy
      · decide
      · exact hl _ ha
      · exact hl _ hb
      · exact hl _ (htl y hy)
    · intro y hy
      simp only [List.mem_cons] at hy
      rcases hy with rfl | rfl | hy
      · exact ha
      · exact hb
      · exact htl y hy
  · rintro ⟨⟨c, rest, rfl, hc, hrest⟩, ⟨pre, tld, hx, hlen, htld⟩⟩
    cases pre with
    | nil =>
      exfalso
      simp only [List.nil_append, List.cons.injEq] at hx
      rw [hx.1] at hc
      revert hc
      decide
    | cons p mid =>
      simp only [List.cons_append, List.cons.injEq] at hx
      obtain ⟨rfl, rfl⟩ := hx
      match tld, hlen, htld with
      | a :: b :: tl, _, htld =>
        exact ⟨c, mid, a, b, tl, rfl, hc,
          fun y hy => hrest y (List.mem_append_left _ hy),
          htld a (by simp), htld b (by simp), fun y hy => htld y (by simp [hy])⟩

theorem isValidDomain_iff (d : String) :
    isValidDomain d = true ↔
      3 ≤ strings.len d ∧ strings.len d ≤ 255 ∧ domainPattern.rmatch d.data = true := by
  unfold isValidDomain
  split_ifs with h
  · simp only [Bool.or_eq_true, decide_eq_true_eq] at h
    constructor
    · intro hf; exact absurd hf (by simp)
    · rintro ⟨h1, h2, _⟩; omega
  · simp only [Bool.or_eq_true, decide_eq_true_eq, not_or, not_lt] at h
    constructor
    · intro hm; exact ⟨h.2, h.1, hm⟩
    · rintro ⟨_, _, hm⟩; exact hm

theorem GetAds_status_of_valid {σ : Type} (s : Server σ) {param : String}
    (h0 : strings.TrimSpace param ≠ "")
    (h : isValidDomain (strings.TrimSpace param) = true) (now : ℤ) (w : World σ) :
    (GetAds s param now w).1.status = http.StatusOK ∨
      (GetAds s param now w).1.status = http.StatusInternalServerError ∨
      (GetAds s param now w).1.status = http.StatusBadGateway := by
  have hw : ∀ v : models.AdsResponse, (writeJSON v).status = http.StatusOK ∨
      (writeJSON v).status = http.StatusInternalServerError := by
    intro v
    unfold writeJSON
    cases json.Marshal v with
    | error err => right; rfl
    | ok b => left; rfl
  unfold GetAds
  simp only [h0, if_false, h, Bool.not_true]
  cases s.cacheGetAds w.cache (strings.TrimSpace param) with
  | some cached =>
    rcases hw cached with h1 | h1
    · exact Or.inl h1
    · exact Or.inr (Or.inl h1)
  | none =>
    cases s.fetchAdsTxt (strings.TrimSpace param) with
    | error err => right; right; rfl
    | ok content =>
      rcases hw _ with h1 | h1
      · exact Or.inl h1
      · exact Or.inr (Or.inl h1)

/-- C9: `isValidDomain(d)` is true exactly when the length of `d` is between 3
and 255, it starts with an alphanumeric character, all following characters
are alphanumerics, hyphens or dots, and it ends with a dot followed by a final
label of two or more letters; and `GetAds` answers 400 exactly when the
whitespace-trimmed `domain` parameter is empty or fails this test. -/
theorem isValidDomain_shape_and_GetAds_400 :
    (∀ d : String, isValidDomain d = true ↔
      3 ≤ strings.len d ∧ strings.len d ≤ 255 ∧
      (∃ c rest, d.data = c :: rest ∧ isAlnum c = true ∧ ∀ y ∈ rest, isHostChar y = true) ∧
      (∃ pre tld, d.data = pre ++ '.' :: tld ∧ 2 ≤ tld.length ∧
        ∀ y ∈ tld, isLetter y = true)) ∧
    (∀ {σ : Type} (s : Server σ) (param : String) (now : ℤ) (w : World σ),
      (GetAds s param now w).1.status = 400 ↔
        (strings.TrimSpace param = "" ∨ isValidDomain (strings.TrimSpace param) = false)) := by
  constructor
  · intro d
    rw [isValidDomain_iff, domainPattern_rmatch_iff_shape]
  · intro σ s param now w
    constructor
    · intro h400
      by_contra hc
      push_neg at hc
      have hv : isValidDomain (strings.TrimSpace param) = true := by
        cases hb : isValidDomain (strings.TrimSpace param)
        · exact absurd hb hc.2
        · rfl
      rcases GetAds_status_of_valid s hc.1 hv now w with h | h | h <;> rw [h] at h400 <;>
        exact absurd h400 (by decide)
    · intro h
      exact (GetAds_of_bad_domain s h now w).1

end handler

/-! ## Parser (C10) -/

namespace strings

theorem trimSpaceChars_append_space (l : List Char) {c : Char} (hc : unicode.IsSpace c = true) :
    trimSpaceChars (l ++ [c]) = trimSpaceChars l := by
  unfold trimSpaceChars
  rw [List.dropWhile_append]
  split_ifs with h
  · have h2 : List.dropWhile unicode.IsSpace l = [] := List.isEmpty_iff.mp h
    rw [h2]
    simp [List.dropWhile, hc]
  · rw [List.reverse_append]
    simp only [List.reverse_cons, List.reverse_nil, List.nil_append, List.singleton_append]
    rw [List.dropWhile_cons_of_pos hc]

theorem splitChars_eq_cons (sep : Char) (cs cur : List Char) :
    ∃ rest, splitChars sep cs cur =
      (cur.reverse ++ cs.takeWhile (fun c => c != sep)) :: rest := by
  induction cs generalizing cur with
  | nil => exact ⟨[], by simp [splitChars]⟩
  | cons c cs ih =>
    unfold splitChars
    split_ifs with h
    · exact ⟨splitChars sep cs [], by simp [List.takeWhile, h]⟩
    · obtain ⟨rest, hr⟩ := ih (c :: cur)
      refine ⟨rest, ?_⟩
      have hb : (c != sep) = true := by simpa using h
      rw [hr]
      simp [List.takeWhile, hb]

end strings

namespace bufio

theorem trimSpaceChars_dropCR (l : List Char) :
    strings.trimSpaceChars (dropCR l) = strings.trimSpaceChars l := by
  unfold dropCR
  split_ifs with h
  · obtain ⟨ys, rfl⟩ := List.getLast?_eq_some_iff.mp h
    rw [List.dropLast_concat, strings.trimSpaceChars_append_space ys (by decide)]
  · rfl

/-- Go `ScanLines` delivers the pieces between newlines, except an empty piece
after the last newline. -/
theorem splitChars_eq_rawLines (cs cur : List Char) :
    ∃ tl, (tl = [] ∨ tl = [[]]) ∧ strings.splitChars '\n' cs cur = rawLines cs cur ++ tl := by
  induction cs generalizing cur with
  | nil =>
    unfold strings.splitChars rawLines
    by_cases h : cur.isEmpty = true
    · have : cur = [] := List.isEmpty_iff.mp h
      subst this
      exact ⟨[[]], Or.inr rfl, by simp⟩
    · exact ⟨[], Or.inl rfl, by simp [h]⟩
  | cons c cs ih =>
    unfold strings.splitChars rawLines
    split_ifs with h
    · obtain ⟨tl, htl, he⟩ := ih []
      exact ⟨tl, htl, by rw [he]; rfl⟩
    · exact ih (c :: cur)

end bufio

namespace parser

theorem string_eq_empty_iff (s : String) : s = "" ↔ s.data = [] := by
  constructor
  · rintro rfl; rfl
  · intro h; exact String.ext h

/-- What the loop body does with one line, in terms of `kept` and `key`. -/
theorem parseLine_eq (out : List (String × ℤ)) (text : String) :
    parseLine out text =
      if kept text && key text != "" then incr out (key text) else out := by
  obtain ⟨rest, hr⟩ := strings.splitChars_eq_cons ',' (strings.TrimSpace text).data []
  unfold parseLine kept key
  simp only [strings.Split, hr, List.map_cons, List.reverse_nil, List.nil_append]
  by_cases h1 : (strings.TrimSpace text = "" || strings.HasPrefix (strings.TrimSpace text) "#") = true
  · simp [h1]
  · by_cases h2 : strings.TrimSpace
        (String.mk (List.takeWhile (fun c => c != ',') (strings.TrimSpace text).data)) = ""
    · simp [h1, h2]
    · simp [h1, h2]

theorem get_incr (out : List (String × ℤ)) (k ad : String) :
    get (incr out k) ad = get out ad + if k = ad then 1 else 0 := by
  induction out with
  | nil =>
    simp only [incr, get]
    split_ifs <;> simp
  | cons e out ih =>
    obtain ⟨k2, v⟩ := e
    unfold incr
    split_ifs with h1 h2 h2
    · subst h1; subst h2; simp [get]
    · subst h1; simp [get, h2]
    · subst h2
      simp only [get, h1, if_false]
      rw [ih]; simp
    · simp only [get]
      split_ifs with h3
      · simp
      · rw [ih]; simp [h2]

theorem keys_incr (out : List (String × ℤ)) (k x : String) :
    x ∈ (incr out k).map Prod.fst ↔ x ∈ out.map Prod.fst ∨ x = k := by
  induction out with
  | nil => simp [incr]
  | cons e out ih =>
    obtain ⟨k2, v⟩ := e
    unfold incr
    split_ifs with h
    · subst h
      simp only [List.map_cons, List.mem_cons]
      tauto
    · simp only [List.map_cons, List.mem_cons, ih]
      tauto

theorem counted_incr {out : List (String × ℤ)} (h : Counted out) {k : String} (hk : k ≠ "") :
    Counted (incr out k) := by
  induction out with
  | nil =>
    exact ⟨by simp [incr], by simp [incr], by simpa [incr] using hk⟩
  | cons e out ih =>
    obtain ⟨k2, v⟩ := e
    have hnd := h.nodup
    simp only [List.map_cons, List.nodup_cons] at hnd
    have htail : Counted out :=
      ⟨hnd.2, fun e he => h.pos e (List.mem_cons_of_mem _ he),
        fun e he => h.nonempty e (List.mem_cons_of_mem _ he)⟩
    have hv : 1 ≤ v := h.pos (k2, v) (List.mem_cons_self _ _)
    have hk2 : k2 ≠ "" := h.nonempty (k2, v) (List.mem_cons_self _ _)
    unfold incr
    split_ifs with heq
    · refine ⟨by simpa using hnd, ?_, ?_⟩
      · intro e he
        rcases List.mem_cons.mp he with rfl | he
        · show 1 ≤ v + 1
          omega
        · exact h.pos e (List.mem_cons_of_mem _ he)
      · intro e he
        rcases List.mem_cons.mp he with rfl | he
        · exact hk2
        · exact h.nonempty e (List.mem_cons_of_mem _ he)
    · have ih2 := ih htail
      refine ⟨?_, ?_, ?_⟩
      · simp only [List.map_cons, List.nodup_cons]
        refine ⟨?_, ih2.nodup⟩
        intro hmem
        rcases (keys_incr out k k2).mp hmem with hm | hm
        · exact hnd.1 hm
        · exact heq hm
      · intro e he
        rcases List.mem_cons.mp he with rfl | he
        · exact hv
        · exact ih2.pos e he
      · intro e he
        rcases List.mem_cons.mp he with rfl | he
        · exact hk2
        · exact ih2.nonempty e he

theorem counted_parseLine {out : List (String × ℤ)} (h : Counted out) (text : String) :
    Counted (parseLine out text) := by
  rw [parseLine_eq]
  split_ifs with hc
  · simp only [Bool.and_eq_true, bne_iff_ne, ne_eq] at hc
    exact counted_incr h hc.2
  · exact h

theorem counted_foldl {out : List (String × ℤ)} (h : Counted out) (ls : List String) :
    Counted (ls.foldl parseLine out) := by
  induction ls generalizing out with
  | nil => exact h
  | cons l ls ih => exact ih (counted_parseLine h l)

theorem get_foldl (out : List (String × ℤ)) (ls : List String) (ad : String) :
    get (ls.foldl parseLine out) ad =
      get out ad +
        ((ls.filter (fun l => kept l && key l != "" && key l == ad)).length : ℤ) := by
  induction ls generalizing out with
  | nil => simp
  | cons l ls ih =>
    rw [List.foldl_cons, ih, parseLine_eq, List.filter_cons]
    by_cases h1 : (kept l && key l != "") = true
    · rw [if_pos h1, get_incr]
      by_cases h2 : key l = ad
      · have h3 : (kept l && key l != "" && key l == ad) = true := by
          rw [h1]; simpa using h2
        rw [if_pos h2, if_pos h3, List.length_cons]
        push_cast; ring
      · have h3 : ¬ (kept l && key l != "" && key l == ad) = true := by
          rw [h1]; simpa using h2
        rw [if_neg h2, if_neg h3]
        ring
    · have h3 : ¬ (kept l && key l != "" && key l == ad) = true := by
        intro hc
        rw [Bool.and_eq_true] at hc
        exact h1 hc.1
      rw [if_neg h1, if_neg h3]

/-- In a counted map the keys present are those with a positive stored count. -/
theorem mem_keys_iff {out : List (String × ℤ)} (h : Counted out) (ad : String) :
    ad ∈ out.map Prod.fst ↔ 1 ≤ get out ad := by
  induction out with
  | nil => simp [get]
  | cons e out ih =>
    obtain ⟨k2, v⟩ := e
    have hnd := h.nodup
    simp only [List.map_cons, List.nodup_cons] at hnd
    have htail : Counted out :=
      ⟨hnd.2, fun e he => h.pos e (List.mem_cons_of_mem _ he),
        fun e he => h.nonempty e (List.mem_cons_of_mem _ he)⟩
    have hv : 1 ≤ v := h.pos (k2, v) (List.mem_cons_self _ _)
    simp only [List.map_cons, List.mem_cons, get]
    split_ifs with heq
    · subst heq; simp [hv]
    · rw [← ih htail]
      constructor
      · rintro (h1 | h1)
        · exact absurd h1.symm heq
        · exact h1
      · exact Or.inr

end parser

namespace parser

theorem TrimSpace_dropCR (l : List Char) :
    strings.TrimSpace (String.mk (bufio.dropCR l)) = strings.TrimSpace (String.mk l) := by
  unfold strings.TrimSpace
  simp only [bufio.trimSpaceChars_dropCR]

theorem kept_dropCR (l : List Char) :
    kept (String.mk (bufio.dropCR l)) = kept (String.mk l) := by
  unfold kept
  rw [TrimSpace_dropCR]

theorem key_dropCR (l : List Char) :
    key (String.mk (bufio.dropCR l)) = key (String.mk l) := by
  unfold key
  rw [TrimSpace_dropCR]

/-- When no line reaches the token limit the scanner delivers every line. -/
theorem Scan_eq_of_short {r : String}
    (h : ∀ l ∈ strings.Split r '\n', strings.len l < bufio.MaxScanTokenSize) :
    bufio.Scan r = ((bufio.rawLines r.data []).map bufio.dropCR).map String.mk := by
  obtain ⟨tl, _, he⟩ := bufio.splitChars_eq_rawLines r.data []
  unfold bufio.Scan
  congr 2
  rw [List.takeWhile_eq_self_iff]
  intro x hx
  have hmem : String.mk x ∈ strings.Split r '\n' := by
    unfold strings.Split
    rw [he]
    exact List.mem_map_of_mem _ (List.mem_append_left _ hx)
  simpa using h _ hmem

theorem count_raw_eq (raw : List (List Char)) (f : String → Bool)
    (hf : ∀ l, f (String.mk (bufio.dropCR l)) = f (String.mk l)) :
    (((raw.map bufio.dropCR).map String.mk).filter f).length =
      ((raw.map String.mk).filter f).length := by
  induction raw with
  | nil => rfl
  | cons l raw ih =>
    simp only [List.map_cons, List.filter_cons, hf]
    split_ifs
    · simp only [List.length_cons, ih]
    · exact ih

theorem count_pieces_eq (r : String) (f : String → Bool) (hf : f (String.mk []) = false) :
    (((bufio.rawLines r.data []).map String.mk).filter f).length =
      ((strings.Split r '\n').filter f).length := by
  obtain ⟨tl, htl, he⟩ := bufio.splitChars_eq_rawLines r.data []
  unfold strings.Split
  rw [he, List.map_append, List.filter_append, List.length_append]
  rcases htl with rfl | rfl
  · simp
  · simp [List.filter_cons, hf]

theorem get_ParseAdsTxt_of_short {r : String}
    (h : ∀ l ∈ strings.Split r '\n', strings.len l < bufio.MaxScanTokenSize) (ad : String) :
    get (ParseAdsTxt r) ad = if ad = "" then 0 else (claimedCount r ad : ℤ) := by
  unfold ParseAdsTxt
  rw [get_foldl, Scan_eq_of_short h]
  simp only [get, zero_add]
  rw [count_raw_eq _ _ (by intro l; rw [kept_dropCR, key_dropCR]),
    count_pieces_eq r _ (by
      have : kept (String.mk []) = false := by decide
      simp [this])]
  unfold claimedCount
  split_ifs with had
  · subst had
    have : ∀ l : String, (kept l && key l != "" && key l == "") = false := by
      intro l
      by_cases hk : key l = ""
      · simp [hk]
      · simp [hk]
    simp only [this, List.filter_false, List.length_nil, Nat.cast_zero]
  · have : ∀ l : String, (kept l && key l != "" && key l == ad) = (kept l && key l == ad) := by
      intro l
      by_cases hk : key l = ad
      · simp [hk, had]
      · have hb : (key l == ad) = false := beq_eq_false_iff_ne.mpr hk
        rw [hb, Bool.and_false, Bool.and_false]
    rw [funext this]

theorem counted_ParseAdsTxt (r : String) : Counted (ParseAdsTxt r) :=
  counted_foldl ⟨by simp, by simp, by simp⟩ _

/-- C10 (amended): for every input text whose lines are all shorter than
`bufio.MaxScanTokenSize` (64 KiB), `ParseAdsTxt` returns the mapping obtained
by ignoring lines that are blank or begin with `#` once trimmed and lines
whose first comma-delimited field is empty once trimmed, taking the trimmed
first field of each remaining line as the key, and incrementing that key's
count once per such line: no key occurs twice, every stored count is at
least one, and the count of each key is the number of such lines. In
particular the text of the specification yields `{a.com: 2, b.com: 1}`. -/
theorem ParseAdsTxt_counts_keys :
    (∀ r : String, (∀ l ∈ strings.Split r '\n', strings.len l < bufio.MaxScanTokenSize) →
      ((ParseAdsTxt r).map Prod.fst).Nodup ∧
      (∀ e ∈ ParseAdsTxt r, 1 ≤ e.2) ∧
      (∀ ad, get (ParseAdsTxt r) ad = if ad = "" then 0 else (claimedCount r ad : ℤ)) ∧
      (∀ ad, ad ∈ (ParseAdsTxt r).map Prod.fst ↔ ad ≠ "" ∧ 1 ≤ claimedCount r ad)) ∧
    ParseAdsTxt "a.com, pub-1, DIRECT\n#comment\n\nb.com, pub-2, DIRECT\na.com, pub-3, DIRECT\n" =
      [("a.com", 2), ("b.com", 1)] := by
  refine ⟨fun r h => ?_, by decide⟩
  have hc := counted_ParseAdsTxt r
  refine ⟨hc.nodup, hc.pos, get_ParseAdsTxt_of_short h, fun ad => ?_⟩
  rw [mem_keys_iff hc, get_ParseAdsTxt_of_short h]
  split_ifs with had
  · simp [had]
  · simp only [ne_eq, had, not_false_eq_true, true_and]
    exact_mod_cast Iff.rfl

theorem ParseAdsTxt_counts_keys_witness :
    get (ParseAdsTxt "x.com, pub-1\n\n# note\nx.com, pub-2\r\ny.org") "x.com" =
      if "x.com" = "" then 0
      else (claimedCount "x.com, pub-1\n\n# note\nx.com, pub-2\r\ny.org" "x.com" : ℤ) :=
  (ParseAdsTxt_counts_keys.1 "x.com, pub-1\n\n# note\nx.com, pub-2\r\ny.org" (by decide)).2.2.1
    "x.com"

/-- C10 (counterexample): the line `, pub-1, DIRECT` is neither blank nor a
comment and its trimmed first field is the empty key; the claimed mapping
counts it once under that key, the parser skips it and returns the empty map. -/
theorem ParseAdsTxt_skips_empty_key :
    claimedCount ", pub-1, DIRECT\n" "" = 1 ∧
    get (ParseAdsTxt ", pub-1, DIRECT\n") "" = 0 ∧
    ParseAdsTxt ", pub-1, DIRECT\n" = [] := by
  decide

end parser

namespace parser

theorem utf8ByteSize_replicate_a (n : ℕ) :
    strings.len (String.mk (List.replicate n 'a')) = n := by
  unfold strings.len
  induction n with
  | zero => rfl
  | succ n ih =>
    have h : String.utf8ByteSize (String.mk (List.replicate (n + 1) 'a')) =
        String.utf8ByteSize (String.mk (List.replicate n 'a')) + Char.utf8Size 'a' := by
      simp only [String.utf8ByteSize, List.replicate_succ, String.utf8ByteSize.go]
    rw [h, ih]
    rfl

theorem rawLines_replicate_a (n : ℕ) (cur rest : List Char) :
    bufio.rawLines (List.replicate n 'a' ++ '\n' :: rest) cur =
      (cur.reverse ++ List.replicate n 'a') :: bufio.rawLines rest [] := by
  induction n generalizing cur with
  | zero => simp [bufio.rawLines]
  | succ n ih =>
    have hne : ¬ ('a' = '\n') := by decide
    have hstep : bufio.rawLines (List.replicate (n + 1) 'a' ++ '\n' :: rest) cur =
        bufio.rawLines (List.replicate n 'a' ++ '\n' :: rest) ('a' :: cur) := by
      simp only [List.replicate_succ, List.cons_append, bufio.rawLines, hne, if_false]
      rfl
    rw [hstep, ih]
    simp only [List.reverse_cons, List.append_assoc, List.singleton_append, List.replicate_succ]

/-- A first line of 64 KiB stops the scanner: whatever follows it, the parser
returns the empty map. -/
theorem ParseAdsTxt_of_long_first_line (rest : List Char) :
    ParseAdsTxt (String.mk (List.replicate 65536 'a' ++ '\n' :: rest)) = [] := by
  unfold ParseAdsTxt bufio.Scan
  simp only [rawLines_replicate_a, List.reverse_nil, List.nil_append]
  rw [List.takeWhile_cons_of_neg]
  · rfl
  · rw [utf8ByteSize_replicate_a]
    decide

end parser

/-! ## Response cache: reading (C12) -/

namespace cache

theorem GetAds_of_miss {β σ : Type} (j : json.Codec β) (a : AdsCache β σ) (st : σ)
    (key : String) (h : (a.cache.Get st key).1 = none) :
    a.GetAds j st key = (none, false) := by
  unfold AdsCache.GetAds
  rcases hg : a.cache.Get st key with ⟨b, err⟩
  rw [hg] at h
  simp only at h
  subst h
  simp

theorem GetAds_of_error {β σ : Type} (j : json.Codec β) (a : AdsCache β σ) (st : σ)
    (key : String) (h : (a.cache.Get st key).2 ≠ none) :
    a.GetAds j st key = (none, false) := by
  unfold AdsCache.GetAds
  rcases hg : a.cache.Get st key with ⟨b, err⟩
  rw [hg] at h
  simp only at h
  cases err with
  | none => exact absurd rfl h
  | some e => simp

theorem GetAds_of_bytes {β σ : Type} (j : json.Codec β) (a : AdsCache β σ) (st : σ)
    (key : String) (b : β) (h : a.cache.Get st key = (some b, none)) :
    a.GetAds j st key =
      match j.Unmarshal b with
      | Except.error _ => (none, false)
      | Except.ok resp => (some resp, true) := by
  unfold AdsCache.GetAds
  rw [h]
  simp

theorem GetAds_found {β σ : Type} (j : json.Codec β) (a : AdsCache β σ) (st : σ)
    (key : String) (h : (a.GetAds j st key).2 = true) :
    ∃ b resp, a.cache.Get st key = (some b, none) ∧ j.Unmarshal b = Except.ok resp ∧
      a.GetAds j st key = (some resp, true) := by
  rcases hg : a.cache.Get st key with ⟨b, err⟩
  cases err with
  | some e =>
    rw [GetAds_of_error j a st key (by rw [hg]; simp)] at h
    exact absurd h (by decide)
  | none =>
    cases b with
    | none =>
      rw [GetAds_of_miss j a st key (by rw [hg])] at h
      exact absurd h (by decide)
    | some b =>
      have hb := GetAds_of_bytes j a st key b hg
      cases hu : j.Unmarshal b with
      | error e =>
        rw [hb, hu] at h
        simp at h
      | ok resp =>
        refine ⟨b, resp, rfl, hu, ?_⟩
        rw [hb, hu]

/-- C12: for every key and every result of the byte store, `AdsCache.GetAds`
returns `found = false` with no envelope whenever the store reports a miss
(nil bytes), returns an error, or returns bytes that `json.Unmarshal`
rejects; it returns `found = true` only when the store returned bytes without
an error and they deserialize, and then the envelope is the deserialized one.
Its result has no error component, so no error reaches the caller. -/
theorem GetAds_fails_open {β σ : Type} (j : json.Codec β) (a : AdsCache β σ) (st : σ)
    (key : String) :
    ((a.cache.Get st key).1 = none → a.GetAds j st key = (none, false)) ∧
    ((a.cache.Get st key).2 ≠ none → a.GetAds j st key = (none, false)) ∧
    (∀ b err, (a.cache.Get st key).1 = some b → j.Unmarshal b = Except.error err →
      a.GetAds j st key = (none, false)) ∧
    ((a.GetAds j st key).2 = true →
      ∃ b resp, a.cache.Get st key = (some b, none) ∧ j.Unmarshal b = Except.ok resp ∧
        a.GetAds j st key = (some resp, true)) ∧
    ((a.GetAds j st key).2 = false → (a.GetAds j st key).1 = none) := by
  refine ⟨GetAds_of_miss j a st key, GetAds_of_error j a st key, ?_, GetAds_found j a st key, ?_⟩
  · intro b err hb hu
    rcases hg : a.cache.Get st key with ⟨b2, e2⟩
    rw [hg] at hb
    simp only at hb
    subst hb
    cases e2 with
    | some e => exact GetAds_of_error j a st key (by rw [hg]; simp)
    | none => rw [GetAds_of_bytes j a st key b hg, hu]
  · intro hf
    cases hr : (a.GetAds j st key).2 with
    | true => rw [hr] at hf; exact absurd hf (by decide)
    | false =>
      by_contra hne
      rcases hg : a.cache.Get st key with ⟨b, err⟩
      cases err with
      | some e => exact hne (by rw [GetAds_of_error j a st key (by rw [hg]; simp)])
      | none =>
        cases b with
        | none => exact hne (by rw [GetAds_of_miss j a st key (by rw [hg])])
        | some b =>
          have hb := GetAds_of_bytes j a st key b hg
          cases hu : j.Unmarshal b with
          | error e => rw [hu] at hb; exact hne (by rw [hb])
          | ok resp => rw [hu] at hb; rw [hb] at hr; simp at hr

end cache

/-! ## Configuration and cache backend (C14) -/

namespace cache

/-- The configurations `Validate` accepts name the backend `redis` or `memory`. -/
theorem backend_of_valid {c : config.Config} (h : config.Validate c = none) :
    c.CacheBackend = "redis" ∨ c.CacheBackend = "memory" := by
  unfold config.Validate at h
  split_ifs at h with hl
  have hnil : config.Validate.errs c = [] := by
    cases he : config.Validate.errs c with
    | nil => rfl
    | cons x xs => rw [he] at hl; simp at hl
  unfold config.Validate.errs at hnil
  simp only [List.append_eq_nil] at hnil
  have h2 := hnil.1.1.1.1.1.1.2
  by_contra hc
  push_neg at hc
  rw [if_pos hc] at h2
  exact absurd h2 (by simp)

theorem InitCache_of_memory {κ : Type} (newRedisCache : String → String → Except String κ)
    {c : config.Config} (h : c.CacheBackend = "memory") :
    InitCache newRedisCache c = Except.error "unsupported cache backend: memory" := by
  unfold InitCache
  rw [h, if_neg (by decide)]
  rfl

theorem InitCache_of_redis {κ : Type} (newRedisCache : String → String → Except String κ)
    {c : config.Config} (h : c.CacheBackend = "redis") :
    InitCache newRedisCache c = newRedisCache c.RedisAddr c.RedisPassword := by
  unfold InitCache
  rw [if_pos h]

/-- C14 (the code at the failing input): the default configuration with the
backend `memory` passes `Validate`, and `InitCache` rejects it with
`unsupported cache backend: memory`, whatever `NewRedisCache` would do. Every
configuration that `Validate` accepts names `redis` or `memory`; `InitCache`
goes on to `NewRedisCache` for the first and fails in this way for the
second. -/
theorem memory_backend_validated_but_unsupported :
    config.Validate { config.DefaultConfig with CacheBackend := "memory" } = none ∧
    (∀ {κ : Type} (newRedisCache : String → String → Except String κ),
      InitCache newRedisCache { config.DefaultConfig with CacheBackend := "memory" } =
        Except.error "unsupported cache backend: memory") ∧
    (∀ c : config.Config, config.Validate c = none →
      c.CacheBackend = "redis" ∨ c.CacheBackend = "memory") ∧
    (∀ {κ : Type} (newRedisCache : String → String → Except String κ) (c : config.Config),
      (c.CacheBackend = "redis" →
        InitCache newRedisCache c = newRedisCache c.RedisAddr c.RedisPassword) ∧
      (c.CacheBackend = "memory" →
        InitCache newRedisCache c = Except.error "unsupported cache backend: memory")) :=
  ⟨by decide, fun newRedisCache => InitCache_of_memory newRedisCache rfl,
    fun _ hv => backend_of_valid hv,
    fun newRedisCache _ =>
      ⟨InitCache_of_redis newRedisCache, InitCache_of_memory newRedisCache⟩⟩

end cache

/-! ## Decimal numbers (`strconv`) -/

namespace strconv

theorem isDigit_digit (n : ℕ) : isDigit (digit n) = true := by
  have h : n % 10 < 10 := Nat.mod_lt _ (by norm_num)
  unfold digit
  generalize n % 10 = m at h
  interval_cases m <;> decide

theorem digitVal_digit (n : ℕ) : digitVal (digit n) = n % 10 := by
  have h : n % 10 < 10 := Nat.mod_lt _ (by norm_num)
  unfold digit
  generalize n % 10 = m at h
  interval_cases m <;> decide

theorem parseDigits_append (s : List Char) (c : Char) :
    parseDigits (s ++ [c]) = parseDigits s * 10 + digitVal c := by
  simp [parseDigits, List.foldl_append]

theorem parseDigits_lowDigits (w n : ℕ) : parseDigits (lowDigits w n) = n % 10 ^ w := by
  induction w generalizing n with
  | zero => simp [lowDigits, parseDigits, Nat.mod_one]
  | succ w ih =>
    rw [lowDigits, parseDigits_append, ih, digitVal_digit, pow_succ]
    have h := Nat.mod_mul_left_div_self n 10 (10 ^ w)
    have h1 : n % (10 ^ w * 10) = n % 10 + 10 * (n / 10 % 10 ^ w) := by
      rw [mul_comm (10 ^ w) 10, Nat.mod_mul]
    omega

theorem length_lowDigits (w n : ℕ) : (lowDigits w n).length = w := by
  induction w generalizing n with
  | zero => rfl
  | succ w ih => simp [lowDigits, ih]

theorem all_isDigit_lowDigits (w n : ℕ) : (lowDigits w n).all isDigit = true := by
  induction w generalizing n with
  | zero => rfl
  | succ w ih => simp [lowDigits, ih, isDigit_digit]

theorem numDigitsAux_pos (fuel n : ℕ) : 1 ≤ numDigitsAux fuel n := by
  cases fuel with
  | zero => simp [numDigitsAux]
  | succ f => simp only [numDigitsAux]; split_ifs <;> omega

theorem lt_pow_numDigitsAux (fuel n : ℕ) (h : n ≤ fuel) : n < 10 ^ numDigitsAux fuel n := by
  induction fuel generalizing n with
  | zero => simp [numDigitsAux]; omega
  | succ f ih =>
    simp only [numDigitsAux]
    split_ifs with h10
    · simpa using h10
    · have := ih (n / 10) (by omega)
      rw [pow_succ]
      omega

theorem pow_le_of_numDigitsAux (fuel n : ℕ) (h : n ≤ fuel) (hn : n ≠ 0) :
    10 ^ (numDigitsAux fuel n - 1) ≤ n := by
  induction fuel generalizing n with
  | zero => omega
  | succ f ih =>
    simp only [numDigitsAux]
    split_ifs with h10
    · simp; omega
    · have := ih (n / 10) (by omega) (by omega)
      have hp := numDigitsAux_pos f (n / 10)
      have e : numDigitsAux f (n / 10) + 1 - 1 = (numDigitsAux f (n / 10) - 1) + 1 := by omega
      rw [e, pow_succ]
      omega

theorem numDigits_pos (n : ℕ) : 1 ≤ numDigits n := numDigitsAux_pos n n

theorem lt_pow_numDigits (n : ℕ) : n < 10 ^ numDigits n := lt_pow_numDigitsAux n n le_rfl

theorem pow_le_of_numDigits (n : ℕ) (hn : n ≠ 0) : 10 ^ (numDigits n - 1) ≤ n :=
  pow_le_of_numDigitsAux n n le_rfl hn

theorem numDigits_le {n w : ℕ} (h : n < 10 ^ w) (hw : 1 ≤ w) : numDigits n ≤ w := by
  by_cases hn : n = 0
  · subst hn; simp [numDigits, numDigitsAux]; exact hw
  · by_contra hlt
    have h1 := pow_le_of_numDigits n hn
    have h2 : 10 ^ w ≤ 10 ^ (numDigits n - 1) := Nat.pow_le_pow_right (by norm_num) (by omega)
    omega

theorem numDigits_zero : numDigits 0 = 1 := rfl

end strconv

namespace strconv

theorem lowDigits_succ (k n : ℕ) : lowDigits (k + 1) n = digit (n / 10 ^ k) :: lowDigits k n := by
  induction k generalizing n with
  | zero => simp [lowDigits]
  | succ k ih =>
    rw [lowDigits, ih (n / 10), lowDigits, Nat.div_div_eq_div_mul, pow_succ, mul_comm 10 (10 ^ k)]
    simp

theorem takeWhile_append_of_all {p : Char → Bool} (l : List Char) (c : Char) (r : List Char)
    (hl : l.all p = true) (hc : p c = false) : (l ++ c :: r).takeWhile p = l := by
  induction l with
  | nil => simp [List.takeWhile, hc]
  | cons a l ih =>
    simp only [List.all_cons, Bool.and_eq_true] at hl
    simp [List.takeWhile, hl.1, ih hl.2]

theorem dropWhile_append_of_all {p : Char → Bool} (l : List Char) (c : Char) (r : List Char)
    (hl : l.all p = true) (hc : p c = false) : (l ++ c :: r).dropWhile p = c :: r := by
  induction l with
  | nil => simp [List.dropWhile, hc]
  | cons a l ih =>
    simp only [List.all_cons, Bool.and_eq_true] at hl
    simp [List.dropWhile, hl.1, ih hl.2]

/-- The digits `AppendInt` writes for a number that is not zero: a first digit
from 1 to 9 and digits after it. -/
theorem lowDigits_numDigits (n : ℕ) (hn : n ≠ 0) :
    ∃ c tl, lowDigits (numDigits n) n = c :: tl ∧ isDigit c = true ∧ c ≠ '0' ∧
      tl.all isDigit = true := by
  obtain ⟨k, hk⟩ : ∃ k, numDigits n = k + 1 := ⟨numDigits n - 1, by have := numDigits_pos n; omega⟩
  have h1 := pow_le_of_numDigits n hn
  have h2 := lt_pow_numDigits n
  rw [hk] at h1 h2
  simp only [Nat.add_sub_cancel] at h1
  refine ⟨digit (n / 10 ^ k), lowDigits k n, by rw [hk, lowDigits_succ], isDigit_digit _, ?_,
    all_isDigit_lowDigits k n⟩
  have hpos : 0 < 10 ^ k := by positivity
  have hq1 : 1 ≤ n / 10 ^ k := (Nat.one_le_div_iff hpos).2 h1
  have hq2 : n / 10 ^ k < 10 := by
    rw [Nat.div_lt_iff_lt_mul hpos]
    rw [pow_succ] at h2
    omega
  unfold digit
  rw [Nat.mod_eq_of_lt hq2]
  generalize n / 10 ^ k = m at hq1 hq2
  interval_cases m <;> decide

theorem lowDigits_numDigits_zero : lowDigits (numDigits 0) 0 = ['0'] := rfl

theorem parseDigits_numDigits (n : ℕ) : parseDigits (lowDigits (numDigits n) n) = n := by
  rw [parseDigits_lowDigits, Nat.mod_eq_of_lt (lt_pow_numDigits n)]

/-- The text `AppendInt` writes begins with a minus sign or a digit, and has
only digits after that. -/
theorem AppendInt_shape (i : ℤ) :
    ∃ c tl, AppendInt i = c :: tl ∧ (c = '-' ∨ isDigit c = true) := by
  unfold AppendInt
  by_cases hi : i < 0
  · exact ⟨'-', lowDigits (numDigits i.natAbs) i.natAbs, by simp [hi], Or.inl rfl⟩
  · by_cases hn : i.natAbs = 0
    · rw [hn]
      exact ⟨'0', [], by simp [hi, lowDigits_numDigits_zero], Or.inr (by decide)⟩
    · obtain ⟨c, tl, h, hc, -, -⟩ := lowDigits_numDigits _ hn
      exact ⟨c, tl, by simp [hi, h], Or.inr hc⟩

/-- Go `ParseInt` reads back what `AppendInt` wrote for a value of type int64. -/
theorem ParseInt_AppendInt (i : ℤ) (h1 : -(2 ^ 63) ≤ i) (h2 : i < 2 ^ 63) :
    ParseInt (AppendInt i) = some i := by
  unfold AppendInt ParseInt
  by_cases hi : i < 0
  · have hn : i.natAbs ≠ 0 := by omega
    obtain ⟨c, tl, h, hc, -, htl⟩ := lowDigits_numDigits _ hn
    have hp := parseDigits_numDigits i.natAbs
    rw [h] at hp
    have hle : parseDigits (c :: tl) ≤ 9223372036854775808 := by rw [hp]; omega
    have hv : -((parseDigits (c :: tl) : ℕ) : ℤ) = i := by rw [hp]; omega
    simp [hi, h, hc, htl, hle, hv]
  · by_cases hn : i.natAbs = 0
    · have : i = 0 := by omega
      subst this
      decide
    · obtain ⟨c, tl, h, hc, -, htl⟩ := lowDigits_numDigits _ hn
      have hp := parseDigits_numDigits i.natAbs
      rw [h] at hp
      have hlt : parseDigits (c :: tl) < 9223372036854775808 := by rw [hp]; omega
      have hv : ((parseDigits (c :: tl) : ℕ) : ℤ) = i := by rw [hp]; omega
      have hm : c ≠ '-' := by rintro rfl; exact absurd hc (by decide)
      have hpl : c ≠ '+' := by rintro rfl; exact absurd hc (by decide)
      simp [hi, h, hc, htl, hlt, hv, hm, hpl]

end strconv

/-! ## The JSON scanner on what the encoder writes -/

namespace json

theorem scanFraction_of_end (acc : List Char) (c : Char) (r : List Char) (h1 : c ≠ '.')
    (h2 : c ≠ 'e') (h3 : c ≠ 'E') : scanFraction acc (c :: r) = some (acc, c :: r) := by
  simp [scanFraction, scanExponent, h1, h2, h3]

/-- The scanner reads a number that `strconv.AppendInt` wrote up to the
character after it, when this is not one a number goes on with. -/
theorem scanNumber_AppendInt (i : ℤ) (c : Char) (r : List Char)
    (hd : strconv.isDigit c = false) (h1 : c ≠ '.') (h2 : c ≠ 'e') (h3 : c ≠ 'E') :
    scanNumber (strconv.AppendInt i ++ c :: r) = some (strconv.AppendInt i, c :: r) := by
  unfold strconv.AppendInt
  by_cases hi : i < 0
  · have hn : i.natAbs ≠ 0 := by omega
    obtain ⟨a, tl, h, ha, ha0, htl⟩ := strconv.lowDigits_numDigits _ hn
    simp only [hi, if_true, h]
    simp [scanNumber, ha0, ha, strconv.takeWhile_append_of_all tl c r htl hd,
      strconv.dropWhile_append_of_all tl c r htl hd, scanFraction_of_end _ c r h1 h2 h3]
  · by_cases hn : i.natAbs = 0
    · rw [hn]
      simp [hi, strconv.lowDigits_numDigits_zero, scanNumber, scanFraction_of_end _ c r h1 h2 h3]
    · obtain ⟨a, tl, h, ha, ha0, htl⟩ := strconv.lowDigits_numDigits _ hn
      have hm : a ≠ '-' := by rintro rfl; exact absurd ha (by decide)
      simp only [hi, if_false, h]
      simp [scanNumber, ha0, ha, hm, strconv.takeWhile_append_of_all tl c r htl hd,
        strconv.dropWhile_append_of_all tl c r htl hd, scanFraction_of_end _ c r h1 h2 h3]

end json

namespace json

theorem isHex_hexDigit (n : ℕ) : isHex (hexDigit n) = true := by
  have h : n % 16 < 16 := Nat.mod_lt _ (by norm_num)
  unfold hexDigit
  generalize n % 16 = m at h
  interval_cases m <;> decide

theorem hexVal_hexDigit (n : ℕ) : hexVal (hexDigit n) = n % 16 := by
  have h : n % 16 < 16 := Nat.mod_lt _ (by norm_num)
  unfold hexDigit
  generalize n % 16 = m at h
  interval_cases m <;> decide

theorem hexDigit_ne_u (n : ℕ) : hexDigit n ≠ 'u' := by
  have h : n % 16 < 16 := Nat.mod_lt _ (by norm_num)
  unfold hexDigit
  generalize n % 16 = m at h
  interval_cases m <;> decide

/-- The scanner passes over the escaped form of one character and stays in
the text of the string. -/
theorem scanString_escapeChar (c : Char) (r acc : List Char) :
    scanString strState.text (escapeChar c ++ r) acc =
      scanString strState.text r ((escapeChar c).reverse ++ acc) := by
  unfold escapeChar
  split_ifs with h1 h2 h3 h4 h5 h6 h7
  · rcases h1 with rfl | rfl <;> simp [scanString, strStep]
  · simp [scanString, strStep]
  · simp [scanString, strStep]
  · simp [scanString, strStep]
  · simp [scanString, strStep]
  · simp [scanString, strStep]
  · simp [scanString, strStep, isHex_hexDigit]
  · have hq : c ≠ '"' := fun h => h1 (Or.inl h)
    have hb : c ≠ '\\' := fun h => h1 (Or.inr h)
    have hc : ¬ c.toNat < 32 := fun h => h7 (Or.inl h)
    simp [scanString, strStep, hq, hb, hc]

/-- The scanner reads the escaped form of a string up to the closing quote. -/
theorem scanString_escape (s r acc : List Char) :
    scanString strState.text (escape s ++ '"' :: r) acc = some (acc.reverse ++ escape s, r) := by
  induction s generalizing acc with
  | nil => simp [escape, scanString, strStep]
  | cons c s ih =>
    rw [escape, List.append_assoc, scanString_escapeChar, ih]
    simp

/-- The scanner reads a text without quote, backslash and control character
up to the closing quote. -/
theorem scanString_of_plain (xs r acc : List Char)
    (h : ∀ c ∈ xs, c ≠ '"' ∧ c ≠ '\\' ∧ 32 ≤ c.toNat) :
    scanString strState.text (xs ++ '"' :: r) acc = some (acc.reverse ++ xs, r) := by
  induction xs generalizing acc with
  | nil => simp [scanString, strStep]
  | cons c xs ih =>
    obtain ⟨h1, h2, h3⟩ := h c (List.mem_cons_self _ _)
    have h3n : ¬ c.toNat < 32 := by omega
    have hi := ih (c :: acc) (fun x hx => h x (List.mem_cons_of_mem _ hx))
    simp [scanString, strStep, h1, h2, h3n, hi]

theorem four_hex_digits (n : ℕ) (h : n < 65536) :
    (((0 * 16 + n / 4096 % 16) * 16 + n / 256 % 16) * 16 + n / 16 % 16) * 16 + n % 16 = n := by
  omega

/-- Go `unquote` turns the escaped form of one character back into it. -/
theorem foldl_unqStep_escapeChar (c : Char) (r out : List Char) :
    (escapeChar c ++ r).foldl unqStep (unqState.text, out) =
      r.foldl unqStep (unqState.text, c :: out) := by
  unfold escapeChar
  split_ifs with h1 h2 h3 h4 h5 h6 h7
  · rcases h1 with rfl | rfl <;> simp [unqStep, unescape]
  · subst h2; simp [unqStep, unescape]
  · subst h3; simp [unqStep, unescape]
  · subst h4; simp [unqStep, unescape]
  · subst h5; simp [unqStep, unescape]
  · subst h6; simp [unqStep, unescape]
  · have hlt : c.toNat < 55296 := by
      rcases h7 with h | h | h | h | h | h
      · omega
      · subst h; decide
      · subst h; decide
      · subst h; decide
      · omega
      · omega
    have hv := four_hex_digits c.toNat (by omega)
    simp only [List.cons_append, List.nil_append, List.foldl_cons, unqStep, hexVal_hexDigit]
    simp only [show ('\\' : Char) = '\\' from rfl, if_true, show ('u' : Char) = 'u' from rfl,
      show ¬ (0 = 3) by decide, show ¬ (0 + 1 = 3) by decide, show ¬ (0 + 1 + 1 = 3) by decide,
      show (0 + 1 + 1 + 1 = 3) by decide, if_false, hv, afterU]
    have e1 : ¬ (55296 ≤ c.toNat ∧ c.toNat < 56320) := by omega
    have e2 : ¬ (56320 ≤ c.toNat ∧ c.toNat < 57344) := by omega
    simp only [hexVal_hexDigit, hv]
    rw [if_neg e1, if_neg e2, Char.ofNat_toNat]
  · have hb : c ≠ '\\' := fun h => h1 (Or.inr h)
    simp [unqStep, hb]

theorem foldl_unqStep_escape (s out : List Char) :
    (escape s).foldl unqStep (unqState.text, out) = (unqState.text, s.reverse ++ out) := by
  induction s generalizing out with
  | nil => simp [escape]
  | cons c s ih =>
    have h := foldl_unqStep_escapeChar c (escape s) out
    rw [escape, h, ih]
    simp

/-- Go `unquote` inverts the escaping of the encoder. -/
theorem unquote_escape (s : List Char) : unquote (escape s) = s := by
  simp [unquote, foldl_unqStep_escape]

end json

/-! ## The calendar and the RFC 3339 text of a time -/

namespace time

/-- The day `yearDay` computes lies in the year it computes. -/
theorem yearDay_range (a : ℤ) :
    0 ≤ (yearDay a).2 ∧ (yearDay a).2 < if isLeap (yearDay a).1 then 366 else 365 := by
  simp only [yearDay, isLeap]
  simp only [decide_eq_true_eq, Bool.decide_and, Bool.decide_or, Bool.and_eq_true,
    Bool.or_eq_true, decide_not, Bool.not_eq_true']
  generalize a / 146097 = n400
  have hr0 : 0 ≤ a % 146097 := Int.emod_nonneg _ (by norm_num)
  have hr1 : a % 146097 < 146097 := Int.emod_lt_of_pos _ (by norm_num)
  generalize a % 146097 = r at *
  have h100 : min (r / 36524) 3 = 0 ∨ min (r / 36524) 3 = 1 ∨ min (r / 36524) 3 = 2 ∨
      min (r / 36524) 3 = 3 := by omega
  have hb : 36524 * min (r / 36524) 3 ≤ r ∧
      (min (r / 36524) 3 < 3 → r < 36524 * min (r / 36524) 3 + 36524) := by omega
  generalize min (r / 36524) 3 = n100 at *
  have h4 : 0 ≤ (r - 36524 * n100) / 1461 ∧ (r - 36524 * n100) / 1461 ≤ 24 := by omega
  have h4b : (r - 36524 * n100) =
      1461 * ((r - 36524 * n100) / 1461) + (r - 36524 * n100) % 1461 := by omega
  have h4c : 0 ≤ (r - 36524 * n100) % 1461 ∧ (r - 36524 * n100) % 1461 < 1461 := by omega
  generalize (r - 36524 * n100) / 1461 = n4 at *
  generalize (r - 36524 * n100) % 1461 = r2 at *
  have h1 : min (r2 / 365) 3 = 0 ∨ min (r2 / 365) 3 = 1 ∨ min (r2 / 365) 3 = 2 ∨
      min (r2 / 365) 3 = 3 := by omega
  have h1b : 365 * min (r2 / 365) 3 ≤ r2 ∧
      (min (r2 / 365) 3 < 3 → r2 < 365 * min (r2 / 365) 3 + 365) := by omega
  generalize min (r2 / 365) 3 = n1 at *
  have e400 : ∀ k : ℤ, (400 * n400 + k) % 400 = k % 400 := fun k => by omega
  have e100 : ∀ k : ℤ, (400 * n400 + k) % 100 = k % 100 := fun k => by omega
  have hy : 1 + 400 * n400 + 100 * n100 + 4 * n4 + n1 =
      400 * n400 + (1 + 100 * n100 + 4 * n4 + n1) := by ring
  rw [hy, e400, e100]
  have hn4 : n4 = 24 ∨ n4 ≤ 23 := by omega
  rcases h100 with h | h | h | h <;> rcases h1 with h' | h' | h' | h' <;> subst h <;> subst h' <;>
    rcases hn4 with h'' | h'' <;>
    first
      | (split_ifs <;> omega)
      | (obtain ⟨h4l, h4u⟩ := h4
         interval_cases n4 <;> norm_num <;> omega)

theorem daysIn_february (year : ℤ) : daysIn 2 year = 28 ∨ daysIn 2 year = 29 := by
  unfold daysIn
  cases isLeap year <;> simp

/-- The month and day `monthDay` computes for a day of the year are a date of
the calendar. -/
theorem monthDay_range (year yday : ℤ) (h0 : 0 ≤ yday)
    (h1 : yday < if isLeap year then 366 else 365) : IsDate year (monthDay year yday) := by
  have hf : daysIn 2 year = if isLeap year then 29 else 28 := by simp [daysIn]
  have hfeb := daysIn_february year
  have h12 : ∀ d : ℤ, 0 ≤ d → d < 31 → IsDate year (monthDayFrom year 0 12 d) := by
    intro d hd0 hd1
    have e : daysIn 12 year = 31 := by simp [daysIn]
    simp only [monthDayFrom, IsDate, e]
    omega
  have h11 : ∀ d : ℤ, 0 ≤ d → d < 61 → IsDate year (monthDayFrom year 1 11 d) := by
    intro d hd0 hd1
    have e : daysIn 11 year = 30 := by simp [daysIn]
    rw [monthDayFrom, e]
    split_ifs with h
    · simp only [IsDate, e]
      omega
    · exact h12 (d - 30) (by omega) (by omega)
  have h10 : ∀ d : ℤ, 0 ≤ d → d < 92 → IsDate year (monthDayFrom year 2 10 d) := by
    intro d hd0 hd1
    have e : daysIn 10 year = 31 := by simp [daysIn]
    rw [monthDayFrom, e]
    split_ifs with h
    · simp only [IsDate, e]
      omega
    · exact h11 (d - 31) (by omega) (by omega)
  have h9 : ∀ d : ℤ, 0 ≤ d → d < 122 → IsDate year (monthDayFrom year 3 9 d) := by
    intro d hd0 hd1
    have e : daysIn 9 year = 30 := by simp [daysIn]
    rw [monthDayFrom, e]
    split_ifs with h
    · simp only [IsDate, e]
      omega
    · exact h10 (d - 30) (by omega) (by omega)
  have h8 : ∀ d : ℤ, 0 ≤ d → d < 153 → IsDate year (monthDayFrom year 4 8 d) := by
    intro d hd0 hd1
    have e : daysIn 8 year = 31 := by simp [daysIn]
    rw [monthDayFrom, e]
    split_ifs with h
    · simp only [IsDate, e]
      omega
    · exact h9 (d - 31) (by omega) (by omega)
  have h7 : ∀ d : ℤ, 0 ≤ d → d < 184 → IsDate year (monthDayFrom year 5 7 d) := by
    intro d hd0 hd1
    have e : daysIn 7 year = 31 := by simp [daysIn]
    rw [monthDayFrom, e]
    split_ifs with h
    · simp only [IsDate, e]
      omega
    · exact h8 (d - 31) (by omega) (by omega)
  have h6 : ∀ d : ℤ, 0 ≤ d → d < 214 → IsDate year (monthDayFrom year 6 6 d) := by
    intro d hd0 hd1
    have e : daysIn 6 year = 30 := by simp [daysIn]
    rw [monthDayFrom, e]
    split_ifs with h
    · simp only [IsDate, e]
      omega
    · exact h7 (d - 30) (by omega) (by omega)
  have h5 : ∀ d : ℤ, 0 ≤ d → d < 245 → IsDate year (monthDayFrom year 7 5 d) := by
    intro d hd0 hd1
    have e : daysIn 5 year = 31 := by simp [daysIn]
    rw [monthDayFrom, e]
    split_ifs with h
    · simp only [IsDate, e]
      omega
    · exact h6 (d - 31) (by omega) (by omega)
  have h4 : ∀ d : ℤ, 0 ≤ d → d < 275 → IsDate year (monthDayFrom year 8 4 d) := by
    intro d hd0 hd1
    have e : daysIn 4 year = 30 := by simp [daysIn]
    rw [monthDayFrom, e]
    split_ifs with h
    · simp only [IsDate, e]
      omega
    · exact h5 (d - 30) (by omega) (by omega)
  have h3 : ∀ d : ℤ, 0 ≤ d → d < 306 → IsDate year (monthDayFrom year 9 3 d) := by
    intro d hd0 hd1
    have e : daysIn 3 year = 31 := by simp [daysIn]
    rw [monthDayFrom, e]
    split_ifs with h
    · simp only [IsDate, e]
      omega
    · exact h4 (d - 31) (by omega) (by omega)
  have h2 : ∀ d : ℤ, 0 ≤ d → d < 306 + daysIn 2 year →
      IsDate year (monthDayFrom year 10 2 d) := by
    intro d hd0 hd1
    rw [monthDayFrom]
    split_ifs with h
    · simp only [IsDate]
      omega
    · exact h3 (d - daysIn 2 year) (by omega) (by omega)
  have h1m : ∀ d : ℤ, 0 ≤ d → d < 337 + daysIn 2 year →
      IsDate year (monthDayFrom year 11 1 d) := by
    intro d hd0 hd1
    have e : daysIn 1 year = 31 := by simp [daysIn]
    rw [monthDayFrom, e]
    split_ifs with h
    · simp only [IsDate, e]
      omega
    · exact h2 (d - 31) (by omega) (by omega)
  refine h1m yday h0 ?_
  rw [hf]
  split_ifs at h1 ⊢ <;> omega

end time

namespace time

/-- The fields of a time lie in their ranges, and the date exists. -/
theorem civil_ranges (t : ℤ) :
    IsDate (civil t).year ((civil t).month, (civil t).day) ∧
      (0 ≤ (civil t).hour ∧ (civil t).hour ≤ 23) ∧
      (0 ≤ (civil t).minute ∧ (civil t).minute ≤ 59) ∧
      (0 ≤ (civil t).second ∧ (civil t).second ≤ 59) ∧
      (0 ≤ (civil t).nanosecond ∧ (civil t).nanosecond < 1000000000) := by
  have hy := yearDay_range (t / 1000000000 / 86400 + 719162)
  refine ⟨monthDay_range _ _ hy.1 hy.2, ?_, ?_, ?_, ?_⟩ <;> simp only [civil] <;> omega

theorem appendInt_of_lt (x : ℤ) (w : ℕ) (h0 : 0 ≤ x) (h : x < 10 ^ w) (hw : 1 ≤ w) :
    appendInt x w = strconv.lowDigits w x.toNat := by
  have hx : x.natAbs = x.toNat := by omega
  have hlt : x.toNat < 10 ^ w := by
    have : ((x.toNat : ℕ) : ℤ) < ((10 ^ w : ℕ) : ℤ) := by
      rw [Int.toNat_of_nonneg h0]; exact_mod_cast h
    exact_mod_cast this
  have hn := strconv.numDigits_le hlt hw
  simp [appendInt, not_lt.2 h0, hx, max_eq_left hn]

theorem parseUint_lowDigits (w : ℕ) (x lo hi : ℤ) (h0 : 0 ≤ x) (h : x < 10 ^ w) (hlo : lo ≤ x)
    (hhi : x ≤ hi) : parseUint (strconv.lowDigits w x.toNat) lo hi = some x := by
  have hlt : x.toNat < 10 ^ w := by
    have : ((x.toNat : ℕ) : ℤ) < ((10 ^ w : ℕ) : ℤ) := by
      rw [Int.toNat_of_nonneg h0]; exact_mod_cast h
    exact_mod_cast this
  have hp : strconv.parseDigits (strconv.lowDigits w x.toNat) = x.toNat := by
    rw [strconv.parseDigits_lowDigits, Nat.mod_eq_of_lt hlt]
  have hx : ((x.toNat : ℕ) : ℤ) = x := Int.toNat_of_nonneg h0
  unfold parseUint
  rw [strconv.all_isDigit_lowDigits, hp, hx]
  simp [not_lt.2 hlo, not_lt.2 hhi]

theorem parseZone_Z : parseZone ['Z'] = some 0 := by decide

theorem trimZeros_sublist (s : List Char) : (trimZeros s).Sublist s := by
  unfold trimZeros
  have h1 := (List.dropWhile_sublist (fun c => c == '0') (l := s.reverse)).reverse
  simpa using h1

theorem parseDigits_of_all_zero (s : List Char) (h : ∀ c ∈ s, c = '0') :
    strconv.parseDigits s = 0 := by
  induction s using List.reverseRecOn with
  | nil => rfl
  | append_singleton s c ih =>
    rw [strconv.parseDigits_append, ih (fun x hx => h x (by simp [hx])),
      h c (by simp)]
    rfl

theorem trimZeros_ne_nil (s : List Char) (h : strconv.parseDigits s ≠ 0) : trimZeros s ≠ [] := by
  intro he
  apply h
  apply parseDigits_of_all_zero
  intro c hc
  unfold trimZeros at he
  have h1 : s.reverse.dropWhile (fun c => c == '0') = [] := by simpa using he
  rw [List.dropWhile_eq_nil_iff] at h1
  simpa using h1 c (by simpa using hc)

/-- The end of the text of a time in UTC, from the fractional second on, is
accepted. -/
theorem parseFracZone_appendNano (ns : ℤ) (h0 : 0 ≤ ns) (h1 : ns < 1000000000) :
    ∃ n, parseFracZone (appendNano ns ++ ['Z']) = some (n, 0) := by
  unfold appendNano
  by_cases hz : ns = 0
  · subst hz
    exact ⟨0, by decide⟩
  · rw [if_neg hz, appendInt_of_lt ns 9 h0 (by norm_num; omega) (by norm_num)]
    have hsub := trimZeros_sublist (strconv.lowDigits 9 ns.toNat)
    have hall : (trimZeros (strconv.lowDigits 9 ns.toNat)).all strconv.isDigit = true := by
      rw [List.all_eq_true]
      intro c hc
      have := strconv.all_isDigit_lowDigits 9 ns.toNat
      rw [List.all_eq_true] at this
      exact this c (hsub.subset hc)
    have hne : trimZeros (strconv.lowDigits 9 ns.toNat) ≠ [] := by
      apply trimZeros_ne_nil
      rw [strconv.parseDigits_lowDigits, Nat.mod_eq_of_lt (by omega)]
      omega
    generalize trimZeros (strconv.lowDigits 9 ns.toNat) = ds at hall hne
    cases ds with
    | nil => exact absurd rfl hne
    | cons a ds =>
      have ha : strconv.isDigit a = true := by
        simp only [List.all_cons, Bool.and_eq_true] at hall
        exact hall.1
      have hZ : strconv.isDigit 'Z' = false := by decide
      have e1 := strconv.takeWhile_append_of_all (a :: ds) 'Z' [] hall hZ
      have e2 := strconv.dropWhile_append_of_all (a :: ds) 'Z' [] hall hZ
      refine ⟨parseNanoseconds (a :: ds), ?_⟩
      simp only [parseFracZone, List.cons_append, List.head?_cons, List.tail_cons, true_and,
        Option.map_some', ha, if_true]
      rw [← List.cons_append, e1, e2, parseZone_Z]

end time

namespace time

/-- The places of the fields in a text of the RFC 3339 form. -/
theorem rfc3339_fields (Y M D H Mi S R : List Char) (hY : Y.length = 4) (hM : M.length = 2)
    (hD : D.length = 2) (hH : H.length = 2) (hMi : Mi.length = 2) (hS : S.length = 2) :
    ∀ s, s = Y ++ '-' :: (M ++ '-' :: (D ++ 'T' :: (H ++ ':' :: (Mi ++ ':' :: (S ++ R))))) →
      ¬ s.length < 19 ∧ s.take 4 = Y ∧ (s.drop 5).take 2 = M ∧ (s.drop 8).take 2 = D ∧
      (s.drop 11).take 2 = H ∧ (s.drop 14).take 2 = Mi ∧ (s.drop 17).take 2 = S ∧
      s.get? 4 = some '-' ∧ s.get? 7 = some '-' ∧ s.get? 10 = some 'T' ∧
      s.get? 13 = some ':' ∧ s.get? 16 = some ':' ∧ s.drop 19 = R := by
  intro s hs
  obtain ⟨m1, m2, rfl⟩ := List.length_eq_two.1 hM
  obtain ⟨d1, d2, rfl⟩ := List.length_eq_two.1 hD
  obtain ⟨h1, h2, rfl⟩ := List.length_eq_two.1 hH
  obtain ⟨i1, i2, rfl⟩ := List.length_eq_two.1 hMi
  obtain ⟨s1, s2, rfl⟩ := List.length_eq_two.1 hS
  rcases Y with _ | ⟨y1, _ | ⟨y2, _ | ⟨y3, _ | ⟨y4, _ | ⟨y5, Y⟩⟩⟩⟩⟩ <;> simp at hY
  subst hs
  simp

/-- Go `parseRFC3339` accepts the text `appendFormatRFC3339` writes for a time
whose year has four digits. -/
theorem parseRFC3339_appendFormatRFC3339 (t : ℤ) (hy0 : 0 ≤ (civil t).year)
    (hy1 : (civil t).year ≤ 9999) : ∃ t1, parseRFC3339 (appendFormatRFC3339 t) = some t1 := by
  obtain ⟨⟨hm0, hm1, hd0, hd1⟩, ⟨hh0, hh1⟩, ⟨hi0, hi1⟩, ⟨hs0, hs1⟩, hn0, hn1⟩ := civil_ranges t
  simp only at hm0 hm1 hd0 hd1
  have hdle : (civil t).day ≤ 31 := by
    have : daysIn (civil t).month (civil t).year ≤ 31 := by
      unfold daysIn; split_ifs <;> norm_num
    omega
  obtain ⟨n, hn⟩ := parseFracZone_appendNano (civil t).nanosecond hn0 hn1
  have hf := rfc3339_fields (strconv.lowDigits 4 (civil t).year.toNat)
    (strconv.lowDigits 2 (civil t).month.toNat) (strconv.lowDigits 2 (civil t).day.toNat)
    (strconv.lowDigits 2 (civil t).hour.toNat) (strconv.lowDigits 2 (civil t).minute.toNat)
    (strconv.lowDigits 2 (civil t).second.toNat) (appendNano (civil t).nanosecond ++ ['Z'])
    (strconv.length_lowDigits _ _) (strconv.length_lowDigits _ _) (strconv.length_lowDigits _ _)
    (strconv.length_lowDigits _ _) (strconv.length_lowDigits _ _) (strconv.length_lowDigits _ _)
    (appendFormatRFC3339 t) (by
      simp only [appendFormatRFC3339, List.append_assoc, List.cons_append]
      rw [appendInt_of_lt _ 4 hy0 (by norm_num; omega) (by norm_num),
        appendInt_of_lt _ 2 (by omega) (by norm_num; omega) (by norm_num),
        appendInt_of_lt _ 2 (by omega) (by norm_num; omega) (by norm_num),
        appendInt_of_lt _ 2 hh0 (by norm_num; omega) (by norm_num),
        appendInt_of_lt _ 2 hi0 (by norm_num; omega) (by norm_num),
        appendInt_of_lt _ 2 hs0 (by norm_num; omega) (by norm_num)])
  obtain ⟨f0, f1, f2, f3, f4, f5, f6, g1, g2, g3, g4, g5, f7⟩ := hf
  refine ⟨Date (civil t).year (civil t).month (civil t).day (civil t).hour (civil t).minute
    (civil t).second n - 0 * 1000000000, ?_⟩
  unfold parseRFC3339
  rw [if_neg f0, f1, f2, f3, f4, f5, f6, g1, g2, g3, g4, g5, f7, hn,
    parseUint_lowDigits 4 _ 0 9999 hy0 (by norm_num; omega) hy0 hy1,
    parseUint_lowDigits 2 _ 1 12 (by omega) (by norm_num; omega) hm0 hm1]
  simp only
  rw [parseUint_lowDigits 2 _ 1 _ (by omega) (by norm_num; omega) hd0 hd1,
    parseUint_lowDigits 2 _ 0 23 hh0 (by norm_num; omega) hh0 hh1,
    parseUint_lowDigits 2 _ 0 59 hi0 (by norm_num; omega) hi0 hi1,
    parseUint_lowDigits 2 _ 0 59 hs0 (by norm_num; omega) hs0 hs1]
  simp

/-- The text of a time has no quote, no backslash and no control character. -/
theorem appendFormatRFC3339_plain (t : ℤ) :
    ∀ c ∈ appendFormatRFC3339 t, c ≠ '"' ∧ c ≠ '\\' ∧ 32 ≤ c.toNat := by
  have hd : ∀ w n, ∀ c ∈ strconv.lowDigits w n, c ≠ '"' ∧ c ≠ '\\' ∧ 32 ≤ c.toNat := by
    intro w n c hc
    have h := strconv.all_isDigit_lowDigits w n
    rw [List.all_eq_true] at h
    have hc := h c hc
    simp only [strconv.isDigit, Bool.and_eq_true, decide_eq_true_eq] at hc
    have h1 : ('0' : Char).toNat ≤ c.toNat := hc.1
    have h2 : ('0' : Char).toNat = 48 := rfl
    have h3 : c.toNat ≤ ('9' : Char).toNat := hc.2
    refine ⟨?_, ?_, by omega⟩
    · rintro rfl; exact absurd h1 (by decide)
    · rintro rfl; exact absurd h3 (by decide)
  have hi : ∀ (x : ℤ) w, ∀ c ∈ appendInt x w, c ≠ '"' ∧ c ≠ '\\' ∧ 32 ≤ c.toNat := by
    intro x w c hc
    unfold appendInt at hc
    rw [List.mem_append] at hc
    rcases hc with hc | hc
    · split_ifs at hc
      · simp at hc; subst hc; decide
      · simp at hc
    · exact hd _ _ c hc
  have hn : ∀ (x : ℤ), ∀ c ∈ appendNano x, c ≠ '"' ∧ c ≠ '\\' ∧ 32 ≤ c.toNat := by
    intro x c hc
    unfold appendNano at hc
    split_ifs at hc
    · simp at hc
    · rcases List.mem_cons.1 hc with rfl | hc
      · decide
      · exact hi _ _ c ((trimZeros_sublist _).subset hc)
  intro c hc
  simp only [appendFormatRFC3339, List.mem_append, List.mem_cons, List.mem_singleton,
    List.not_mem_nil, or_false] at hc
  rcases hc with ((((((hc | hc | hc) | hc | hc) | hc | hc) | hc | hc) | hc | hc) | hc) | hc <;>
    first
      | exact hi _ _ c hc
      | exact hn _ c hc
      | (subst hc; decide)

end time

namespace time

/-- Go `UnmarshalJSON` accepts what `MarshalJSON` wrote, which is a quoted
text without quote, backslash and control character. -/
theorem UnmarshalJSON_MarshalJSON (layout : List Char → Option ℤ) (t : ℤ) (b : List Char)
    (h : MarshalJSON t = Except.ok b) :
    b = '"' :: appendFormatRFC3339 t ++ ['"'] ∧
      ∃ t1, UnmarshalJSON layout ('"' :: appendFormatRFC3339 t ++ ['"']) = Except.ok t1 := by
  unfold MarshalJSON at h
  split_ifs at h with hy
  have hb : b = '"' :: appendFormatRFC3339 t ++ ['"'] := by
    injection h with h
    exact h.symm
  refine ⟨hb, ?_⟩
  obtain ⟨t1, ht1⟩ := parseRFC3339_appendFormatRFC3339 t (by omega) (by omega)
  refine ⟨t1, ?_⟩
  have e : (('"' :: appendFormatRFC3339 t ++ ['"']).drop 1).take
      (('"' :: appendFormatRFC3339 t ++ ['"']).length - 2) = appendFormatRFC3339 t := by
    simp
  have e2 : ('"' :: (appendFormatRFC3339 t ++ ['"'])).getLast? = some '"' := by
    rw [← List.cons_append, List.getLast?_concat]
  unfold UnmarshalJSON
  rw [e, ht1]
  simp [e2]

end time

/-! ## The JSON parser on what the encoder writes -/

namespace json

theorem skipSpace_cons (c : Char) (r : List Char) (h : isSpace c = false) :
    skipSpace (c :: r) = c :: r := by
  simp [skipSpace, List.dropWhile, h]

/-- A string literal whose text the scanner accepts is a value. -/
theorem parseValue_string (n d : ℕ) (raw r : List Char)
    (h : scanString strState.text (raw ++ '"' :: r) [] = some (raw, r)) :
    parseValue (n + 1) d ('"' :: (raw ++ '"' :: r)) = some (Value.string raw, r) := by
  rw [parseValue, skipSpace_cons _ _ (by decide)]
  simp [h]

theorem parseValue_escape (n d : ℕ) (s r : List Char) :
    parseValue (n + 1) d ('"' :: (escape s ++ '"' :: r)) = some (Value.string (escape s), r) :=
  parseValue_string n d _ r (by rw [scanString_escape]; simp)

theorem parseValue_plain (n d : ℕ) (xs r : List Char)
    (h : ∀ c ∈ xs, c ≠ '"' ∧ c ≠ '\\' ∧ 32 ≤ c.toNat) :
    parseValue (n + 1) d ('"' :: (xs ++ '"' :: r)) = some (Value.string xs, r) :=
  parseValue_string n d _ r (by rw [scanString_of_plain _ _ _ h]; simp)

theorem ne_of_isDigit {c x : Char} (h : strconv.isDigit c = true) (hx : strconv.isDigit x = false) :
    c ≠ x := by
  rintro rfl
  rw [h] at hx
  exact absurd hx (by decide)

/-- A number `strconv.AppendInt` wrote, followed by a comma or a closing
brace, is a value. -/
theorem parseValue_number (n d : ℕ) (i : ℤ) (c : Char) (r : List Char)
    (hc : c = ',' ∨ c = '\x7d') :
    parseValue (n + 1) d (strconv.AppendInt i ++ c :: r) =
      some (Value.number (strconv.AppendInt i), c :: r) := by
  have hs := scanNumber_AppendInt i c r (by rcases hc with rfl | rfl <;> decide)
    (by rcases hc with rfl | rfl <;> decide) (by rcases hc with rfl | rfl <;> decide)
    (by rcases hc with rfl | rfl <;> decide)
  obtain ⟨a, tl, h, ha⟩ := strconv.AppendInt_shape i
  rw [h] at hs ⊢
  have hsp : isSpace a = false := by
    rcases ha with rfl | ha
    · decide
    · have h1 := ne_of_isDigit ha (x := ' ') (by decide)
      have h2 := ne_of_isDigit ha (x := '\t') (by decide)
      have h3 := ne_of_isDigit ha (x := '\r') (by decide)
      have h4 := ne_of_isDigit ha (x := '\n') (by decide)
      simp [isSpace, h1, h2, h3, h4]
  have e1 : a ≠ '\x7b' := by
    rcases ha with rfl | ha
    · decide
    · exact ne_of_isDigit ha (by decide)
  have e2 : a ≠ '[' := by
    rcases ha with rfl | ha
    · decide
    · exact ne_of_isDigit ha (by decide)
  have e3 : a ≠ '"' := by
    rcases ha with rfl | ha
    · decide
    · exact ne_of_isDigit ha (by decide)
  have e4 : a ≠ 't' := by
    rcases ha with rfl | ha
    · decide
    · exact ne_of_isDigit ha (by decide)
  have e5 : a ≠ 'f' := by
    rcases ha with rfl | ha
    · decide
    · exact ne_of_isDigit ha (by decide)
  have e6 : a ≠ 'n' := by
    rcases ha with rfl | ha
    · decide
    · exact ne_of_isDigit ha (by decide)
  rw [List.cons_append] at hs ⊢
  rw [parseValue, skipSpace_cons _ _ hsp]
  simp only [e1, e2, e3, e4, e5, e6, if_false, hs]

/-- The literals `true` and `false` are values. -/
theorem parseValue_bool (n d : ℕ) (b : Bool) (r : List Char) :
    parseValue (n + 1) d ((if b then "true".data else "false".data) ++ r) =
      some (Value.bool b, r) := by
  cases b
  · have e : "false".data = 'f' :: "alse".data := rfl
    rw [parseValue]
    simp [e, skipSpace_cons, isSpace, literal]
  · have e : "true".data = 't' :: "rue".data := rfl
    rw [parseValue]
    simp [e, skipSpace_cons, isSpace, literal]

/-- The last member of an object. -/
theorem parseMembers_last (n d : ℕ) (k body : List Char) (v : Value) (r : List Char)
    (hk : ∀ c ∈ k, c ≠ '"' ∧ c ≠ '\\' ∧ 32 ≤ c.toNat)
    (hv : parseValue n d body = some (v, '\x7d' :: r)) :
    parseMembers (n + 1) d ('"' :: (k ++ '"' :: ':' :: body)) = some ([(k, v)], r) := by
  rw [parseMembers, skipSpace_cons _ _ (by decide)]
  simp only [if_true]
  rw [scanString_of_plain _ _ _ hk]
  simp only [List.reverse_nil, List.nil_append]
  rw [skipSpace_cons _ _ (by decide)]
  simp only [if_true, hv]
  rw [skipSpace_cons _ _ (by decide)]
  simp

/-- A member of an object that a comma and further members follow. -/
theorem parseMembers_more (n d : ℕ) (k body : List Char) (v : Value) (r r1 : List Char)
    (ms : List (List Char × Value))
    (hk : ∀ c ∈ k, c ≠ '"' ∧ c ≠ '\\' ∧ 32 ≤ c.toNat)
    (hv : parseValue n d body = some (v, ',' :: r))
    (hms : parseMembers n d r = some (ms, r1)) :
    parseMembers (n + 1) d ('"' :: (k ++ '"' :: ':' :: body)) = some ((k, v) :: ms, r1) := by
  rw [parseMembers, skipSpace_cons _ _ (by decide)]
  simp only [if_true]
  rw [scanString_of_plain _ _ _ hk]
  simp only [List.reverse_nil, List.nil_append]
  rw [skipSpace_cons _ _ (by decide)]
  simp only [if_true, hv]
  rw [skipSpace_cons _ _ (by decide)]
  simp [hms]

/-- An object that is not empty. -/
theorem parseValue_object (n d : ℕ) (s r : List Char) (ms : List (List Char × Value))
    (hd : d < maxNestingDepth) (hms : parseMembers n (d + 1) ('"' :: s) = some (ms, r)) :
    parseValue (n + 1) d ('\x7b' :: '"' :: s) = some (Value.object ms, r) := by
  rw [parseValue, skipSpace_cons _ _ (by decide)]
  simp only [if_true, not_le.2 hd, if_false]
  rw [skipSpace_cons _ _ (by decide)]
  simp [hms]

end json

namespace json

theorem plain_of_names :
    ∀ k ∈ ["domain".data, "count".data, "total_advertisers".data, "advertisers".data,
      "cached".data, "timestamp".data], ∀ c ∈ k, c ≠ '"' ∧ c ≠ '\\' ∧ 32 ≤ c.toNat := by
  decide

theorem encodeAdvertiser_eq (a : models.Advertiser) (r : List Char) :
    encodeAdvertiser a ++ r =
      '\x7b' :: '"' :: ("domain".data ++ '"' :: ':' :: '"' :: (escape a.Domain.data ++
        '"' :: ',' :: '"' :: ("count".data ++ '"' :: ':' ::
          (strconv.AppendInt a.Count ++ '\x7d' :: r)))) := by
  have e1 : "\x7b\"domain\":".data = '\x7b' :: '"' :: ("domain".data ++ ['"', ':']) := rfl
  have e2 : ",\"count\":".data = ',' :: '"' :: ("count".data ++ ['"', ':']) := rfl
  simp only [encodeAdvertiser, appendString, e1, e2, List.append_assoc, List.cons_append,
    List.nil_append]

/-- The parser reads the encoding of an advertiser as `advertiserValue`. -/
theorem parseValue_encodeAdvertiser (n d : ℕ) (a : models.Advertiser) (r : List Char)
    (hd : d < maxNestingDepth) :
    parseValue (n + 4) d (encodeAdvertiser a ++ r) = some (advertiserValue a, r) := by
  rw [encodeAdvertiser_eq]
  refine parseValue_object (n + 3) d _ r _ hd ?_
  apply parseMembers_more (n + 2) (d + 1)
  · exact plain_of_names _ (by simp)
  · exact parseValue_escape (n + 1) (d + 1) _ _
  · apply parseMembers_last (n + 1) (d + 1)
    · exact plain_of_names _ (by simp)
    · exact parseValue_number n (d + 1) _ _ _ (Or.inr rfl)

theorem encodeElems_cons (a : models.Advertiser) (l : List models.Advertiser) (r : List Char) :
    encodeElems (a :: l) ++ ']' :: r =
      encodeAdvertiser a ++
        (match l with
          | [] => ']' :: r
          | b :: l1 => ',' :: (encodeElems (b :: l1) ++ ']' :: r)) := by
  cases l with
  | nil => simp [encodeElems]
  | cons b l1 => simp [encodeElems]

/-- The parser reads the encodings of the elements of a slice. -/
theorem parseElems_encodeElems (l : List models.Advertiser) (a : models.Advertiser) (n d : ℕ)
    (r : List Char) (hd : d < maxNestingDepth) :
    parseElems (n + l.length + 5) d (encodeElems (a :: l) ++ ']' :: r) =
      some (advertiserValue a :: l.map advertiserValue, r) := by
  induction l generalizing a n with
  | nil =>
    rw [encodeElems_cons]
    simp only [List.length_nil, Nat.add_zero]
    rw [parseElems, parseValue_encodeAdvertiser n d a _ hd]
    simp only
    rw [skipSpace_cons _ _ (by decide)]
    simp
  | cons b l ih =>
    rw [encodeElems_cons]
    have e : n + (b :: l).length + 5 = (n + l.length + 5) + 1 := by simp; omega
    rw [e, parseElems]
    have hv := parseValue_encodeAdvertiser (n + l.length + 1) d a
      (',' :: (encodeElems (b :: l) ++ ']' :: r)) hd
    simp only at hv ⊢
    rw [hv]
    simp only
    rw [skipSpace_cons _ _ (by decide)]
    simp [ih b n]

theorem encodeAdvertiser_head (a : models.Advertiser) (r : List Char) :
    ∃ tl, encodeAdvertiser a ++ r = '\x7b' :: tl := ⟨_, encodeAdvertiser_eq a r⟩

/-- The parser reads the encoding of the slice of advertisers. -/
theorem parseValue_advertisers (l : List models.Advertiser) (n d : ℕ) (r : List Char)
    (hd : d + 1 < maxNestingDepth) :
    parseValue (n + l.length + 6) d ('[' :: (encodeElems l ++ ']' :: r)) =
      some (Value.array (l.map advertiserValue), r) := by
  have hd0 : ¬ maxNestingDepth ≤ d := by omega
  cases l with
  | nil =>
    rw [parseValue, skipSpace_cons _ _ (by decide)]
    simp only [if_neg hd0, encodeElems, List.nil_append]
    rw [skipSpace_cons _ _ (by decide)]
    simp
  | cons a l =>
    have hp := parseElems_encodeElems l a (n + 1) (d + 1) r hd
    obtain ⟨tl, htl⟩ : ∃ tl, encodeElems (a :: l) ++ ']' :: r = '\x7b' :: tl := by
      rw [encodeElems_cons]
      exact encodeAdvertiser_head a _
    have e : n + (a :: l).length + 6 = (n + 1 + l.length + 5) + 1 := by simp; omega
    rw [e, parseValue, skipSpace_cons _ _ (by decide)]
    simp only [if_neg hd0]
    rw [hp, htl, skipSpace_cons _ _ (by decide)]
    simp

end json

namespace json

/-- The text `Marshal` writes, member by member. -/
theorem Marshal_data (e : models.AdsResponse) (b : String) (h : Marshal e = Except.ok b) :
    b.data =
      '\x7b' :: '"' :: ("domain".data ++ '"' :: ':' :: '"' :: (escape e.Domain.data ++
        '"' :: ',' :: '"' :: ("total_advertisers".data ++ '"' :: ':' ::
          (strconv.AppendInt e.TotalAdvertisers ++ ',' :: '"' :: ("advertisers".data ++
            '"' :: ':' :: '[' :: (encodeElems e.Advertisers ++ ']' :: ',' :: '"' ::
              ("cached".data ++ '"' :: ':' ::
                ((if e.Cached then "true".data else "false".data) ++ ',' :: '"' ::
                  ("timestamp".data ++ '"' :: ':' :: '"' ::
                    (time.appendFormatRFC3339 e.Timestamp ++ '"' :: ['\x7d'])))))))))) ∧
      ∀ layout, ∃ t1, time.UnmarshalJSON layout
        ('"' :: time.appendFormatRFC3339 e.Timestamp ++ ['"']) = Except.ok t1 := by
  unfold Marshal at h
  cases hm : time.MarshalJSON e.Timestamp with
  | error err => rw [hm] at h; simp at h
  | ok ts =>
    rw [hm] at h
    simp only at h
    injection h with h
    have hts := fun layout => time.UnmarshalJSON_MarshalJSON layout e.Timestamp ts hm
    have e0 := (hts (fun _ => none)).1
    have e1 : "\x7b\"domain\":".data = '\x7b' :: '"' :: ("domain".data ++ ['"', ':']) := rfl
    have e2 : ",\"total_advertisers\":".data =
        ',' :: '"' :: ("total_advertisers".data ++ ['"', ':']) := rfl
    have e3 : ",\"advertisers\":[".data =
        ',' :: '"' :: ("advertisers".data ++ ['"', ':', '[']) := rfl
    have e4 : "],\"cached\":".data = ']' :: ',' :: '"' :: ("cached".data ++ ['"', ':']) := rfl
    have e5 : ",\"timestamp\":".data = ',' :: '"' :: ("timestamp".data ++ ['"', ':']) := rfl
    refine ⟨?_, fun layout => (hts layout).2⟩
    rw [← h]
    simp only [appendString, e0, e1, e2, e3, e4, e5, List.append_assoc, List.cons_append,
      List.nil_append]

theorem length_encodeElems (l : List models.Advertiser) : l.length ≤ (encodeElems l).length := by
  induction l with
  | nil => simp
  | cons a l ih =>
    cases l with
    | nil =>
      have h := congrArg List.length (encodeAdvertiser_eq a [])
      simp only [List.append_nil] at h
      simp only [encodeElems, h]
      simp
    | cons b l =>
      simp only [encodeElems, List.length_append, List.length_cons] at ih ⊢
      omega

/-- The parser reads the text `Marshal` writes as `envelopeValue`. -/
theorem parseDocument_Marshal (e : models.AdsResponse) (b : String)
    (h : Marshal e = Except.ok b) :
    parseDocument b.data = some (envelopeValue e (time.appendFormatRFC3339 e.Timestamp)) := by
  obtain ⟨hb, -⟩ := Marshal_data e b h
  have hlen : e.Advertisers.length + 10 ≤ 2 * b.data.length + 2 := by
    have := length_encodeElems e.Advertisers
    rw [hb]
    simp only [List.length_cons, List.length_append]
    omega
  obtain ⟨n, hn⟩ : ∃ n, 2 * b.data.length + 2 = n + e.Advertisers.length + 10 :=
    ⟨2 * b.data.length + 2 - (e.Advertisers.length + 10), by omega⟩
  have hp : parseValue (n + e.Advertisers.length + 10) 0 b.data =
      some (envelopeValue e (time.appendFormatRFC3339 e.Timestamp), []) := by
    rw [hb]
    refine parseValue_object (n + e.Advertisers.length + 9) 0 _ [] _ (by decide) ?_
    apply parseMembers_more (n + e.Advertisers.length + 8) 1
    · exact plain_of_names _ (by simp)
    · exact parseValue_escape (n + e.Advertisers.length + 7) 1 _ _
    · apply parseMembers_more (n + e.Advertisers.length + 7) 1
      · exact plain_of_names _ (by simp)
      · exact parseValue_number (n + e.Advertisers.length + 6) 1 _ _ _ (Or.inl rfl)
      · apply parseMembers_more (n + e.Advertisers.length + 6) 1
        · exact plain_of_names _ (by simp)
        · exact parseValue_advertisers e.Advertisers n 1 _ (by decide)
        · apply parseMembers_more (n + e.Advertisers.length + 5) 1
          · exact plain_of_names _ (by simp)
          · exact parseValue_bool (n + e.Advertisers.length + 4) 1 _ _
          · apply parseMembers_last (n + e.Advertisers.length + 4) 1
            · exact plain_of_names _ (by simp)
            · exact parseValue_plain (n + e.Advertisers.length + 3) 1 _ _
                (time.appendFormatRFC3339_plain _)
  unfold parseDocument
  rw [hn, hp]
  simp [skipSpace]

end json

/-! ## Decoding what the encoder writes -/

namespace json

theorem storeString_escape (s cur : String) :
    storeString (Value.string (escape s.data)) cur = Except.ok s := by
  simp [storeString, unquote_escape]

theorem storeInt_AppendInt (i cur : ℤ) (h1 : -(2 ^ 63) ≤ i) (h2 : i < 2 ^ 63) :
    storeInt (Value.number (strconv.AppendInt i)) cur = Except.ok i := by
  simp [storeInt, strconv.ParseInt_AppendInt i h1 h2]

/-- The decoder reads an advertiser back from the value of its encoding. -/
theorem storeAdvertiser_advertiserValue (a : models.Advertiser) (h1 : -(2 ^ 63) ≤ a.Count)
    (h2 : a.Count < 2 ^ 63) : storeAdvertiser (advertiserValue a) = Except.ok a := by
  have f1 : field ["domain", "count"] (unquote "domain".data) = some "domain" := by decide
  have f2 : field ["domain", "count"] (unquote "count".data) = some "count" := by decide
  have n2 : ¬ ("count" : String) = "domain" := by decide
  simp only [storeAdvertiser, advertiserValue, List.foldlM, storeAdvertiserField, f1, f2,
    if_true, n2, if_false, storeString_escape, storeInt_AppendInt _ _ h1 h2]
  rfl

theorem storeElems_map (l : List models.Advertiser)
    (h : ∀ a ∈ l, -(2 ^ 63) ≤ a.Count ∧ a.Count < 2 ^ 63) :
    storeElems (l.map advertiserValue) = Except.ok l := by
  induction l with
  | nil => rfl
  | cons a l ih =>
    obtain ⟨h1, h2⟩ := h a (List.mem_cons_self _ _)
    simp only [List.map_cons, storeElems, storeAdvertiser_advertiserValue a h1 h2,
      ih (fun x hx => h x (List.mem_cons_of_mem _ hx))]

/-- The decoder reads an envelope back from the value of its encoding; the
timestamp is the one `Time.UnmarshalJSON` reads from its text. -/
theorem foldlM_storeField_envelopeValue (layout : List Char → Option ℤ)
    (e : models.AdsResponse) (ts : List Char) (t1 : ℤ) (hr : e.InRange)
    (ht : time.UnmarshalJSON layout ('"' :: ts ++ ['"']) = Except.ok t1)
    (ms : List (List Char × Value)) (hms : envelopeValue e ts = Value.object ms) :
    ms.foldlM (storeField layout) zeroAdsResponse = Except.ok { e with Timestamp := t1 } := by
  have f1 : field ["domain", "total_advertisers", "advertisers", "cached", "timestamp"]
      (unquote "domain".data) = some "domain" := by decide
  have f2 : field ["domain", "total_advertisers", "advertisers", "cached", "timestamp"]
      (unquote "total_advertisers".data) = some "total_advertisers" := by decide
  have f3 : field ["domain", "total_advertisers", "advertisers", "cached", "timestamp"]
      (unquote "advertisers".data) = some "advertisers" := by decide
  have f4 : field ["domain", "total_advertisers", "advertisers", "cached", "timestamp"]
      (unquote "cached".data) = some "cached" := by decide
  have f5 : field ["domain", "total_advertisers", "advertisers", "cached", "timestamp"]
      (unquote "timestamp".data) = some "timestamp" := by decide
  have n21 : ¬ ("total_advertisers" : String) = "domain" := by decide
  have n31 : ¬ ("advertisers" : String) = "domain" := by decide
  have n32 : ¬ ("advertisers" : String) = "total_advertisers" := by decide
  have n41 : ¬ ("cached" : String) = "domain" := by decide
  have n42 : ¬ ("cached" : String) = "total_advertisers" := by decide
  have n43 : ¬ ("cached" : String) = "advertisers" := by decide
  have n51 : ¬ ("timestamp" : String) = "domain" := by decide
  have n52 : ¬ ("timestamp" : String) = "total_advertisers" := by decide
  have n53 : ¬ ("timestamp" : String) = "advertisers" := by decide
  have n54 : ¬ ("timestamp" : String) = "cached" := by decide
  unfold envelopeValue at hms
  injection hms with hms
  subst hms
  simp only [List.foldlM, storeField, f1, f2, f3, f4, f5, if_true, n21, n31, n32, n41, n42, n43,
    n51, n52, n53, n54, if_false, storeString_escape, storeInt_AppendInt _ _ hr.1.1 hr.1.2,
    storeAdvertisers, storeElems_map _ hr.2, storeBool, storeTime, ht]
  rfl

/-- Go `json.Unmarshal` reads back what `json.Marshal` wrote: every field but
the timestamp is the one written. -/
theorem Unmarshal_Marshal (layout : List Char → Option ℤ) (e : models.AdsResponse) (b : String)
    (hr : e.InRange) (h : Marshal e = Except.ok b) :
    ∃ t1, Unmarshal layout b = Except.ok { e with Timestamp := t1 } := by
  obtain ⟨-, ht⟩ := Marshal_data e b h
  obtain ⟨t1, ht1⟩ := ht layout
  refine ⟨t1, ?_⟩
  unfold Unmarshal
  rw [parseDocument_Marshal e b h]
  exact foldlM_storeField_envelopeValue layout e _ t1 hr ht1 _ rfl

end json

/-! ## Response cache: writing and reading back (C11) -/

namespace json

/-- Go `json.Marshal` succeeds on an envelope exactly when the year of its
timestamp has four digits. -/
theorem Marshal_ok_iff (e : models.AdsResponse) :
    (∃ b, Marshal e = Except.ok b) ↔
      0 ≤ (time.civil e.Timestamp).year ∧ (time.civil e.Timestamp).year ≤ 9999 := by
  unfold Marshal time.MarshalJSON
  by_cases hy : (time.civil e.Timestamp).year < 0 ∨ 9999 < (time.civil e.Timestamp).year
  · rw [if_pos hy]
    constructor
    · rintro ⟨b, hb⟩
      simp at hb
    · intro h
      omega
  · rw [if_neg hy]
    exact ⟨fun _ => by omega, fun _ => ⟨_, rfl⟩⟩

end json

namespace cache

/-- The cache over the server `redis.memory` returns after a `Set` the bytes
written. -/
theorem memoryAdsCache_retains : memoryAdsCache.cache.Retains := by
  intro st key b ttl st1 h
  simp only [memoryAdsCache, NewAdsCache, RedisCache.toCache, RedisCache.Set, redis.memory,
    Prod.mk.injEq, true_and] at h
  subst h
  simp [memoryAdsCache, NewAdsCache, RedisCache.toCache, RedisCache.Get, redis.memory]

/-- Go `SetAds` returns no error exactly when `json.Marshal` and the `Set` of
the store return none. -/
theorem SetAds_eq_none_iff {β σ : Type} (j : json.Codec β) (a : AdsCache β σ) (st : σ)
    (key : String) (resp : models.AdsResponse) (ttl : ℤ) (st1 : σ) :
    a.SetAds j st key resp ttl = (none, st1) ↔
      ∃ b, j.Marshal resp = Except.ok b ∧ a.cache.Set st key b ttl = (none, st1) := by
  unfold AdsCache.SetAds
  cases hm : j.Marshal resp with
  | error err => simp
  | ok b => simp

/-- Go `SetAds` returns the error of `json.Marshal` and leaves the store as it
is. -/
theorem SetAds_of_marshal_error {β σ : Type} (j : json.Codec β) (a : AdsCache β σ) (st : σ)
    (key : String) (resp : models.AdsResponse) (ttl : ℤ) (err : String)
    (h : j.Marshal resp = Except.error err) : a.SetAds j st key resp ttl = (some err, st) := by
  unfold AdsCache.SetAds
  rw [h]

/-- Go `SetAds` returns the error of the store as it is. -/
theorem SetAds_of_store_error {β σ : Type} (j : json.Codec β) (a : AdsCache β σ) (st : σ)
    (key : String) (resp : models.AdsResponse) (ttl : ℤ) (b : β)
    (h : j.Marshal resp = Except.ok b) : a.SetAds j st key resp ttl = a.cache.Set st key b ttl := by
  unfold AdsCache.SetAds
  rw [h]

/-- After a `SetAds` that returned no error, `GetAds` finds the envelope
written, but for its timestamp, which is the one read from its text. -/
theorem GetAds_after_SetAds {σ : Type} (layout : List Char → Option ℤ) (a : AdsCache String σ)
    (hstore : a.cache.Retains) (st : σ) (d : String) (e : models.AdsResponse) (ttl : ℤ) (st1 : σ)
    (hr : e.InRange) (hset : a.SetAds (json.std layout) st d e ttl = (none, st1)) :
    ∃ t1, a.GetAds (json.std layout) st1 d = (some { e with Timestamp := t1 }, true) := by
  obtain ⟨b, hm, hs⟩ := (SetAds_eq_none_iff _ a st d e ttl st1).1 hset
  obtain ⟨t1, hu⟩ := json.Unmarshal_Marshal layout e b hr hm
  refine ⟨t1, ?_⟩
  have hu1 : (json.std layout).Unmarshal b = Except.ok { e with Timestamp := t1 } := hu
  rw [GetAds_of_bytes _ a st1 d b (hstore st d b ttl st1 hs), hu1]

/-- C11 (the claim fails at this input): the store over `redis.memory`
returns after every `Set` the bytes written, and still an envelope stamped
with January 1 of the year 10000 is not found after `SetAds`:
`json.Marshal` fails on the timestamp, `SetAds` returns that error without
writing, and `GetAds` reports a miss. -/
theorem year_10000_envelope_is_not_cached :
    memoryAdsCache.cache.Retains ∧
    memoryAdsCache.SetAds (json.std (fun _ => none)) (fun _ => none) "example.com"
        { Domain := "example.com", TotalAdvertisers := 1,
          Advertisers := [{ Domain := "advertiser.com", Count := 1 }], Cached := false,
          Timestamp := 253402300800000000000 } 300000000000 =
      (some ("json: error calling MarshalJSON for type time.Time: " ++
        "Time.MarshalJSON: year outside of range [0,9999]"), fun _ => none) ∧
    memoryAdsCache.GetAds (json.std (fun _ => none))
        (memoryAdsCache.SetAds (json.std (fun _ => none)) (fun _ => none) "example.com"
          { Domain := "example.com", TotalAdvertisers := 1,
            Advertisers := [{ Domain := "advertiser.com", Count := 1 }], Cached := false,
            Timestamp := 253402300800000000000 } 300000000000).2 "example.com" =
      (none, false) := by
  have hm : (json.std (fun _ => none)).Marshal
      { Domain := "example.com", TotalAdvertisers := 1,
        Advertisers := [{ Domain := "advertiser.com", Count := 1 }], Cached := false,
        Timestamp := 253402300800000000000 } =
      Except.error ("json: error calling MarshalJSON for type time.Time: " ++
        "Time.MarshalJSON: year outside of range [0,9999]") := by
    rfl
  have hs := SetAds_of_marshal_error (json.std (fun _ => none)) memoryAdsCache (fun _ => none)
    "example.com" _ 300000000000 _ hm
  refine ⟨memoryAdsCache_retains, hs, ?_⟩
  rw [hs]
  exact GetAds_of_miss _ _ _ _ rfl

/-- C11 (amended): for every domain key `d`, envelope `e` and TTL, over a byte
store in which a `Get` right after a successful `Set` returns the bytes
written, whenever `SetAds(d, e, ttl)` returns no error, the `GetAds(d)` that
follows immediately returns `found = true` with an envelope whose domain,
total advertiser count, advertiser list (same entries, same order, same
counts) and cached flag are those of `e`. The integers of `e` are values of
the Go type `int`. -/
theorem SetAds_then_GetAds_round_trip {σ : Type} (layout : List Char → Option ℤ)
    (a : AdsCache String σ) (hstore : a.cache.Retains) (st : σ) (d : String)
    (e : models.AdsResponse) (ttl : ℤ) (st1 : σ) (hr : e.InRange)
    (hset : a.SetAds (json.std layout) st d e ttl = (none, st1)) :
    ∃ e1, a.GetAds (json.std layout) st1 d = (some e1, true) ∧ e1.Domain = e.Domain ∧
      e1.TotalAdvertisers = e.TotalAdvertisers ∧ e1.Advertisers = e.Advertisers ∧
      e1.Cached = e.Cached := by
  obtain ⟨t1, h⟩ := GetAds_after_SetAds layout a hstore st d e ttl st1 hr hset
  exact ⟨_, h, rfl, rfl, rfl, rfl⟩

theorem SetAds_then_GetAds_round_trip_witness :
    memoryAdsCache.cache.Retains ∧
    (∃ e1, memoryAdsCache.GetAds (json.std (fun _ => none))
        (memoryAdsCache.SetAds (json.std (fun _ => none)) (fun _ => none) "example.com"
          { Domain := "example.com", TotalAdvertisers := 1,
            Advertisers := [{ Domain := "advertiser.com", Count := 1 }], Cached := false,
            Timestamp := 1730678400123456000 } 300000000000).2 "example.com" = (some e1, true) ∧
      e1.Domain = "example.com" ∧ e1.TotalAdvertisers = 1 ∧
      e1.Advertisers = [{ Domain := "advertiser.com", Count := 1 }] ∧ e1.Cached = false) :=
  ⟨memoryAdsCache_retains,
    SetAds_then_GetAds_round_trip (fun _ => none) memoryAdsCache memoryAdsCache_retains
      (fun _ => none) "example.com"
      { Domain := "example.com", TotalAdvertisers := 1,
        Advertisers := [{ Domain := "advertiser.com", Count := 1 }], Cached := false,
        Timestamp := 1730678400123456000 } 300000000000 _
      (by simp [models.AdsResponse.InRange]) (by rfl)⟩

end cache

namespace cache

theorem GetAds_fails_open_witness :
    memoryAdsCache.GetAds (json.std (fun _ => none))
      (fun k => if k = "example.com" then some "\x7b\"domain\":" else none) "example.com" =
      (none, false) :=
  (GetAds_fails_open (json.std (fun _ => none)) memoryAdsCache
    (fun k => if k = "example.com" then some "\x7b\"domain\":" else none) "example.com").2.2.1
    "\x7b\"domain\":" "invalid character or unexpected end of JSON input" rfl rfl

end cache

/-! ## Request pipeline: a cache miss with a successful fetch (C13) -/

namespace strings

theorem dropWhile_eq_self_of_head {p : Char → Bool} :
    ∀ (l : List Char), (∀ c, l.head? = some c → p c = false) → l.dropWhile p = l
  | [], _ => rfl
  | c :: cs, h => by
    rw [List.dropWhile_cons_of_neg]
    rw [h c rfl]
    decide

theorem trimSpaceChars_eq_self (l : List Char)
    (h1 : ∀ c, l.head? = some c → unicode.IsSpace c = false)
    (h2 : ∀ c, l.getLast? = some c → unicode.IsSpace c = false) :
    trimSpaceChars l = l := by
  unfold trimSpaceChars
  rw [dropWhile_eq_self_of_head l h1, dropWhile_eq_self_of_head l.reverse, List.reverse_reverse]
  intro c hc
  rw [List.head?_reverse] at hc
  exact h2 c hc

end strings

namespace handler

open http (Body Response)

theorem not_isSpace_of_isAlnum {c : Char} (h : isAlnum c = true) : unicode.IsSpace c = false := by
  have hm := (mem_alnum_iff c).mpr h
  have hall : ∀ x ∈ letters ++ digits, unicode.IsSpace x = false := by decide
  exact hall c hm

theorem not_isSpace_of_isLetter {c : Char} (h : isLetter c = true) :
    unicode.IsSpace c = false :=
  not_isSpace_of_isAlnum (by simp [isAlnum, h])

/-- A valid domain has no surrounding white space. -/
theorem TrimSpace_of_valid {d : String} (h : isValidDomain d = true) :
    strings.TrimSpace d = d := by
  obtain ⟨_, _, hm⟩ := (isValidDomain_iff d).mp h
  obtain ⟨c, mid, a, b, tl, hx, hc, _, _, hb, htl⟩ := (domainPattern_rmatch_iff d.data).mp hm
  apply String.ext
  show strings.trimSpaceChars d.data = d.data
  apply strings.trimSpaceChars_eq_self
  · intro x hx2
    rw [hx] at hx2
    simp only [List.head?_cons, Option.some.injEq] at hx2
    rw [← hx2]
    exact not_isSpace_of_isAlnum hc
  · intro x hx2
    rw [hx] at hx2
    have hlast : (c :: (mid ++ '.' :: a :: b :: tl)).getLast? = (b :: tl).getLast? := by
      have e : c :: (mid ++ '.' :: a :: b :: tl) = (c :: mid ++ ['.', a]) ++ (b :: tl) := by simp
      rw [e, List.getLast?_append_of_ne_nil _ (by simp)]
    rw [hlast] at hx2
    have hmem : x ∈ b :: tl := by
      obtain ⟨ys, hys⟩ := List.getLast?_eq_some_iff.mp hx2
      rw [hys]; simp
    rcases List.mem_cons.mp hmem with rfl | hmem
    · exact not_isSpace_of_isLetter hb
    · exact not_isSpace_of_isLetter (htl x hmem)

theorem valid_ne_empty {d : String} (h : isValidDomain d = true) : d ≠ "" := by
  rintro rfl
  revert h
  decide

/-- Go `writeJSON` answers 200 with the envelope when the year of its timestamp
has four digits. -/
theorem writeJSON_of_year (v : models.AdsResponse) (h0 : 0 ≤ (time.civil v.Timestamp).year)
    (h1 : (time.civil v.Timestamp).year ≤ 9999) : writeJSON v = ⟨200, Body.ads v⟩ := by
  obtain ⟨b, hb⟩ := (json.Marshal_ok_iff v).2 ⟨h0, h1⟩
  unfold writeJSON
  rw [hb]
  rfl

/-- Go `writeJSON` answers 500 when the envelope cannot be encoded, which is
when the year of its timestamp lies outside 0 to 9999. -/
theorem writeJSON_of_encode_error (v : models.AdsResponse)
    (h : (time.civil v.Timestamp).year < 0 ∨ 9999 < (time.civil v.Timestamp).year) :
    writeJSON v = http.Error "internal error" 500 := by
  unfold writeJSON
  cases hm : json.Marshal v with
  | error err => rfl
  | ok b =>
    have := (json.Marshal_ok_iff v).1 ⟨b, hm⟩
    omega

/-- The response of `GetAds` on a cache miss with a successful fetch is what
`writeJSON` makes of the envelope built. -/
theorem GetAds_on_cache_miss {σ : Type} (s : Server σ) {d content : String} (now : ℤ) (w : World σ)
    (hv : isValidDomain d = true) (hmiss : s.cacheGetAds w.cache d = none)
    (hfetch : s.fetchAdsTxt d = Except.ok content) :
    (GetAds s d now w).1 =
      writeJSON
        { Domain := d
          TotalAdvertisers := (s.parseAdsTxt content).length
          Advertisers := (s.rangeOrder (s.parseAdsTxt content)).map
            (fun e => ({ Domain := e.1, Count := e.2 } : models.Advertiser))
          Cached := false
          Timestamp := now } := by
  unfold GetAds
  simp only [TrimSpace_of_valid hv, valid_ne_empty hv, if_false, hv, Bool.not_true, hmiss,
    hfetch]
  rfl

/-- The response of `GetAds` on a cache miss with a successful fetch, while
the clock reads a year from 0 to 9999. -/
theorem GetAds_on_cache_miss_200 {σ : Type} (s : Server σ) {d content : String} (now : ℤ)
    (w : World σ) (hv : isValidDomain d = true) (hmiss : s.cacheGetAds w.cache d = none)
    (hfetch : s.fetchAdsTxt d = Except.ok content) (h0 : 0 ≤ (time.civil now).year)
    (h1 : (time.civil now).year ≤ 9999) :
    (GetAds s d now w).1 =
      ⟨200, Body.ads
        { Domain := d
          TotalAdvertisers := (s.parseAdsTxt content).length
          Advertisers := (s.rangeOrder (s.parseAdsTxt content)).map
            (fun e => ({ Domain := e.1, Count := e.2 } : models.Advertiser))
          Cached := false
          Timestamp := now }⟩ := by
  rw [GetAds_on_cache_miss s now w hv hmiss hfetch]
  exact writeJSON_of_year _ h0 h1

/-- On a cache miss with a successful fetch `GetAds` answers 500 when the
clock reads a year outside 0 to 9999: the envelope it has built cannot be
encoded. -/
theorem GetAds_on_cache_miss_500 {σ : Type} (s : Server σ) {d content : String} (now : ℤ)
    (w : World σ) (hv : isValidDomain d = true) (hmiss : s.cacheGetAds w.cache d = none)
    (hfetch : s.fetchAdsTxt d = Except.ok content)
    (h : (time.civil now).year < 0 ∨ 9999 < (time.civil now).year) :
    (GetAds s d now w).1 = http.Error "internal error" 500 := by
  rw [GetAds_on_cache_miss s now w hv hmiss hfetch]
  exact writeJSON_of_encode_error _ h

theorem GetAds_envelope {σ : Type} (s : Server σ) {d content : String} (now : ℤ)
    (w : World σ) (hv : isValidDomain d = true) (hparser : s.parseAdsTxt = parser.ParseAdsTxt)
    (hrange : ∀ m, (s.rangeOrder m).Perm m) (hmiss : s.cacheGetAds w.cache d = none)
    (hfetch : s.fetchAdsTxt d = Except.ok content) (h0 : 0 ≤ (time.civil now).year)
    (h1 : (time.civil now).year ≤ 9999) :
    ∃ resp : models.AdsResponse,
      (GetAds s d now w).1 = ⟨200, Body.ads resp⟩ ∧
      resp.Domain = d ∧
      resp.TotalAdvertisers = resp.Advertisers.length ∧
      resp.TotalAdvertisers = (parser.ParseAdsTxt content).length ∧
      ((parser.ParseAdsTxt content).map Prod.fst).Nodup ∧
      (resp.Advertisers.map (fun a => (a.Domain, a.Count))).Perm (parser.ParseAdsTxt content) ∧
      (resp.Advertisers.map (fun a => a.Domain)).Nodup ∧
      ∀ a ∈ resp.Advertisers, 1 ≤ a.Count := by
  have hc := parser.counted_ParseAdsTxt content
  have hperm := hrange (s.parseAdsTxt content)
  refine ⟨_, GetAds_on_cache_miss_200 s now w hv hmiss hfetch h0 h1, rfl, ?_, ?_, hc.nodup,
    ?_, ?_, ?_⟩
  · simp only [List.length_map]
    rw [hperm.length_eq]
  · rw [hparser]
  · simp only [List.map_map]
    rw [← hparser]
    have : ((fun a : models.Advertiser => (a.Domain, a.Count)) ∘
        fun e : String × ℤ => ({ Domain := e.1, Count := e.2 } : models.Advertiser)) = id := by
      funext e; rfl
    rw [this, List.map_id]
    exact hperm
  · simp only [List.map_map]
    have : ((fun a : models.Advertiser => a.Domain) ∘
        fun e : String × ℤ => ({ Domain := e.1, Count := e.2 } : models.Advertiser)) =
        Prod.fst := by
      funext e; rfl
    rw [this]
    have hp2 : ((s.rangeOrder (s.parseAdsTxt content)).map Prod.fst).Perm
        ((s.parseAdsTxt content).map Prod.fst) := hperm.map _
    rw [hp2.nodup_iff, hparser]
    exact hc.nodup
  · intro a ha
    obtain ⟨e, he, rfl⟩ := List.mem_map.mp ha
    have : e ∈ parser.ParseAdsTxt content := by
      rw [← hparser]; exact hperm.subset he
    exact hc.pos e this

/-- C13: for every valid domain `d`, on a cache miss with a successful fetch,
while the clock reads a year from 0 to 9999 (so that the timestamp can be
encoded), `GetAds` (with the parser of the repository) answers 200 with an envelope
whose domain is `d`, whose total advertiser count equals the number of
entries of its advertiser list and the number of keys of the parsed map,
which are distinct, whose list holds each parsed key exactly once with its
count, in the order the range over the map happens to take, and whose counts
are all at least one; with the fetched content
`advertiser.com, pub-123, DIRECT` the total is 1 and the single entry is
`advertiser.com` with count 1. -/
theorem GetAds_miss_builds_envelope :
    (∀ {σ : Type} (s : Server σ) (d content : String) (now : ℤ) (w : World σ),
      isValidDomain d = true → s.parseAdsTxt = parser.ParseAdsTxt →
      (∀ m, (s.rangeOrder m).Perm m) → s.cacheGetAds w.cache d = none →
      s.fetchAdsTxt d = Except.ok content →
      0 ≤ (time.civil now).year → (time.civil now).year ≤ 9999 →
      ∃ resp : models.AdsResponse,
        (GetAds s d now w).1 = ⟨200, Body.ads resp⟩ ∧
        resp.Domain = d ∧
        resp.TotalAdvertisers = resp.Advertisers.length ∧
        resp.TotalAdvertisers = (parser.ParseAdsTxt content).length ∧
        ((parser.ParseAdsTxt content).map Prod.fst).Nodup ∧
        (resp.Advertisers.map (fun a => (a.Domain, a.Count))).Perm
          (parser.ParseAdsTxt content) ∧
        (resp.Advertisers.map (fun a => a.Domain)).Nodup ∧
        ∀ a ∈ resp.Advertisers, 1 ≤ a.Count) ∧
    (∀ (now : ℤ) (w : World Unit),
      0 ≤ (time.civil now).year → (time.civil now).year ≤ 9999 →
      (GetAds testServer "test.com" now w).1 =
        ⟨200, Body.ads
          { Domain := "test.com"
            TotalAdvertisers := 1
            Advertisers := [{ Domain := "advertiser.com", Count := 1 }]
            Cached := false
            Timestamp := now }⟩) := by
  refine ⟨fun s d content now w hv hparser hrange hmiss hfetch h0 h1 =>
    GetAds_envelope s now w hv hparser hrange hmiss hfetch h0 h1, fun now w h0 h1 => ?_⟩
  have h := @GetAds_on_cache_miss_200 Unit testServer "test.com"
    "advertiser.com, pub-123, DIRECT\n" now w (by decide) rfl rfl h0 h1
  rw [h]
  have hp : testServer.parseAdsTxt "advertiser.com, pub-123, DIRECT\n" =
      [("advertiser.com", 1)] := by decide
  rw [hp]
  rfl

theorem GetAds_miss_builds_envelope_witness :
    ∃ resp : models.AdsResponse,
      (GetAds testServer "example.org" 1730678400000000000 ⟨(), []⟩).1 =
        ⟨200, Body.ads resp⟩ ∧
      resp.Domain = "example.org" ∧
      resp.TotalAdvertisers = resp.Advertisers.length ∧
      resp.TotalAdvertisers =
        (parser.ParseAdsTxt "advertiser.com, pub-123, DIRECT\n").length ∧
      ((parser.ParseAdsTxt "advertiser.com, pub-123, DIRECT\n").map Prod.fst).Nodup ∧
      (resp.Advertisers.map (fun a => (a.Domain, a.Count))).Perm
        (parser.ParseAdsTxt "advertiser.com, pub-123, DIRECT\n") ∧
      (resp.Advertisers.map (fun a => a.Domain)).Nodup ∧
      ∀ a ∈ resp.Advertisers, 1 ≤ a.Count :=
  GetAds_miss_builds_envelope.1 testServer "example.org" "advertiser.com, pub-123, DIRECT\n"
    1730678400000000000 ⟨(), []⟩ (by decide) rfl (fun _ => List.Perm.refl _) rfl rfl
    (by decide) (by decide)

end handler
